import Mathlib

/-!
Verification development for the `parsing-test` expression-language front end
(character-level tokenizer in `src/tokenizer/mod.rs` + Pratt parser in
`src/parser/mod.rs`).  The Rust code is shallowly embedded: source text is a
`List Char`, byte offsets are computed from UTF-8 encoded lengths, tokenizer
and parser state is threaded explicitly, Rust panics are modelled by a
distinct `ROut.panicked` outcome, and the two scanner loops that can fail to
advance (`string_lit`, `singleline_comment`) are given explicit fuel, with
`ROut.outOfFuel` marking fuel exhaustion inside such a loop.
-/

set_option maxHeartbeats 1000000

/-- Number of bytes of the UTF-8 encoding of a character (matches
`char_indices` offset deltas in Rust). -/
def utf8Len (c : Char) : Nat :=
  if c.val < 0x80 then 1
  else if c.val < 0x800 then 2
  else if c.val < 0x10000 then 3
  else 4

/-- Total UTF-8 byte length of a character list. -/
def utf8ByteLen (s : List Char) : Nat := (s.map utf8Len).sum

/-- Models Rust's `str::char_indices`, starting at byte offset `i`:
each character paired with its starting byte offset. -/
def charIndices (i : Nat) : List Char → List (Nat × Char)
  | [] => []
  | c :: cs => (i, c) :: charIndices (i + utf8Len c) cs

/-- Drop the first `n` BYTES of a character list; `none` when `n` does not
fall on a character boundary (where Rust slicing would panic). -/
def dropBytes : List Char → Nat → Option (List Char)
  | s, 0 => some s
  | [], _ + 1 => none
  | c :: s, n + 1 =>
    if utf8Len c ≤ n + 1 then dropBytes s (n + 1 - utf8Len c) else none

/-- Take the first `n` BYTES of a character list; `none` when `n` does not
fall on a character boundary. -/
def takeBytes : List Char → Nat → Option (List Char)
  | _, 0 => some []
  | [], _ + 1 => none
  | c :: s, n + 1 =>
    if utf8Len c ≤ n + 1 then (takeBytes s (n + 1 - utf8Len c)).map (c :: ·) else none

/-- Models the Rust byte slice `s[a..b]` of a `&str`: defined only when both
endpoints are in range and on character boundaries (Rust panics otherwise). -/
def strSlice (s : List Char) (a b : Nat) : Option (List Char) :=
  if a ≤ b then (dropBytes s a).bind (fun t => takeBytes t (b - a)) else none

/-! ## Token data model (src/tokenizer/token.rs) -/

/-- `DelimeterType` from token.rs (source spelling kept). -/
inductive DelimeterType where
  | Parentheses
  | Square
  | Curly
deriving DecidableEq, Repr

/-- `DelimeterSide` from token.rs. -/
inductive DelimeterSide where
  | Left
  | Right
deriving DecidableEq, Repr

/-- `Delimeter` from token.rs. -/
structure Delimeter where
  ty : DelimeterType
  side : DelimeterSide
deriving DecidableEq, Repr

/-- `Punctuation` from token.rs.  NOTE: the `token.rs` in the repository
does not declare a `DoubleColon` variant, yet `parser/mod.rs` pattern-matches
`Punctuation::DoubleColon`; the variant is included here so the parser can be
embedded.  The tokenizer embedding below never produces it, faithfully to the
`':' => Punctuation::Colon` arm of `get_token_inner`. -/
inductive Punctuation where
  | Semicolon
  | Comma
  | Colon
  | DoubleColon
  | FatArrow
  | Dot
  | DoubleDot
  | TripleDot
  | HashSymbol
  | AtSign
  | QuestionMark
  | Dollar
  | DoubleDollar
deriving DecidableEq, Repr

/-- `NumberLiteral` from token.rs.  `Integer` holds the mathematical value of
the Rust `u64` (always `< 2^64`; the scanning loop wraps accordingly).
`Real` holds the exact rational computed by the same accumulation algorithm;
`f64` rounding is not modelled (no claim inspects a `Real` value). -/
inductive NumberLiteral where
  | Integer (i : Nat)
  | Real (r : ℚ)
deriving DecidableEq, Repr

/-- `Literal` from token.rs; the owned `String` payload is a `List Char`. -/
inductive Literal where
  | Number (n : NumberLiteral)
  | String (s : List Char)
  | Char (c : Char)
deriving DecidableEq, Repr

/-- `Comment` from token.rs. -/
inductive Comment where
  | SingleLine
  | MultiLine
deriving DecidableEq, Repr

/-- `Operator` from token.rs (all 37 variants). -/
inductive Operator where
  | Plus
  | Minus
  | DoublePlus
  | DoubleMinus
  | Tilda
  | Bang
  | Star
  | Slash
  | BangEquals
  | RightShift
  | LesserThan
  | DoubleStar
  | DoubleAnd
  | DoubleOr
  | DoubleEquals
  | GreaterThan
  | Caret
  | Percent
  | SingleAnd
  | SingleOr
  | LeftShift
  | Equals
  | PlusEquals
  | MinusEquals
  | StarEquals
  | SlashEquals
  | TildaEquals
  | DoubleStarEquals
  | DoubleAndEquals
  | DoubleOrEquals
  | LesserThanEquals
  | GreaterThanEquals
  | CaretEquals
  | PercentEquals
  | SingleAndEquals
  | SingleOrEquals
  | LeftShiftEquals
  | RightShiftEquals
deriving DecidableEq, Repr

/-- `Keyword` from token.rs. -/
inductive Keyword where
  | Underscore
deriving DecidableEq, Repr

/-- `TokenType` from token.rs. -/
inductive TokenType where
  | Identifier
  | Whitespace
  | Punctuation (p : Punctuation)
  | Delimeter (d : Delimeter)
  | Literal (l : Literal)
  | Comment (c : Comment)
  | Operator (o : Operator)
  | Keyword (k : Keyword)
deriving DecidableEq, Repr

/-- `TokenPosition` from token.rs; `text` is the borrowed source slice
`source.text[token_start..=token_end]`. -/
structure TokenPosition where
  absolutePosition : Nat
  line : Nat
  column : Nat
  text : List Char
deriving DecidableEq, Repr

/-- `Token` from token.rs. -/
structure Token where
  position : TokenPosition
  ty : TokenType
deriving DecidableEq, Repr

/-- `Token::text()` (used by the parser via `t.text()` and by
`Display for Path`): the token's source slice. -/
def Token.text (t : Token) : List Char := t.position.text

/-- `get_keyword` from token.rs: the keyword table holds only `_`. -/
def get_keyword (s : List Char) : Option Keyword :=
  if s = ['_'] then some Keyword.Underscore else none

/-! ## Diagnostics (src/main.rs) -/

/-- `DiagnosticType` from main.rs. -/
inductive DiagnosticType where
  | UnclosedMultilineComment
deriving DecidableEq, Repr

/-- `Diagnostic` from main.rs. -/
structure Diagnostic where
  ty : DiagnosticType
  position : TokenPosition
deriving DecidableEq, Repr

/-! ## Tokenizer (src/tokenizer/mod.rs) -/

/-- `TokenizerError` from tokenizer/mod.rs. -/
inductive TokenizerError where
  | UnfinishedString
  | UnfinishedChar
  | AlreadyDone
  | Unexpected (c : Char)
deriving DecidableEq, Repr

/-- `TokenizerItem = Result<Token, TokenizerError>`. -/
abbrev TokenizerItem := Except TokenizerError Token

instance : DecidableEq TokenizerItem := fun a b =>
  match a, b with
  | .ok x, .ok y => if h : x = y then .isTrue (by rw [h]) else .isFalse (by simp [h])
  | .error x, .error y => if h : x = y then .isTrue (by rw [h]) else .isFalse (by simp [h])
  | .ok _, .error _ => .isFalse (by simp)
  | .error _, .ok _ => .isFalse (by simp)

/-- Outcome of running a piece of embedded Rust code: a normal value, a Rust
panic (`todo!()`, `unreachable!()`, out-of-bounds / non-boundary string
slicing), or exhaustion of the explicit fuel supplied for a source-level loop
that cannot be proven to advance. -/
inductive ROut (α : Type) where
  | ok (a : α)
  | panicked
  | outOfFuel
deriving DecidableEq, Repr

/-- The `Tokenizer` struct from tokenizer/mod.rs.  `chrs` is the remaining
portion of the peekable `char_indices` cursor.  `newlines` stores the newline
byte offsets MOST RECENT FIRST (the Rust `Vec` pushes at the back and reads
`last()`; here we cons at the front and read the head), so Rust's
`newlines.last().unwrap()` is `newlines.headD 0`; the list is nonempty by
construction (initialised to `[0]`, only ever extended). -/
structure Tokenizer where
  source : List Char
  token_start : Nat
  token_end : Nat
  start_line : Nat
  start_column : Nat
  chrs : List (Nat × Char)
  newlines : List Nat
  diagnostics : List Diagnostic
  emit_whitespace : Bool
  emit_comments : Bool
deriving DecidableEq, Repr

/-- `Tokenizer::new` (diagnostics sink starts empty; both emit flags default
to suppressed). -/
def Tokenizer.new (src : List Char) : Tokenizer where
  source := src
  token_start := 0
  token_end := 0
  start_line := 1
  start_column := 1
  chrs := charIndices 0 src
  newlines := [0]
  diagnostics := []
  emit_whitespace := false
  emit_comments := false

/-- `pos()`: the `TokenPosition` of the current scan window.  The text field
is the inclusive byte slice `source[token_start..=token_end]`; `none` models
the Rust slicing panic when an endpoint is out of range or off a character
boundary. -/
def Tokenizer.pos (t : Tokenizer) : Option TokenPosition :=
  (strSlice t.source t.token_start (t.token_end + 1)).map fun txt =>
    { absolutePosition := t.token_start
      line := t.start_line
      column := t.start_column
      text := txt }

/-- `next_char()`: advance the character cursor, recording newline offsets
and setting `token_end` to the consumed character's byte offset. -/
def Tokenizer.next_char (t : Tokenizer) : Option Char × Tokenizer :=
  match t.chrs with
  | [] => (none, t)
  | (p, c) :: rest =>
    (some c,
      { t with
        chrs := rest
        token_end := p
        newlines := if c = '\n' then p :: t.newlines else t.newlines })

/-- `peek_char()`. -/
def Tokenizer.peek_char (t : Tokenizer) : Option Char :=
  t.chrs.head?.map (·.2)

/-- `eat(v)`: consume the next character iff it equals `v`. -/
def Tokenizer.eat (t : Tokenizer) (v : Char) : Bool × Tokenizer :=
  if t.peek_char = some v then (true, (t.next_char).2) else (false, t)

/-- `consume()`: commit the current window.  `start_column` is
`token_end - newlines.last()` (Nat subtraction; in Rust the subtraction can
never underflow because newline offsets never exceed consumed offsets). -/
def Tokenizer.consume (t : Tokenizer) : Tokenizer :=
  let ts := t.token_end + 1
  { t with
    token_start := ts
    token_end := ts
    start_line := t.newlines.length
    start_column := ts - t.newlines.headD 0 }

/-- The integer-part accumulation loop of `number()`: digits update the `u64`
accumulator (wrapping, modelled by `% 2^64`), underscores are skipped,
anything else breaks.  The loop recurs structurally on the cursor list,
which is exactly `t.chrs` at every call (each iteration peeks that list and
advances with `next_char`). -/
def number_int_go : List (Nat × Char) → Tokenizer → Nat → Nat × Tokenizer
  | [], t, int_part => (int_part, t)
  | (_, c) :: rest, t, int_part =>
    if '0' ≤ c ∧ c ≤ '9' then
      number_int_go rest (t.next_char).2 ((int_part * 10 + (c.toNat - '0'.toNat)) % 2 ^ 64)
    else if c = '_' then
      number_int_go rest (t.next_char).2 int_part
    else (int_part, t)

def number_int_loop (t : Tokenizer) (int_part : Nat) : Nat × Tokenizer :=
  number_int_go t.chrs t int_part

/-- The fractional-part accumulation loop of `number()`; the `f64`
accumulation `float_part += d * pow; pow *= 0.1` is carried out in exact
rational arithmetic. -/
def number_frac_go : List (Nat × Char) → Tokenizer → ℚ → ℚ → ℚ × Tokenizer
  | [], t, float_part, _ => (float_part, t)
  | (_, c) :: rest, t, float_part, pow =>
    if '0' ≤ c ∧ c ≤ '9' then
      number_frac_go rest (t.next_char).2 (float_part + (c.toNat - '0'.toNat : ℚ) * pow) (pow * (1 / 10))
    else if c = '_' then
      number_frac_go rest (t.next_char).2 float_part pow
    else (float_part, t)

def number_frac_loop (t : Tokenizer) (float_part pow : ℚ) : ℚ × Tokenizer :=
  number_frac_go t.chrs t float_part pow

/-- `number(first_char)` from tokenizer/mod.rs. -/
def Tokenizer.number (t : Tokenizer) (first_char : Char) : NumberLiteral × Tokenizer :=
  let (int_part, t) := number_int_loop t ((first_char.toNat - '0'.toNat) % 2 ^ 64)
  match t.eat '.' with
  | (true, t) =>
    let (float_part, t) := number_frac_loop t 0 (1 / 10)
    (.Real ((int_part : ℚ) + float_part), t)
  | (false, t) => (.Integer int_part, t)

/-- `char_lit()` from tokenizer/mod.rs.  Note the source-faithful slip: in
the escape branch the escaped character is only PEEKED, never consumed, and
the `escape` table is not applied. -/
def Tokenizer.char_lit (t : Tokenizer) : Except TokenizerError Char × Tokenizer :=
  match t.next_char with
  | (none, t) => (.error .UnfinishedChar, t)
  | (some first, t) =>
    match (if first = '\\' then t.peek_char else some first) with
    | none => (.error .UnfinishedChar, t)
    | some c =>
      let (ate, t) := t.eat '\''
      if ate then (.ok c, t) else (.error .UnfinishedChar, t)

/-- `escape` from tokenizer/mod.rs. -/
def escape (c : Char) : Option (List Char) :=
  match c with
  | 'n' => some ['\n']
  | 't' => some ['\t']
  | '0' => some [(Char.ofNat 0)]
  | _ => none

/-- The loop of `string_lit()`.  Source-faithful: the loop only PEEKS and
never advances the cursor, so it terminates only when the peeked character
is an unescaped `"` (break) or the buffer is exhausted (error); `none`
models fuel exhaustion, i.e. the loop running forever. -/
def string_lit_loop (fuel : Nat) (t : Tokenizer) (s : List Char) (escaped : Bool) :
    Option (Except TokenizerError (List Char) × Tokenizer) :=
  match fuel with
  | 0 => none
  | fuel + 1 =>
    match t.peek_char with
    | none => some (.error .UnfinishedString, t)
    | some c =>
      if c = '"' ∧ escaped = false then some (.ok s, t)
      else if c = '\\' ∧ escaped = false then string_lit_loop fuel t s true
      else if escaped then string_lit_loop fuel t (s ++ ((escape c).getD [c])) false
      else string_lit_loop fuel t (s ++ [c]) false

/-- `string_lit()` from tokenizer/mod.rs. -/
def Tokenizer.string_lit (fuel : Nat) (t : Tokenizer) :
    Option (Except TokenizerError (List Char) × Tokenizer) :=
  string_lit_loop fuel t [] false

/-- The loop of `multiline_comment()`: pair-matching over consecutive
characters, starting from the already-consumed previous character `pc`,
with a nesting counter; returns the `closed` flag.  Structural recursion on
the cursor list (`= t.chrs` at every call). -/
def multiline_go : List (Nat × Char) → Tokenizer → Char → Nat → Bool × Tokenizer
  | [], t, _, _ => (false, t)
  | (_, c) :: rest, t, pc, nest =>
    let t1 := (t.next_char).2
    if pc = '*' ∧ c = '/' then
      if nest - 1 = 0 then (true, t1)
      else multiline_go rest t1 c (nest - 1)
    else if pc = '/' ∧ c = '*' then multiline_go rest t1 c (nest + 1)
    else multiline_go rest t1 c nest

def multiline_comment_loop (t : Tokenizer) (pc : Char) (nest : Nat) : Bool × Tokenizer :=
  multiline_go t.chrs t pc nest

/-- `multiline_comment()` from tokenizer/mod.rs: consumes the first
character (the `*` of the opener, since `get_token_inner` only peeked it) as
the initial `pc` and scans with nesting counter 1. -/
def Tokenizer.multiline_comment (t : Tokenizer) : Bool × Tokenizer :=
  match t.next_char with
  | (none, t) => (false, t)
  | (some pc, t) => multiline_comment_loop t pc 1

/-- The loop of `singleline_comment()`.  Source-faithful: the condition is
`peek_char() != Some('\n')`, so at end of input (`peek = None`) the loop
keeps calling `next_char()` (a no-op) forever; `none` models fuel
exhaustion, i.e. the loop running forever. -/
def singleline_comment_loop (fuel : Nat) (t : Tokenizer) : Option Tokenizer :=
  match fuel with
  | 0 => none
  | fuel + 1 =>
    if t.peek_char = some '\n' then some t
    else singleline_comment_loop fuel (t.next_char).2

/-- The run-coalescing loop of the whitespace arm of `get_token_inner`
(structural on the cursor list, `= t.chrs` at every call). -/
def whitespace_go : List (Nat × Char) → Tokenizer → Tokenizer
  | [], t => t
  | (_, c) :: rest, t =>
    if c = ' ' ∨ c = '\t' ∨ c = '\n' then whitespace_go rest (t.next_char).2 else t

def whitespace_loop (t : Tokenizer) : Tokenizer := whitespace_go t.chrs t

/-- Rust `'a'..='z' | 'A'..='Z' | '_' | '0'..='9'` (identifier continuation). -/
def isIdentCont (c : Char) : Bool :=
  ('a' ≤ c ∧ c ≤ 'z') ∨ ('A' ≤ c ∧ c ≤ 'Z') ∨ c = '_' ∨ ('0' ≤ c ∧ c ≤ '9')

/-- Rust `'a'..='z' | 'A'..='Z' | '_'` (identifier start). -/
def isIdentStart (c : Char) : Bool :=
  ('a' ≤ c ∧ c ≤ 'z') ∨ ('A' ≤ c ∧ c ≤ 'Z') ∨ c = '_'

/-- The run-coalescing loop of the identifier/keyword arm of
`get_token_inner` (structural on the cursor list, `= t.chrs` at every
call). -/
def ident_go : List (Nat × Char) → Tokenizer → Tokenizer
  | [], t => t
  | (_, c) :: rest, t =>
    if isIdentCont c then ident_go rest (t.next_char).2 else t

def ident_loop (t : Tokenizer) : Tokenizer := ident_go t.chrs t

/-- The shared tail of every successful arm of `get_token_inner`:
`Some(Ok(Token { position: self.pos(), ty }))` (panics if `pos()` slices off
a character boundary). -/
def Tokenizer.finish_token (t : Tokenizer) (ty : TokenType) :
    ROut (Option TokenizerItem × Tokenizer) :=
  match t.pos with
  | none => .panicked
  | some p => .ok (some (.ok { position := p, ty := ty }), t)

/-- `get_token_inner` from tokenizer/mod.rs: dispatch on the first consumed
character.  `fuel` is only threaded into the two source-level loops that can
fail to advance (`string_lit`, `singleline_comment`).  The Rust range
patterns `'a'..='z' | 'A'..='Z' | '_'` and `'0'..='9'` appear as the
`isIdentStart` / digit tests in the final catch-all (all the literal arms
are disjoint from those ranges, so the dispatch order is preserved). -/
def get_token_inner (fuel : Nat) (t : Tokenizer) : ROut (Option TokenizerItem × Tokenizer) :=
  match t.next_char with
  | (none, t) => .ok (none, t)
  | (some c, t) =>
    match c with
    | '(' => t.finish_token (.Delimeter ⟨.Parentheses, .Left⟩)
    | ')' => t.finish_token (.Delimeter ⟨.Parentheses, .Right⟩)
    | '[' => t.finish_token (.Delimeter ⟨.Square, .Left⟩)
    | ']' => t.finish_token (.Delimeter ⟨.Square, .Right⟩)
    | '{' => t.finish_token (.Delimeter ⟨.Curly, .Left⟩)
    | '}' => t.finish_token (.Delimeter ⟨.Curly, .Right⟩)
    | '@' => t.finish_token (.Punctuation .AtSign)
    | ',' => t.finish_token (.Punctuation .Comma)
    | ';' => t.finish_token (.Punctuation .Semicolon)
    | ':' => t.finish_token (.Punctuation .Colon)
    | '#' => t.finish_token (.Punctuation .HashSymbol)
    | '?' => t.finish_token (.Punctuation .QuestionMark)
    | '$' =>
      match t.eat '$' with
      | (true, t) => t.finish_token (.Punctuation .DoubleDollar)
      | (false, t) => t.finish_token (.Punctuation .Dollar)
    | '=' =>
      match t.peek_char with
      | some '>' => ((t.next_char).2).finish_token (.Punctuation .FatArrow)
      | some '=' => ((t.next_char).2).finish_token (.Operator .DoubleEquals)
      | _ => t.finish_token (.Operator .Equals)
    | '.' =>
      match t.eat '.' with
      | (true, t) =>
        match t.eat '.' with
        | (true, t) => t.finish_token (.Punctuation .TripleDot)
        | (false, t) => t.finish_token (.Punctuation .DoubleDot)
      | (false, t) => t.finish_token (.Punctuation .Dot)
    | ' ' => (whitespace_loop t).finish_token .Whitespace
    | '\t' => (whitespace_loop t).finish_token .Whitespace
    | '\n' => (whitespace_loop t).finish_token .Whitespace
    | '\'' =>
      match t.char_lit with
      | (.error e, t) => .ok (some (.error e), t)
      | (.ok ch, t) => t.finish_token (.Literal (.Char ch))
    | '"' =>
      match t.string_lit fuel with
      | none => .outOfFuel
      | some (.error e, t) => .ok (some (.error e), t)
      | some (.ok s, t) => t.finish_token (.Literal (.String s))
    | '+' =>
      match t.peek_char with
      | some '=' => ((t.next_char).2).finish_token (.Operator .PlusEquals)
      | some '+' => ((t.next_char).2).finish_token (.Operator .DoublePlus)
      | _ => t.finish_token (.Operator .Plus)
    | '-' =>
      match t.peek_char with
      | some '=' => ((t.next_char).2).finish_token (.Operator .MinusEquals)
      | some '-' => ((t.next_char).2).finish_token (.Operator .DoubleMinus)
      | _ => t.finish_token (.Operator .Minus)
    | '*' =>
      match t.peek_char with
      | some '=' => ((t.next_char).2).finish_token (.Operator .StarEquals)
      | some '*' =>
        match ((t.next_char).2).eat '=' with
        | (true, t) => t.finish_token (.Operator .DoubleStarEquals)
        | (false, t) => t.finish_token (.Operator .DoubleStar)
      | _ => t.finish_token (.Operator .Star)
    | '!' =>
      match t.eat '=' with
      | (true, t) => t.finish_token (.Operator .BangEquals)
      | (false, t) => t.finish_token (.Operator .Bang)
    | '~' =>
      match t.eat '=' with
      | (true, t) => t.finish_token (.Operator .TildaEquals)
      | (false, t) => t.finish_token (.Operator .Tilda)
    | '^' =>
      match t.eat '=' with
      | (true, t) => t.finish_token (.Operator .CaretEquals)
      | (false, t) => t.finish_token (.Operator .Caret)
    | '%' =>
      match t.eat '=' with
      | (true, t) => t.finish_token (.Operator .PercentEquals)
      | (false, t) => t.finish_token (.Operator .Percent)
    | '/' =>
      match t.peek_char with
      | some '*' =>
        match t.multiline_comment with
        | (true, t) => t.finish_token (.Comment .MultiLine)
        | (false, t) =>
          match t.pos with
          | none => .panicked
          | some p =>
            let td : Tokenizer :=
              { t with diagnostics :=
                  t.diagnostics ++ [{ ty := .UnclosedMultilineComment, position := p }] }
            td.finish_token (.Comment .MultiLine)
      | some '/' =>
        match singleline_comment_loop fuel t with
        | none => .outOfFuel
        | some t => t.finish_token (.Comment .SingleLine)
      | some '=' => ((t.next_char).2).finish_token (.Operator .SlashEquals)
      | _ => t.finish_token (.Operator .Slash)
    | '&' =>
      match t.peek_char with
      | some '&' =>
        match ((t.next_char).2).eat '=' with
        | (true, t) => t.finish_token (.Operator .DoubleAndEquals)
        | (false, t) => t.finish_token (.Operator .DoubleAnd)
      | some '=' => ((t.next_char).2).finish_token (.Operator .SingleAndEquals)
      | _ => t.finish_token (.Operator .SingleAnd)
    | '|' =>
      match t.peek_char with
      | some '|' =>
        match ((t.next_char).2).eat '=' with
        | (true, t) => t.finish_token (.Operator .DoubleOrEquals)
        | (false, t) => t.finish_token (.Operator .DoubleOr)
      | some '=' => ((t.next_char).2).finish_token (.Operator .SingleOrEquals)
      | _ => t.finish_token (.Operator .SingleOr)
    | '<' =>
      match t.peek_char with
      | some '=' => ((t.next_char).2).finish_token (.Operator .LesserThanEquals)
      | some '<' =>
        if ((t.next_char).2).peek_char = some '=' then
          ((((t.next_char).2).next_char).2).finish_token (.Operator .LeftShiftEquals)
        else ((t.next_char).2).finish_token (.Operator .LeftShift)
      | _ => t.finish_token (.Operator .LesserThan)
    | '>' =>
      match t.peek_char with
      | some '=' => ((t.next_char).2).finish_token (.Operator .GreaterThanEquals)
      | some '>' =>
        if ((t.next_char).2).peek_char = some '=' then
          ((((t.next_char).2).next_char).2).finish_token (.Operator .RightShiftEquals)
        else ((t.next_char).2).finish_token (.Operator .RightShift)
      | _ => t.finish_token (.Operator .GreaterThan)
    | b =>
      if isIdentStart b then
        match (ident_loop t).pos with
        | none => .panicked
        | some p =>
          (ident_loop t).finish_token
            (match get_keyword p.text with
             | some k => .Keyword k
             | none => .Identifier)
      else if '0' ≤ b ∧ b ≤ '9' then
        let (n, t) := t.number b
        t.finish_token (.Literal (.Number n))
      else .ok (some (.error (.Unexpected b)), t)

/-- `get_token` from tokenizer/mod.rs: the filtering loop around
`get_token_inner` (the loop consumes one unit of fuel per iteration;
`consume()` runs after every inner call, matching the source). -/
def get_token : Nat → Tokenizer → ROut (Option TokenizerItem × Tokenizer)
  | 0, _ => .outOfFuel
  | fuel + 1, t =>
    match get_token_inner fuel t with
    | .panicked => .panicked
    | .outOfFuel => .outOfFuel
    | .ok (r, t1) =>
      let t2 := t1.consume
      match r with
      | some (.ok tok) =>
        match tok.ty with
        | .Whitespace =>
          if t2.emit_whitespace then .ok (some (.ok tok), t2) else get_token fuel t2
        | .Comment c =>
          if t2.emit_comments then .ok (some (.ok tok), t2) else get_token fuel t2
        | _ => .ok (some (.ok tok), t2)
      | r => .ok (r, t2)

/-- Draining the tokenizer as an iterator (`for t in Tokenizer::new(..)`,
as in `print_tokens`): collect every item (tokens AND errors — the iterator
keeps scanning past error items) until the stream yields `None`; also
returns the final tokenizer state (carrying the diagnostics sink). -/
def tokenize_run : Nat → Tokenizer → ROut (List TokenizerItem × Tokenizer)
  | 0, _ => .outOfFuel
  | fuel + 1, t =>
    match get_token fuel t with
    | .panicked => .panicked
    | .outOfFuel => .outOfFuel
    | .ok (none, t1) => .ok ([], t1)
    | .ok (some it, t1) =>
      match tokenize_run fuel t1 with
      | .ok (l, t2) => .ok (it :: l, t2)
      | .panicked => .panicked
      | .outOfFuel => .outOfFuel

/-- The item list of a full tokenizer drain. -/
def tokenize_items (fuel : Nat) (t : Tokenizer) : ROut (List TokenizerItem) :=
  match tokenize_run fuel t with
  | .ok (l, _) => .ok l
  | .panicked => .panicked
  | .outOfFuel => .outOfFuel

/-! ## Parser data model (src/parser/expression.rs) -/

/-- `Path` from expression.rs (named `EPath` here, `Path` being taken by the
ambient library): head identifier text plus optional tail of further
identifier tokens. -/
structure EPath where
  head : List Char
  tail : Option (List Token)
deriving DecidableEq, Repr

/-- `Path::new`. -/
def EPath.new (head : List Char) (tail : Option (List Token)) : EPath :=
  { head := head, tail := tail }

/-- `Expression` from expression.rs.  Constructor names are adjusted where
the source's names collide with reserved words of the host: `unop` is the
source's `Prefix` variant, `binop` is `Infix`, `postop` is `Postfix`; the
`Index` field `with` is `idx` here. -/
inductive Expr where
  | unop (op : Operator) (right : Expr)
  | binop (left : Expr) (op : Operator) (right : Expr)
  | postop (left : Expr) (op : Operator)
  | Call (function : EPath) (arguments : List Expr)
  | Name (p : EPath)
  | Lit (value : Literal)
  | Index (expr : Expr) (idx : Expr)

/-! ## Parser (src/parser/mod.rs) -/

/-- `ParserError` from parser/mod.rs. -/
inductive ParserError where
  | Tokenizer (e : TokenizerError)
  | Unexpected (found : Option TokenType) (expected : String)
  | UnexpectedEnd
deriving DecidableEq, Repr

/-- The `Parser` struct: the `Peekable` wrapper around the tokenizer.
`peeked = some v` models Rust `Peekable`'s filled slot (`v = none` records
an already-observed end of stream). -/
structure Parser where
  peeked : Option (Option TokenizerItem)
  tok : Tokenizer
deriving DecidableEq, Repr

/-- `Parser::new` over a fresh tokenizer for the given source (as in
`main.rs`: default emit flags, empty diagnostics sink). -/
def Parser.new (src : List Char) : Parser :=
  { peeked := none, tok := Tokenizer.new src }

/-- `self.tokenizer.next()`: take the peeked slot if filled, else pull one
item from the tokenizer (`tfuel` is the fuel given to each pull). -/
def Parser.next_item (tfuel : Nat) (p : Parser) : ROut (Option TokenizerItem × Parser) :=
  match p.peeked with
  | some v => .ok (v, { p with peeked := none })
  | none =>
    match get_token tfuel p.tok with
    | .ok (r, t) => .ok (r, { peeked := none, tok := t })
    | .panicked => .panicked
    | .outOfFuel => .outOfFuel

/-- `self.tokenizer.peek()`: fill (if needed) and read the slot. -/
def Parser.peek_item (tfuel : Nat) (p : Parser) : ROut (Option TokenizerItem × Parser) :=
  match p.peeked with
  | some v => .ok (v, p)
  | none =>
    match get_token tfuel p.tok with
    | .ok (r, t) => .ok (r, { peeked := some r, tok := t })
    | .panicked => .panicked
    | .outOfFuel => .outOfFuel

/-- `next_token()` from parser/mod.rs. -/
def Parser.next_token (tfuel : Nat) (p : Parser) :
    ROut (Except TokenizerError (Option Token) × Parser) :=
  match p.next_item tfuel with
  | .ok (some (.ok t), p) => .ok (.ok (some t), p)
  | .ok (some (.error e), p) => .ok (.error e, p)
  | .ok (none, p) => .ok (.ok none, p)
  | .panicked => .panicked
  | .outOfFuel => .outOfFuel

/-- `peek_token()` from parser/mod.rs (an error item is reported but stays
in the peeked slot). -/
def Parser.peek_token (tfuel : Nat) (p : Parser) :
    ROut (Except TokenizerError (Option Token) × Parser) :=
  match p.peek_item tfuel with
  | .ok (some (.ok t), p) => .ok (.ok (some t), p)
  | .ok (some (.error e), p) => .ok (.error e, p)
  | .ok (none, p) => .ok (.ok none, p)
  | .panicked => .panicked
  | .outOfFuel => .outOfFuel

/-- `next_token_ty()` from parser/mod.rs. -/
def Parser.next_token_ty (tfuel : Nat) (p : Parser) :
    ROut (Except TokenizerError (Option TokenType) × Parser) :=
  match p.next_token tfuel with
  | .ok (.ok r, p) => .ok (.ok (r.map Token.ty), p)
  | .ok (.error e, p) => .ok (.error e, p)
  | .panicked => .panicked
  | .outOfFuel => .outOfFuel

/-- `peek_token_ty()` from parser/mod.rs. -/
def Parser.peek_token_ty (tfuel : Nat) (p : Parser) :
    ROut (Except TokenizerError (Option TokenType) × Parser) :=
  match p.peek_token tfuel with
  | .ok (.ok r, p) => .ok (.ok (r.map Token.ty), p)
  | .ok (.error e, p) => .ok (.error e, p)
  | .panicked => .panicked
  | .outOfFuel => .outOfFuel

/-- `prefix_binding_power` from parser/mod.rs. -/
def prefix_binding_power (op : Operator) : Option (Unit × Nat) :=
  match op with
  | .Plus | .Minus => some ((), 5)
  | .DoublePlus | .DoubleMinus => some ((), 5)
  | _ => none

/-- `infix_binding_power` from parser/mod.rs.  The long list of explicitly
unimplemented operators (`todo!()` arms in the source) panics when matched;
`Tilda` and `Bang` fall through to the final `_ => return None`, as do all
non-operator token types. -/
def infix_binding_power (op : TokenType) : ROut (Option (Nat × Nat)) :=
  match op with
  | .Operator o =>
    match o with
    | .Plus | .Minus => .ok (some (1, 2))
    | .Star | .Slash => .ok (some (3, 4))
    | .DoublePlus | .DoubleMinus | .BangEquals | .RightShift | .LesserThan
    | .DoubleStar | .DoubleAnd | .DoubleOr | .DoubleEquals | .GreaterThan
    | .Caret | .Percent | .SingleAnd | .SingleOr | .LeftShift
    | .Equals | .PlusEquals | .MinusEquals | .StarEquals | .SlashEquals
    | .TildaEquals | .DoubleStarEquals | .DoubleAndEquals | .DoubleOrEquals
    | .LesserThanEquals | .GreaterThanEquals | .CaretEquals | .PercentEquals
    | .SingleAndEquals | .SingleOrEquals | .LeftShiftEquals
    | .RightShiftEquals => .panicked
    | _ => .ok none
  | _ => .ok none

/-- `postfix_binding_power` from parser/mod.rs. -/
def postfix_binding_power (op : TokenType) : Option (Nat × Unit) :=
  match op with
  | .Operator .Bang => some (7, ())
  | .Delimeter ⟨.Square, .Left⟩ => some (7, ())
  | _ => none

/-- The head pattern of the climbing loop in `expr_bp`:
`Ty::Operator(_) | Ty::Delimeter(Delimeter { ty: Square, .. })`. -/
def is_bp_candidate (ty : TokenType) : Bool :=
  match ty with
  | .Operator _ => true
  | .Delimeter ⟨.Square, _⟩ => true
  | _ => false

mutual

/-- `expr_primary` from parser/mod.rs.  The `todo!()` hit when the leading
token is an operator without a prefix binding power is `ROut.panicked`. -/
def expr_primary (tfuel pfuel : Nat) (p : Parser) :
    ROut (Except ParserError Expr × Parser) :=
  match pfuel with
  | 0 => .outOfFuel
  | pfuel + 1 =>
    match p.next_token tfuel with
    | .panicked => .panicked
    | .outOfFuel => .outOfFuel
    | .ok (.error e, p) => .ok (.error (.Tokenizer e), p)
    | .ok (.ok none, p) => .ok (.error .UnexpectedEnd, p)
    | .ok (.ok (some tok), p) =>
      match tok.ty with
      | .Literal value => .ok (.ok (.Lit value), p)
      | .Identifier =>
        match p.peek_token_ty tfuel with
        | .panicked => .panicked
        | .outOfFuel => .outOfFuel
        | .ok (.error e, p) => .ok (.error (.Tokenizer e), p)
        | .ok (.ok r, p) =>
          match r with
          | some (.Delimeter ⟨.Parentheses, .Left⟩) =>
            match p.next_token tfuel with
            | .panicked => .panicked
            | .outOfFuel => .outOfFuel
            | .ok (.error e, p) => .ok (.error (.Tokenizer e), p)
            | .ok (.ok _, p) => call_expr_loop tfuel pfuel (EPath.new tok.text none) [] p
          | some (.Punctuation .DoubleColon) =>
            match p.next_token tfuel with
            | .panicked => .panicked
            | .outOfFuel => .outOfFuel
            | .ok (.error e, p) => .ok (.error (.Tokenizer e), p)
            | .ok (.ok _, p) =>
              match path_tail_loop tfuel pfuel [] p with
              | .panicked => .panicked
              | .outOfFuel => .outOfFuel
              | .ok (.error e, p) => .ok (.error e, p)
              | .ok (.ok tail, p) =>
                let pa := EPath.new tok.text (some tail)
                match p.peek_token_ty tfuel with
                | .panicked => .panicked
                | .outOfFuel => .outOfFuel
                | .ok (.error e, p) => .ok (.error (.Tokenizer e), p)
                | .ok (.ok r2, p) =>
                  match r2 with
                  | some (.Delimeter ⟨.Parentheses, .Left⟩) =>
                    match p.next_token tfuel with
                    | .panicked => .panicked
                    | .outOfFuel => .outOfFuel
                    | .ok (.error e, p) => .ok (.error (.Tokenizer e), p)
                    | .ok (.ok _, p) => call_expr_loop tfuel pfuel pa [] p
                  | _ => .ok (.ok (.Name pa), p)
          | _ => .ok (.ok (.Name (EPath.new tok.text none)), p)
      | .Delimeter ⟨.Parentheses, .Left⟩ =>
        match expr_bp tfuel pfuel 0 p with
        | .panicked => .panicked
        | .outOfFuel => .outOfFuel
        | .ok (.error e, p) => .ok (.error e, p)
        | .ok (.ok lhs, p) =>
          match p.next_token_ty tfuel with
          | .panicked => .panicked
          | .outOfFuel => .outOfFuel
          | .ok (.error e, p) => .ok (.error (.Tokenizer e), p)
          | .ok (.ok (some (.Delimeter ⟨.Parentheses, .Right⟩)), p) => .ok (.ok lhs, p)
          | .ok (.ok found, p) =>
            .ok (.error (.Unexpected found "a matching right parenthesis"), p)
      | .Operator op =>
        match prefix_binding_power op with
        | none => .panicked
        | some ((), r_bp) =>
          match expr_bp tfuel pfuel r_bp p with
          | .panicked => .panicked
          | .outOfFuel => .outOfFuel
          | .ok (.error e, p) => .ok (.error e, p)
          | .ok (.ok rhs, p) => .ok (.ok (.unop op rhs), p)
      | _ => .ok (.error (.Unexpected (some tok.ty) "a literal or an identifier"), p)

/-- The `while let Some(Token { ty: Identifier, .. }) = self.peek_token()?`
tail-collection loop of the scope-separator branch of `expr_primary`.  The
`self.next_token()?.unwrap()` is modelled with a `panicked` outcome for the
impossible `None`. -/
def path_tail_loop (tfuel pfuel : Nat) (tail : List Token) (p : Parser) :
    ROut (Except ParserError (List Token) × Parser) :=
  match pfuel with
  | 0 => .outOfFuel
  | pfuel + 1 =>
    match p.peek_token tfuel with
    | .panicked => .panicked
    | .outOfFuel => .outOfFuel
    | .ok (.error e, p) => .ok (.error (.Tokenizer e), p)
    | .ok (.ok r, p) =>
      match r with
      | some { ty := .Identifier, .. } =>
        match p.next_token tfuel with
        | .panicked => .panicked
        | .outOfFuel => .outOfFuel
        | .ok (.error e, p) => .ok (.error (.Tokenizer e), p)
        | .ok (.ok none, _) => .panicked
        | .ok (.ok (some tok), p) =>
          let tail := tail ++ [tok]
          match p.peek_token_ty tfuel with
          | .panicked => .panicked
          | .outOfFuel => .outOfFuel
          | .ok (.error e, p) => .ok (.error (.Tokenizer e), p)
          | .ok (.ok (some (.Punctuation .DoubleColon)), p) =>
            match p.next_token tfuel with
            | .panicked => .panicked
            | .outOfFuel => .outOfFuel
            | .ok (.error e, p) => .ok (.error (.Tokenizer e), p)
            | .ok (.ok _, p) => path_tail_loop tfuel pfuel tail p
          | .ok (.ok _, p) => .ok (.ok tail, p)
      | _ => .ok (.ok tail, p)

/-- `expr_bp` from parser/mod.rs: primary expression, then the climbing
loop. -/
def expr_bp (tfuel pfuel : Nat) (min_bp : Nat) (p : Parser) :
    ROut (Except ParserError Expr × Parser) :=
  match pfuel with
  | 0 => .outOfFuel
  | pfuel + 1 =>
    match expr_primary tfuel pfuel p with
    | .panicked => .panicked
    | .outOfFuel => .outOfFuel
    | .ok (.error e, p) => .ok (.error e, p)
    | .ok (.ok lhs, p) => expr_bp_loop tfuel pfuel min_bp lhs p

/-- The `while let Some(op @ (Operator(_) | Delimeter(Square)))` climbing
loop of `expr_bp`.  Unimplemented infix operators panic inside
`infix_binding_power`; the `unreachable!()` arms are `panicked`. -/
def expr_bp_loop (tfuel pfuel : Nat) (min_bp : Nat) (lhs : Expr) (p : Parser) :
    ROut (Except ParserError Expr × Parser) :=
  match pfuel with
  | 0 => .outOfFuel
  | pfuel + 1 =>
    match p.peek_token_ty tfuel with
    | .panicked => .panicked
    | .outOfFuel => .outOfFuel
    | .ok (.error e, p) => .ok (.error (.Tokenizer e), p)
    | .ok (.ok none, p) => .ok (.ok lhs, p)
    | .ok (.ok (some opTy), p) =>
      if is_bp_candidate opTy = false then .ok (.ok lhs, p)
      else
        match postfix_binding_power opTy with
        | some (l_bp, ()) =>
          if l_bp < min_bp then .ok (.ok lhs, p)
          else
            match p.next_token tfuel with
            | .panicked => .panicked
            | .outOfFuel => .outOfFuel
            | .ok (.error e, p) => .ok (.error (.Tokenizer e), p)
            | .ok (.ok _, p) =>
              if opTy = .Delimeter ⟨.Square, .Left⟩ then
                match expr_bp tfuel pfuel 0 p with
                | .panicked => .panicked
                | .outOfFuel => .outOfFuel
                | .ok (.error e, p) => .ok (.error e, p)
                | .ok (.ok rhs, p) =>
                  match p.next_token_ty tfuel with
                  | .panicked => .panicked
                  | .outOfFuel => .outOfFuel
                  | .ok (.error e, p) => .ok (.error (.Tokenizer e), p)
                  | .ok (.ok (some (.Delimeter ⟨.Square, .Right⟩)), p) =>
                    expr_bp_loop tfuel pfuel min_bp (.Index lhs rhs) p
                  | .ok (.ok found, p) =>
                    .ok (.error (.Unexpected found "a matching right square bracket"), p)
              else
                match opTy with
                | .Operator op => expr_bp_loop tfuel pfuel min_bp (.postop lhs op) p
                | _ => .panicked
        | none =>
          match infix_binding_power opTy with
          | .panicked => .panicked
          | .outOfFuel => .outOfFuel
          | .ok none => .ok (.ok lhs, p)
          | .ok (some (l_bp, r_bp)) =>
            if l_bp < min_bp then .ok (.ok lhs, p)
            else
              match p.next_token tfuel with
              | .panicked => .panicked
              | .outOfFuel => .outOfFuel
              | .ok (.error e, p) => .ok (.error (.Tokenizer e), p)
              | .ok (.ok _, p) =>
                match expr_bp tfuel pfuel r_bp p with
                | .panicked => .panicked
                | .outOfFuel => .outOfFuel
                | .ok (.error e, p) => .ok (.error e, p)
                | .ok (.ok rhs, p) =>
                  match opTy with
                  | .Operator op => expr_bp_loop tfuel pfuel min_bp (.binop lhs op rhs) p
                  | _ => .panicked

/-- The argument loop of `call_expr` from parser/mod.rs (one argument is
always parsed before the closing parenthesis is checked). -/
def call_expr_loop (tfuel pfuel : Nat) (function : EPath) (args : List Expr) (p : Parser) :
    ROut (Except ParserError Expr × Parser) :=
  match pfuel with
  | 0 => .outOfFuel
  | pfuel + 1 =>
    match expr_bp tfuel pfuel 0 p with
    | .panicked => .panicked
    | .outOfFuel => .outOfFuel
    | .ok (.error e, p) => .ok (.error e, p)
    | .ok (.ok arg, p) =>
      let args := args ++ [arg]
      match p.peek_token_ty tfuel with
      | .panicked => .panicked
      | .outOfFuel => .outOfFuel
      | .ok (.error e, p) => .ok (.error (.Tokenizer e), p)
      | .ok (.ok (some (.Delimeter ⟨.Parentheses, .Right⟩)), p) =>
        match p.next_token tfuel with
        | .panicked => .panicked
        | .outOfFuel => .outOfFuel
        | .ok (.error e, p) => .ok (.error (.Tokenizer e), p)
        | .ok (.ok _, p) => .ok (.ok (.Call function args), p)
      | .ok (.ok (some (.Punctuation .Comma)), p) =>
        match p.next_token tfuel with
        | .panicked => .panicked
        | .outOfFuel => .outOfFuel
        | .ok (.error e, p) => .ok (.error (.Tokenizer e), p)
        | .ok (.ok _, p) => call_expr_loop tfuel pfuel function args p
      | .ok (.ok ty, p) =>
        .ok (.error
          (.Unexpected ty "a comma after the argument, or a parenthesis closing the agument list"), p)

end

/-- `expr()` from parser/mod.rs: `expr_bp(0)`. -/
def Parser.expr (tfuel pfuel : Nat) (p : Parser) :
    ROut (Except ParserError Expr × Parser) :=
  expr_bp tfuel pfuel 0 p

/-- Run the whole front end on a source text (as `main.rs` does): build the
default tokenizer and parser and call `expr()`, returning only the parse
result. -/
def run_expr (tfuel pfuel : Nat) (src : List Char) : ROut (Except ParserError Expr) :=
  match Parser.expr tfuel pfuel (Parser.new src) with
  | .ok (r, _) => .ok r
  | .panicked => .panicked
  | .outOfFuel => .outOfFuel

/-! ## Display rendering (expression.rs / token.rs `Display` impls) -/

/-- Decimal digits of `n` accumulated most-significant first (the output of
Rust's `u64` `Display`); structurally fuelled (`fuel ≥ n + 1` always
suffices, and `natToDecimal` supplies it). -/
def natToDecimalAux : Nat → Nat → List Char → List Char
  | 0, _, acc => acc
  | fuel + 1, n, acc =>
    if n < 10 then Char.ofNat (48 + n) :: acc
    else natToDecimalAux fuel (n / 10) (Char.ofNat (48 + n % 10) :: acc)

/-- Rust `u64` `Display`: plain base-10. -/
def natToDecimal (n : Nat) : List Char := natToDecimalAux (n + 1) n []

/-- `Display for Operator` from token.rs. -/
def renderOp (o : Operator) : List Char :=
  match o with
  | .Plus => ['+']
  | .Minus => ['-']
  | .DoublePlus => ['+', '+']
  | .DoubleMinus => ['-', '-']
  | .Tilda => ['~']
  | .Bang => ['!']
  | .Star => ['*']
  | .Slash => ['/']
  | .BangEquals => ['!', '=']
  | .RightShift => ['>', '>']
  | .LesserThan => ['<']
  | .DoubleStar => ['*', '*']
  | .DoubleAnd => ['&', '&']
  | .DoubleOr => ['|', '|']
  | .DoubleEquals => ['=', '=']
  | .GreaterThan => ['>']
  | .Caret => ['^']
  | .Percent => ['%']
  | .SingleAnd => ['&']
  | .SingleOr => ['|']
  | .LeftShift => ['<', '<']
  | .Equals => ['=']
  | .PlusEquals => ['+', '=']
  | .MinusEquals => ['-', '=']
  | .StarEquals => ['*', '=']
  | .SlashEquals => ['/', '=']
  | .TildaEquals => ['~', '=']
  | .DoubleStarEquals => ['*', '*', '=']
  | .DoubleAndEquals => ['&', '&', '=']
  | .DoubleOrEquals => ['|', '|', '=']
  | .LesserThanEquals => ['<', '=']
  | .GreaterThanEquals => ['>', '=']
  | .CaretEquals => ['^', '=']
  | .PercentEquals => ['%', '=']
  | .SingleAndEquals => ['&', '=']
  | .SingleOrEquals => ['|', '=']
  | .LeftShiftEquals => ['<', '<', '=']
  | .RightShiftEquals => ['>', '>', '=']

/-- `Display for Literal` / `Display for NumberLiteral` from token.rs.
Rendering a `Real` is Rust `f64` formatting, which is floating-point
behaviour outside this embedding: `none`.  All other literals render
exactly as in the source. -/
def renderLit (l : Literal) : Option (List Char) :=
  match l with
  | .Number (.Integer i) => some (natToDecimal i)
  | .Number (.Real _) => none
  | .String s => some ('"' :: (s ++ ['"']))
  | .Char c => some ['\'', c, '\'']

/-- `Display for Path` from expression.rs: head, then `::segment` for each
tail token. -/
def renderPath (p : EPath) : List Char :=
  p.head ++
    (match p.tail with
     | none => []
     | some tail => (tail.map (fun n => [':', ':'] ++ n.text)).flatten)

mutual

/-- `Display for Expression` from expression.rs. -/
def renderExpr : Expr → Option (List Char)
  | .Name p => some (renderPath p)
  | .Lit value => renderLit value
  | .unop op right =>
    match renderExpr right with
    | some rs => some (['('] ++ renderOp op ++ rs ++ [')'])
    | none => none
  | .binop left op right =>
    match renderExpr left, renderExpr right with
    | some ls, some rs =>
      some (['('] ++ ls ++ [' '] ++ renderOp op ++ [' '] ++ rs ++ [')'])
    | _, _ => none
  | .Index expr idx =>
    match renderExpr expr, renderExpr idx with
    | some es, some is => some (['('] ++ es ++ ['['] ++ is ++ [']', ')'])
    | _, _ => none
  | .postop left op =>
    match renderExpr left with
    | some ls => some (['('] ++ ls ++ renderOp op ++ [')'])
    | none => none
  | .Call function arguments =>
    match renderArgs arguments with
    | some as_ => some (['('] ++ renderPath function ++ ['('] ++ as_ ++ [')', ')'])
    | none => none

/-- The argument list of `Display for Expression`'s `Call` arm: first
argument bare, the rest preceded by `", "`. -/
def renderArgs : List Expr → Option (List Char)
  | [] => some []
  | a :: as_ =>
    match renderExpr a, renderArgsTail as_ with
    | some s, some ts => some (s ++ ts)
    | _, _ => none

/-- Tail arguments, each preceded by `", "`. -/
def renderArgsTail : List Expr → Option (List Char)
  | [] => some []
  | a :: as_ =>
    match renderExpr a, renderArgsTail as_ with
    | some s, some ts => some ([',', ' '] ++ s ++ ts)
    | _, _ => none

end

/-! ## Derived notions used by the claim statements -/

/-- Diagnostics sink contents after a full tokenizer drain. -/
def tokenize_diags (fuel : Nat) (t : Tokenizer) : ROut (List Diagnostic) :=
  match tokenize_run fuel t with
  | .ok (_, t1) => .ok t1.diagnostics
  | .panicked => .panicked
  | .outOfFuel => .outOfFuel

/-- Every character is a single UTF-8 byte (ASCII input). -/
def asciiSrc (src : List Char) : Prop := ∀ c ∈ src, utf8Len c = 1

/-- Byte offset of the `i`-th character of `src`. -/
def off (src : List Char) (i : Nat) : Nat := utf8ByteLen (src.take i)

/-- Index of the last `'\n'` strictly before character index `p`, if any. -/
def lastNewlineBefore (src : List Char) : Nat → Option Nat
  | 0 => none
  | i + 1 => if src.getD i ' ' = '\n' then some i else lastNewlineBefore src i

/-- The 1-based line number of character index `p` (ASCII source, so byte
offset = character index). -/
def specLine (src : List Char) (p : Nat) : Nat := 1 + (src.take p).count '\n'

/-- The 1-based column of character index `p` within its line: `k` when the
character is the `k`-th character of its line (what claim C6 asserts the
tokenizer reports). -/
def specColumn (src : List Char) (p : Nat) : Nat :=
  match lastNewlineBefore src p with
  | some q => p - q
  | none => p + 1

/-- The column the code actually computes for a token starting at `p`:
`p - (offset of most recent newline, with sentinel 0)`. -/
def codeColumn (src : List Char) (p : Nat) : Nat :=
  p - ((lastNewlineBefore src p).getD 0)

/-! ## Canonical tokenizer states (proof infrastructure)

`stateAt src i d L C ws cm` is the tokenizer state at a token boundary after
consuming the first `i` characters whose byte offsets are all "clean" (the
previous token ended in a single-byte character): the scan window is
collapsed at byte offset `off src i`.  `Tokenizer.new src =
stateAt src 0 [] 1 1 false false` definitionally. -/

/-- The `newlines` vector (most recent first, sentinel 0 last) after
consuming the first `i` characters of `src`. -/
def nlOffsets (src : List Char) : Nat → List Nat
  | 0 => [0]
  | i + 1 =>
    if src.getD i ' ' = '\n' then off src i :: nlOffsets src i
    else nlOffsets src i

/-- The `start_line` value `consume()` computes at character boundary `i`. -/
def stdL (src : List Char) (i : Nat) : Nat := (nlOffsets src i).length

/-- The `start_column` value `consume()` computes at character boundary `i`. -/
def stdC (src : List Char) (i : Nat) : Nat :=
  off src i - (nlOffsets src i).headD 0

/-- Tokenizer state at a clean token boundary `i`. -/
def stateAt (src : List Char) (i : Nat) (d : List Diagnostic) (L C : Nat)
    (ws cm : Bool) : Tokenizer where
  source := src
  token_start := off src i
  token_end := off src i
  start_line := L
  start_column := C
  chrs := charIndices (off src i) (src.drop i)
  newlines := nlOffsets src i
  diagnostics := d
  emit_whitespace := ws
  emit_comments := cm

/-- Tokenizer state in the middle of scanning a token that started at
character boundary `i` whose last consumed character ends at byte offset
`off src m` and is a single byte (so `token_end`, the start byte of the last
consumed character, is `off src m - 1`). -/
def midState (src : List Char) (i m : Nat) (d : List Diagnostic) (L C : Nat)
    (ws cm : Bool) : Tokenizer where
  source := src
  token_start := off src i
  token_end := off src m - 1
  start_line := L
  start_column := C
  chrs := charIndices (off src m) (src.drop m)
  newlines := nlOffsets src m
  diagnostics := d
  emit_whitespace := ws
  emit_comments := cm

/-! ## Pull chains (proof infrastructure) -/

/-- `Pulls Φ t L`: from state `t`, successive `get_token Φ` calls yield
exactly the tokens of `L` (all `Ok`) and then the stream is exhausted. -/
inductive Pulls (Φ : Nat) : Tokenizer → List Token → Prop where
  | nil (t : Tokenizer) (h : t.chrs = []) : Pulls Φ t []
  | cons (t t1 : Tokenizer) (tok : Token) (L : List Token)
      (h : get_token Φ t = .ok (some (.ok tok), t1)) (hL : Pulls Φ t1 L) :
      Pulls Φ t (tok :: L)

/-- `PullsSeg Φ t L t1`: from `t`, successive `get_token Φ` calls yield the
tokens of `L` and leave the tokenizer in state `t1`. -/
inductive PullsSeg (Φ : Nat) : Tokenizer → List Token → Tokenizer → Prop where
  | nil (t : Tokenizer) : PullsSeg Φ t [] t
  | cons (t t1 t2 : Tokenizer) (tok : Token) (L : List Token)
      (h : get_token Φ t = .ok (some (.ok tok), t1)) (hL : PullsSeg Φ t1 L t2) :
      PullsSeg Φ t (tok :: L) t2

/-- `AvailP Φ p L`: the parser `p` (peek slot plus tokenizer) has exactly
the tokens of `L` remaining. -/
def AvailP (Φ : Nat) (p : Parser) (L : List Token) : Prop :=
  (p.peeked = none ∧ Pulls Φ p.tok L) ∨
  (∃ tok L1, L = tok :: L1 ∧ p.peeked = some (some (.ok tok)) ∧ Pulls Φ p.tok L1) ∨
  (L = [] ∧ p.peeked = some none ∧ Pulls Φ p.tok [])

/-- Head constraint under which `expr_primary`'s identifier lookahead does
not see a call or a path: the remaining stream is empty or starts with
neither `(` nor `::`. -/
def RestOK (R : List Token) : Prop :=
  R = [] ∨ ∃ tok R1, R = tok :: R1 ∧
    tok.ty ≠ .Delimeter ⟨.Parentheses, .Left⟩ ∧
    tok.ty ≠ .Punctuation .DoubleColon

/-- Head constraint under which the climbing loop of `expr_bp` returns the
accumulated expression: the remaining stream is empty or starts with `)`,
`]` or `,`. -/
def StopHead (R : List Token) : Prop :=
  R = [] ∨ ∃ tok R1, R = tok :: R1 ∧
    (tok.ty = .Delimeter ⟨.Parentheses, .Right⟩ ∨
     tok.ty = .Delimeter ⟨.Square, .Right⟩ ∨
     tok.ty = .Punctuation .Comma)

/-! ## Round-trip infrastructure: well-formed ASTs, token shapes -/

/-- Valid identifier text: nonempty, identifier start then continuation
characters, and not the keyword `_`. -/
def validIdent (w : List Char) : Bool :=
  match w with
  | [] => false
  | c :: rest => isIdentStart c && rest.all isIdentCont && decide (w ≠ ['_'])

mutual

/-- The AST class of the (amended) round-trip claim: infix `+ - * /`,
prefix `+ -`, single-segment valid identifier names, integer and character
literals, calls with at least one argument, and indexing. -/
def wfE : Expr → Bool
  | .Lit (.Number (.Integer i)) => decide (i < 2 ^ 64)
  | .Lit (.Char _) => true
  | .Lit _ => false
  | .Name p => p.tail.isNone && validIdent p.head
  | .unop op r =>
    match op with
    | .Plus | .Minus => wfE r
    | _ => false
  | .binop l op r =>
    match op with
    | .Plus | .Minus | .Star | .Slash => wfE l && wfE r
    | _ => false
  | .postop _ _ => false
  | .Call f args =>
    f.tail.isNone && validIdent f.head && !args.isEmpty && wfArgs args
  | .Index e i => wfE e && wfE i

def wfArgs : List Expr → Bool
  | [] => true
  | a :: as_ => wfE a && wfArgs as_

end

mutual

/-- Operator/structure shape equality of two ASTs: same constructor tree,
same operators, same path heads and tail texts; literal payloads are not
compared (re-escaping may change them). -/
def shape_eq : Expr → Expr → Bool
  | .Lit _, .Lit _ => true
  | .Name p, .Name q =>
    p.head == q.head &&
      (p.tail.getD []).map Token.text == (q.tail.getD []).map Token.text
  | .unop op r, .unop op2 r2 => op == op2 && shape_eq r r2
  | .binop l op r, .binop l2 op2 r2 =>
    op == op2 && shape_eq l l2 && shape_eq r r2
  | .postop l op, .postop l2 op2 => op == op2 && shape_eq l l2
  | .Call f args, .Call f2 args2 =>
    f.head == f2.head &&
      (f.tail.getD []).map Token.text == (f2.tail.getD []).map Token.text &&
      shape_eq_args args args2
  | .Index e i, .Index e2 i2 => shape_eq e e2 && shape_eq i i2
  | _, _ => false

def shape_eq_args : List Expr → List Expr → Bool
  | [], [] => true
  | a :: as_, b :: bs => shape_eq a b && shape_eq_args as_ bs
  | _, _ => false

end

mutual

/-- `TokRel e T`: the token list `T` has exactly the types and texts that
tokenizing the canonical rendering of `e` produces (positions are
unconstrained).  The operator side conditions pin the renderable/parseable
operator subsets. -/
inductive TokRel : Expr → List Token → Prop where
  | lit (v : Literal) (tok : Token) (l : Literal)
      (h : tok.ty = .Literal l) : TokRel (.Lit v) [tok]
  | name (w : List Char) (tok : Token)
      (h : tok.ty = .Identifier) (ht : tok.text = w) :
      TokRel (.Name { head := w, tail := none }) [tok]
  | unop_rel (op : Operator) (r : Expr) (T : List Token) (lp opTok rp : Token)
      (hop : op = .Plus ∨ op = .Minus)
      (hlp : lp.ty = .Delimeter ⟨.Parentheses, .Left⟩)
      (hopTok : opTok.ty = .Operator op)
      (hrp : rp.ty = .Delimeter ⟨.Parentheses, .Right⟩)
      (hr : TokRel r T) :
      TokRel (.unop op r) (lp :: opTok :: (T ++ [rp]))
  | binop_rel (l : Expr) (op : Operator) (r : Expr) (Tl Tr : List Token)
      (lp opTok rp : Token)
      (hop : op = .Plus ∨ op = .Minus ∨ op = .Star ∨ op = .Slash)
      (hlp : lp.ty = .Delimeter ⟨.Parentheses, .Left⟩)
      (hopTok : opTok.ty = .Operator op)
      (hrp : rp.ty = .Delimeter ⟨.Parentheses, .Right⟩)
      (hl : TokRel l Tl) (hr : TokRel r Tr) :
      TokRel (.binop l op r) (lp :: (Tl ++ opTok :: (Tr ++ [rp])))
  | index_rel (e i : Expr) (Te Ti : List Token) (lp lsq rsq rp : Token)
      (hlp : lp.ty = .Delimeter ⟨.Parentheses, .Left⟩)
      (hlsq : lsq.ty = .Delimeter ⟨.Square, .Left⟩)
      (hrsq : rsq.ty = .Delimeter ⟨.Square, .Right⟩)
      (hrp : rp.ty = .Delimeter ⟨.Parentheses, .Right⟩)
      (he : TokRel e Te) (hi : TokRel i Ti) :
      TokRel (.Index e i) (lp :: (Te ++ lsq :: (Ti ++ [rsq, rp])))
  | call_rel (w : List Char) (args : List Expr) (Ta : List Token)
      (lp fTok lp2 rp2 rp : Token)
      (hlp : lp.ty = .Delimeter ⟨.Parentheses, .Left⟩)
      (hf : fTok.ty = .Identifier) (hft : fTok.text = w)
      (hlp2 : lp2.ty = .Delimeter ⟨.Parentheses, .Left⟩)
      (hrp2 : rp2.ty = .Delimeter ⟨.Parentheses, .Right⟩)
      (hrp : rp.ty = .Delimeter ⟨.Parentheses, .Right⟩)
      (hargs : TokRelArgs args Ta) :
      TokRel (.Call { head := w, tail := none } args)
        (lp :: fTok :: lp2 :: (Ta ++ [rp2, rp]))

/-- Call arguments: at least one, comma tokens between consecutive ones. -/
inductive TokRelArgs : List Expr → List Token → Prop where
  | last (a : Expr) (Ta : List Token) (h : TokRel a Ta) : TokRelArgs [a] Ta
  | cons (a : Expr) (Ta : List Token) (rest : List Expr) (Trest : List Token)
      (comma : Token) (h : TokRel a Ta)
      (hc : comma.ty = .Punctuation .Comma)
      (hrest : TokRelArgs rest Trest) :
      TokRelArgs (a :: rest) (Ta ++ comma :: Trest)

end

/-- One step of the `u64` digit accumulation (underscores skipped). -/
def digitStep (a : Nat) (c : Char) : Nat :=
  if '0' ≤ c ∧ c ≤ '9' then (a * 10 + (c.toNat - '0'.toNat)) % 2 ^ 64 else a

/-- The possible outcomes of one `get_token_inner` call from a clean
boundary state `stateAt src i`: fuel exhaustion, end of input, or an item
(token or error) scanned up to some boundary `m`, with any emitted
diagnostics appended and the token position taken at the window start. -/
def InnerDisj (src : List Char) (i : Nat) (d : List Diagnostic) (L C : Nat) (ws cm : Bool)
    (r : ROut (Option TokenizerItem × Tokenizer)) : Prop :=
  r = .outOfFuel ∨
  (src.drop i = [] ∧ r = .ok (none, stateAt src i d L C ws cm)) ∨
  (∃ m it d2, i < m ∧ m ≤ src.length ∧
    r = .ok (some it, midState src i m (d ++ d2) L C ws cm) ∧
    ∀ tok, it = .ok tok →
      tok.position = { absolutePosition := off src i, line := L, column := C,
                       text := (src.take m).drop i })

/-- The tokenizer state after the final `consume()` of a drain: the scan
window has been pushed one byte past the end of the consumed input. -/
def eofState (src : List Char) (i : Nat) (d : List Diagnostic) (ws cm : Bool) : Tokenizer where
  source := src
  token_start := off src i + 1
  token_end := off src i + 1
  start_line := stdL src i
  start_column := off src i + 1 - (nlOffsets src i).headD 0
  chrs := charIndices (off src i) (src.drop i)
  newlines := nlOffsets src i
  diagnostics := d
  emit_whitespace := ws
  emit_comments := cm

/-- What one `get_token` call (the filtering loop) yields from a clean
boundary state `stateAt src i`: fuel exhaustion; end of input (after the
final `consume()`); or an emitted item whose token (when `Ok`) spans
boundaries `j..m` (`i ≤ j` with `i < j` exactly when suppressed tokens were
skipped first) and reports the line/column committed at boundary `j`. -/
def GTDisj (src : List Char) (i : Nat) (d : List Diagnostic) (L C : Nat) (ws cm : Bool)
    (r : ROut (Option TokenizerItem × Tokenizer)) : Prop :=
  r = .outOfFuel ∨
  (∃ i2 d2, i ≤ i2 ∧ i2 ≤ src.length ∧ src.drop i2 = [] ∧
    r = .ok (none, eofState src i2 (d ++ d2) ws cm)) ∨
  (∃ j m d2 it, i ≤ j ∧ j < m ∧ m ≤ src.length ∧
    r = .ok (some it, stateAt src m (d ++ d2) (stdL src m) (stdC src m) ws cm) ∧
    ∀ tok, it = .ok tok →
      tok.position = { absolutePosition := off src j,
                       line := if j = i then L else stdL src j,
                       column := if j = i then C else stdC src j,
                       text := (src.take m).drop j })

/-- What a full drain (`tokenize_run`) yields from a clean boundary state:
fuel exhaustion or a clean item list in which every `Ok` token's position
carries the committed line/column of its start boundary and an in-bounds
character-aligned text slice. -/
def DrainDisj (src : List Char) (i : Nat) (d : List Diagnostic) (L C : Nat) (ws cm : Bool)
    (r : ROut (List TokenizerItem × Tokenizer)) : Prop :=
  r = .outOfFuel ∨
  ∃ items t1, r = .ok (items, t1) ∧
    ∀ it ∈ items, ∀ tok, it = .ok tok →
      ∃ j m, i ≤ j ∧ j < m ∧ m ≤ src.length ∧
        tok.position.absolutePosition = off src j ∧
        tok.position.line = (if j = i then L else stdL src j) ∧
        tok.position.column = (if j = i then C else stdC src j) ∧
        tok.position.text = (src.take m).drop j

/-- Pure pair-matching scan mirroring `multiline_comment`'s loop on the
remaining characters: entered with previous character `pc` at nesting level
`nest`, does the scan ever close the comment? -/
def mlCloses : List Char → Char → Nat → Bool
  | [], _, _ => false
  | c :: rest, pc, nest =>
    if pc = '*' ∧ c = '/' then
      if nest - 1 = 0 then true else mlCloses rest c (nest - 1)
    else if pc = '/' ∧ c = '*' then mlCloses rest c (nest + 1)
    else mlCloses rest c nest

/-- Safe continuation after a rendered subexpression: end of text or one of
the five characters the canonical rendering can place after a subexpression
(none of which extends any final lexeme of the subexpression). -/
def RestHeadSafe (rest : List Char) : Prop :=
  rest = [] ∨ ∃ c rt, rest = c :: rt ∧
    (c = ' ' ∨ c = ')' ∨ c = ']' ∨ c = ',' ∨ c = '[')

/-- Safe continuation after a single rendered operator character: nothing
that the operator dispatch would fuse with. -/
def OpSafe (rest : List Char) : Prop :=
  rest = [] ∨ ∃ c rt, rest = c :: rt ∧
    c ≠ '=' ∧ c ≠ '+' ∧ c ≠ '-' ∧ c ≠ '*' ∧ c ≠ '/'

/-! ## Theorems.

Byte-offset, slice and canonical-state step lemmas used throughout. -/
theorem utf8Len_pos (c : Char) : 1 ≤ utf8Len c := by
  unfold utf8Len
  split_ifs <;> omega

theorem utf8ByteLen_nil : utf8ByteLen [] = 0 := rfl

theorem utf8ByteLen_cons (c : Char) (s : List Char) :
    utf8ByteLen (c :: s) = utf8Len c + utf8ByteLen s := by
  simp [utf8ByteLen]

theorem utf8ByteLen_append (a b : List Char) :
    utf8ByteLen (a ++ b) = utf8ByteLen a + utf8ByteLen b := by
  simp [utf8ByteLen]

theorem getElem?_of_drop {src : List Char} {i : Nat} {c : Char} {tail : List Char}
    (h : src.drop i = c :: tail) : src[i]? = some c := by
  have := List.head?_drop src i
  rw [h] at this
  simp at this
  exact this.symm

theorem take_succ_of_drop {src : List Char} {i : Nat} {c : Char} {tail : List Char}
    (h : src.drop i = c :: tail) : src.take (i + 1) = src.take i ++ [c] := by
  rw [List.take_succ, getElem?_of_drop h]
  rfl

theorem drop_succ_of_drop {src : List Char} {i : Nat} {c : Char} {tail : List Char}
    (h : src.drop i = c :: tail) : src.drop (i + 1) = tail := by
  rw [← List.drop_drop]  -- drop 1 (drop i)?
  rw [h]
  rfl

theorem off_succ {src : List Char} {i : Nat} {c : Char} {tail : List Char}
    (h : src.drop i = c :: tail) : off src (i + 1) = off src i + utf8Len c := by
  unfold off
  rw [take_succ_of_drop h, utf8ByteLen_append]
  simp [utf8ByteLen]

theorem dropBytes_append (a b : List Char) : dropBytes (a ++ b) (utf8ByteLen a) = some b := by
  induction a with
  | nil => simp [dropBytes, utf8ByteLen]
  | cons c s ih =>
    have h1 := utf8Len_pos c
    rw [List.cons_append, utf8ByteLen_cons]
    unfold dropBytes
    rcases hn : utf8Len c + utf8ByteLen s with _ | n
    · omega
    · simp only []
      rw [if_pos (by omega)]
      have h2 : n + 1 - utf8Len c = utf8ByteLen s := by omega
      rw [h2]
      exact ih

theorem takeBytes_append (a b : List Char) : takeBytes (a ++ b) (utf8ByteLen a) = some a := by
  induction a with
  | nil => simp [takeBytes, utf8ByteLen]
  | cons c s ih =>
    have h1 := utf8Len_pos c
    rw [List.cons_append, utf8ByteLen_cons]
    unfold takeBytes
    rcases hn : utf8Len c + utf8ByteLen s with _ | n
    · omega
    · simp only []
      rw [if_pos (by omega)]
      have h2 : n + 1 - utf8Len c = utf8ByteLen s := by omega
      rw [h2, ih]
      rfl

theorem take_split (src : List Char) (i j : Nat) (hij : i ≤ j) :
    src.take j = src.take i ++ (src.take j).drop i := by
  conv_lhs => rw [← List.take_append_drop i (src.take j)]
  congr 1
  rw [List.take_take]
  congr 1
  omega

theorem off_split (src : List Char) (i j : Nat) (hij : i ≤ j) :
    off src j = off src i + utf8ByteLen ((src.take j).drop i) := by
  unfold off
  conv_lhs => rw [take_split src i j hij]
  rw [utf8ByteLen_append]

theorem off_mono (src : List Char) (i j : Nat) (hij : i ≤ j) :
    off src i ≤ off src j := by
  rw [off_split src i j hij]
  omega

theorem drop_split (src : List Char) (i j : Nat) (hij : i ≤ j) (hj : j ≤ src.length) :
    src.drop i = (src.take j).drop i ++ src.drop j := by
  conv_lhs => rw [← List.take_append_drop j src]
  rw [List.drop_append_of_le_length]
  rw [List.length_take]
  omega

theorem strSlice_take_drop (src : List Char) (i j : Nat) (hij : i ≤ j) (hj : j ≤ src.length) :
    strSlice src (off src i) (off src j) = some ((src.take j).drop i) := by
  unfold strSlice
  rw [if_pos (off_mono src i j hij)]
  have hd : dropBytes src (off src i) = some (src.drop i) := by
    have h0 := dropBytes_append (src.take i) (src.drop i)
    rw [List.take_append_drop] at h0
    exact h0
  rw [hd]
  simp only [Option.some_bind]
  rw [drop_split src i j hij hj]
  have : off src j - off src i = utf8ByteLen ((src.take j).drop i) := by
    rw [off_split src i j hij]
    omega
  rw [this]
  exact takeBytes_append _ _

theorem getD_of_drop {src : List Char} {i : Nat} {c : Char} {tail : List Char}
    (h : src.drop i = c :: tail) : src.getD i ' ' = c := by
  simp [List.getD, getElem?_of_drop h]

theorem nlOffsets_succ {src : List Char} {i : Nat} {c : Char} {tail : List Char}
    (h : src.drop i = c :: tail) :
    nlOffsets src (i + 1) =
      if c = '\n' then off src i :: nlOffsets src i else nlOffsets src i := by
  have h0 : nlOffsets src (i + 1) =
      if src.getD i ' ' = '\n' then off src i :: nlOffsets src i else nlOffsets src i := rfl
  rw [h0, getD_of_drop h]

theorem charIndices_cons_of_drop {src : List Char} {m : Nat} {c : Char} {tail : List Char}
    (h : src.drop m = c :: tail) :
    charIndices (off src m) (src.drop m) =
      (off src m, c) :: charIndices (off src (m + 1)) (src.drop (m + 1)) := by
  rw [h]
  have h0 : charIndices (off src m) (c :: tail) =
      (off src m, c) :: charIndices (off src m + utf8Len c) tail := rfl
  rw [h0, ← off_succ h, drop_succ_of_drop h]

theorem next_char_general (t : Tokenizer) (src : List Char) (m : Nat) (c : Char)
    (tail : List Char)
    (hch : t.chrs = charIndices (off src m) (src.drop m))
    (hnl : t.newlines = nlOffsets src m)
    (h : src.drop m = c :: tail) :
    t.next_char = (some c,
      { t with chrs := charIndices (off src (m + 1)) (src.drop (m + 1)),
               token_end := off src m,
               newlines := nlOffsets src (m + 1) }) := by
  unfold Tokenizer.next_char
  rw [hch, charIndices_cons_of_drop h]
  simp only []
  rw [nlOffsets_succ h, hnl]

theorem stateAt_next_char {src : List Char} {i : Nat} {c : Char} {tail : List Char}
    (d : List Diagnostic) (L C : Nat) (ws cm : Bool)
    (h : src.drop i = c :: tail) (h1 : utf8Len c = 1) :
    (stateAt src i d L C ws cm).next_char = (some c, midState src i (i + 1) d L C ws cm) := by
  rw [next_char_general (stateAt src i d L C ws cm) src i c tail rfl rfl h]
  simp [stateAt, midState, Tokenizer.mk.injEq, off_succ h, h1]

theorem midState_next_char {src : List Char} {m : Nat} {c : Char} {tail : List Char}
    (i : Nat) (d : List Diagnostic) (L C : Nat) (ws cm : Bool)
    (h : src.drop m = c :: tail) (h1 : utf8Len c = 1) :
    (midState src i m d L C ws cm).next_char = (some c, midState src i (m + 1) d L C ws cm) := by
  rw [next_char_general (midState src i m d L C ws cm) src m c tail rfl rfl h]
  simp [midState, Tokenizer.mk.injEq, off_succ h, h1]

theorem stateAt_next_char_eof {src : List Char} {i : Nat}
    (d : List Diagnostic) (L C : Nat) (ws cm : Bool) (h : src.drop i = []) :
    (stateAt src i d L C ws cm).next_char = (none, stateAt src i d L C ws cm) := by
  unfold Tokenizer.next_char stateAt
  rw [h]
  rfl

theorem midState_next_char_eof {src : List Char} {i m : Nat}
    (d : List Diagnostic) (L C : Nat) (ws cm : Bool) (h : src.drop m = []) :
    (midState src i m d L C ws cm).next_char = (none, midState src i m d L C ws cm) := by
  unfold Tokenizer.next_char midState
  rw [h]
  rfl

theorem stateAt_peek {src : List Char} {i : Nat} {c : Char} {tail : List Char}
    (d : List Diagnostic) (L C : Nat) (ws cm : Bool) (h : src.drop i = c :: tail) :
    (stateAt src i d L C ws cm).peek_char = some c := by
  unfold Tokenizer.peek_char stateAt
  simp only [charIndices_cons_of_drop h]
  rfl

theorem midState_peek {src : List Char} {m : Nat} {c : Char} {tail : List Char}
    (i : Nat) (d : List Diagnostic) (L C : Nat) (ws cm : Bool) (h : src.drop m = c :: tail) :
    (midState src i m d L C ws cm).peek_char = some c := by
  unfold Tokenizer.peek_char midState
  simp only [charIndices_cons_of_drop h]
  rfl

theorem stateAt_peek_eof {src : List Char} {i : Nat}
    (d : List Diagnostic) (L C : Nat) (ws cm : Bool) (h : src.drop i = []) :
    (stateAt src i d L C ws cm).peek_char = none := by
  unfold Tokenizer.peek_char stateAt
  rw [h]
  rfl

theorem midState_peek_eof {src : List Char} {i m : Nat}
    (d : List Diagnostic) (L C : Nat) (ws cm : Bool) (h : src.drop m = []) :
    (midState src i m d L C ws cm).peek_char = none := by
  unfold Tokenizer.peek_char midState
  rw [h]
  rfl

theorem midState_pos {src : List Char} {i m : Nat}
    (d : List Diagnostic) (L C : Nat) (ws cm : Bool)
    (him : i ≤ m) (hm : m ≤ src.length) (h1 : 1 ≤ off src m) :
    (midState src i m d L C ws cm).pos =
      some { absolutePosition := off src i, line := L, column := C,
             text := (src.take m).drop i } := by
  unfold Tokenizer.pos midState
  simp only []
  have h2 : off src m - 1 + 1 = off src m := by omega
  rw [h2, strSlice_take_drop src i m him hm]
  rfl

theorem midState_consume {src : List Char} {i m : Nat}
    (d : List Diagnostic) (L C : Nat) (ws cm : Bool) (h1 : 1 ≤ off src m) :
    (midState src i m d L C ws cm).consume =
      stateAt src m d (stdL src m) (stdC src m) ws cm := by
  unfold Tokenizer.consume midState stateAt stdL stdC
  simp only []
  have h2 : off src m - 1 + 1 = off src m := by omega
  rw [h2]

/-! ### The two stuck scanner loops -/

/-- The `string_lit` loop never advances the cursor, so whenever the peeked
character is neither `"` (break) nor absent (error), the loop re-examines
the same character forever: it exhausts any fuel. -/
theorem string_lit_loop_stuck (t : Tokenizer) (c : Char) (hc : t.peek_char = some c)
    (h1 : c ≠ '"') (h2 : c ≠ '\\') :
    ∀ (fuel : Nat) (s : List Char) (escaped : Bool), string_lit_loop fuel t s escaped = none := by
  intro fuel
  induction fuel with
  | zero => intro s esc; rfl
  | succ f ih =>
    intro s esc
    unfold string_lit_loop
    rw [hc]
    simp only [h1, h2, false_and, if_false]
    cases esc <;> simp [ih]

/-- A backslash under `escaped = false` only flips the flag without
advancing, so a peeked backslash also loops forever. -/
theorem string_lit_loop_stuck_backslash (t : Tokenizer) (hc : t.peek_char = some '\\') :
    ∀ (fuel : Nat) (s : List Char) (escaped : Bool), string_lit_loop fuel t s escaped = none := by
  intro fuel
  induction fuel with
  | zero => intro s esc; rfl
  | succ f ih =>
    intro s esc
    unfold string_lit_loop
    rw [hc]
    cases esc <;> simp [ih]

/-- `get_token_inner` on a `"`-dispatch whose string scan exhausts its fuel. -/
theorem inner_string_none (g : Nat) (t t1 : Tokenizer)
    (h : t.next_char = (some '"', t1)) (h2 : Tokenizer.string_lit g t1 = none) :
    get_token_inner g t = .outOfFuel := by
  unfold get_token_inner
  rw [h]
  simp only [h2]

/-- Advancing the cursor only removes entries: any entry of the advanced
cursor was an entry of the original one. -/
theorem next_char_chrs_subset (t : Tokenizer) :
    ∀ x ∈ (t.next_char).2.chrs, x ∈ t.chrs := by
  intro x hx
  cases hc : t.chrs with
  | nil =>
    simp only [Tokenizer.next_char, hc] at hx
    exact hx
  | cons y rest =>
    simp only [Tokenizer.next_char, hc] at hx
    exact List.mem_cons_of_mem y hx

/-- The `singleline_comment` loop condition is `peek_char() != Some('\n')`;
when the cursor holds no newline at all the loop walks to the end of input
and then spins on the no-op `next_char`, exhausting any fuel. -/
theorem singleline_loop_stuck (t : Tokenizer) (h : ∀ pc ∈ t.chrs, pc.2 ≠ '\n') :
    ∀ fuel, singleline_comment_loop fuel t = none := by
  intro fuel
  induction fuel generalizing t with
  | zero => rfl
  | succ f ih =>
    unfold singleline_comment_loop
    have hpk : t.peek_char ≠ some '\n' := by
      unfold Tokenizer.peek_char
      cases hc : t.chrs with
      | nil => simp
      | cons x rest =>
        have := h x (by rw [hc]; exact List.mem_cons_self x rest)
        simp [this]
    rw [if_neg hpk]
    exact ih _ (fun pc hpc => h pc (next_char_chrs_subset t pc hpc))

/-- `get_token_inner` on a `//`-dispatch whose comment scan exhausts its
fuel. -/
theorem inner_slc_none (g : Nat) (t t1 : Tokenizer)
    (h : t.next_char = (some '/', t1)) (hp : t1.peek_char = some '/')
    (h2 : singleline_comment_loop g t1 = none) :
    get_token_inner g t = .outOfFuel := by
  unfold get_token_inner
  rw [h]
  simp only [hp, h2]

/-! ## Claim C1 -/

/-- C1: the claim says an unterminated string literal such as `"abc` makes
the tokenizer return the fatal `UnfinishedString` error.  On the code this
is wrong: the `string_lit` loop only peeks and never advances, so on `"abc`
it re-reads the `a` forever — the tokenizer diverges (exhausts every fuel)
instead of returning.  (`UnfinishedString` is only reachable when the buffer
ends immediately after the opening quote.) -/
theorem claim_C1_unterminated_string_diverges :
    ∀ fuel, tokenize_items fuel (Tokenizer.new "\"abc".toList) = .outOfFuel := by
  intro fuel
  have hstuck : ∀ f s esc,
      string_lit_loop f ((Tokenizer.new "\"abc".toList).next_char).2 s esc = none := by
    intro f
    exact string_lit_loop_stuck ((Tokenizer.new "\"abc".toList).next_char).2 'a' rfl
      (by decide) (by decide) f
  have hinner : ∀ g, get_token_inner g (Tokenizer.new "\"abc".toList) = .outOfFuel := by
    intro g
    exact inner_string_none g _ _ rfl (hstuck g [] false)
  have hget : ∀ g, get_token g (Tokenizer.new "\"abc".toList) = .outOfFuel := by
    intro g
    cases g with
    | zero => rfl
    | succ g => unfold get_token; rw [hinner g]
  cases fuel with
  | zero => rfl
  | succ f => unfold tokenize_items tokenize_run; rw [hget f]

/-! ## Claim C2 -/

/-- C2: the claim says single-line comment scanning terminates at the next
newline OR at end of input.  On the code this is wrong for the end-of-input
half: `singleline_comment` loops `while peek_char() != Some('\n')`, and at
end of input `peek_char()` is `None` and `next_char()` is a no-op, so on
`//abc` (with `emit_comments` enabled, as the claim requires) the tokenizer
diverges instead of producing a SingleLine Comment token. -/
theorem claim_C2_singleline_comment_eof_diverges :
    ∀ fuel,
      tokenize_items fuel { Tokenizer.new "//abc".toList with emit_comments := true } =
        .outOfFuel := by
  intro fuel
  have hstuck : ∀ g,
      singleline_comment_loop g
        (({ Tokenizer.new "//abc".toList with emit_comments := true }).next_char).2 = none := by
    intro g
    apply singleline_loop_stuck
    decide
  have hinner : ∀ g,
      get_token_inner g { Tokenizer.new "//abc".toList with emit_comments := true } =
        .outOfFuel := by
    intro g
    exact inner_slc_none g _ _ rfl rfl (hstuck g)
  have hget : ∀ g,
      get_token g { Tokenizer.new "//abc".toList with emit_comments := true } = .outOfFuel := by
    intro g
    cases g with
    | zero => rfl
    | succ g => unfold get_token; rw [hinner g]
  cases fuel with
  | zero => rfl
  | succ f => unfold tokenize_items tokenize_run; rw [hget f]

/-! ## Claim C3 -/

/-- C3: the claim says `a::b::c(1, 2)` parses as a Call with Path head `a`,
tail `[b, c]`, arguments `[1, 2]`.  On the code this is wrong: the
tokenizer's `':'` arm always yields `Punctuation::Colon` (there is no
double-colon lexing, and token.rs does not even declare `DoubleColon`),
while the parser's path branch waits for a `DoubleColon` that never comes —
so `expr()` returns just `Name(a)` with no tail, leaving `::b::c(1, 2)`
unconsumed. -/
theorem claim_C3_double_colon_never_lexed :
    run_expr 50 50 "a::b::c(1, 2)".toList =
      .ok (.ok (.Name { head := ['a'], tail := none })) := rfl

/-! ## Claim C4 -/

/-- C4 counterexample: on `!5` (first token: operator `!`, which has no
prefix binding power) the parser does not return `Unexpected`: it hits the
`todo!()` placeholder in `expr_primary` and panics. -/
theorem claim_C4_counterexample_bang_panics :
    run_expr 50 50 "!5".toList = .panicked := rfl

/-- C4 (amended): for every token stream whose first token is an operator
without a defined prefix binding power, `expr()` reaches the `todo!()`
placeholder of `expr_primary` and panics (it does not return a fatal
`Unexpected` error). -/
theorem claim_C4_amended_undefined_prefix_op_panics
    (tf pf : Nat) (p : Parser) (op : Operator) (tok : Token)
    (hpf : 2 ≤ pf) (hty : tok.ty = .Operator op)
    (hbp : prefix_binding_power op = none)
    (hpeek : p.peeked = some (some (.ok tok))) :
    Parser.expr tf pf p = .panicked := by
  obtain ⟨k, rfl⟩ : ∃ k, pf = k + 2 := ⟨pf - 2, by omega⟩
  unfold Parser.expr expr_bp expr_primary Parser.next_token Parser.next_item
  rw [hpeek]
  simp only [hty, hbp]

/-- C4 amended, witness: the concrete parser state holding the peeked `!`
operator token of the input `!5`. -/
theorem claim_C4_amended_witness :
    Parser.expr 1 2
      { peeked := some (some (.ok
          { position := { absolutePosition := 0, line := 1, column := 1, text := ['!'] },
            ty := .Operator .Bang })),
        tok := Tokenizer.new [] } = .panicked :=
  claim_C4_amended_undefined_prefix_op_panics 1 2 _ .Bang _ (by omega) rfl rfl rfl

/-! ## Claim C5 -/

/-- C5: the claim says every escaped character literal `'\c'` scans
successfully as a Char token.  On the code this is wrong: `char_lit` only
PEEKS the escaped character and never consumes it, so the closing-quote
check `eat('\'')` looks at the escaped character itself; on `'\n'` the
tokenizer yields `UnfinishedChar` (and then scans the leftover `n'` as an
identifier and another failing char literal). -/
theorem claim_C5_escaped_char_lit_fails :
    tokenize_items 50 (Tokenizer.new "'\\n'".toList) =
      .ok [.error .UnfinishedChar,
        .ok { position := { absolutePosition := 2, line := 1, column := 2, text := ['n'] },
              ty := .Identifier },
        .error .UnfinishedChar] := rfl

/-! ## Claim C8 -/

/-- C8: the claim says an input that is solely a `/*`-comment with balanced
internal pairs produces exactly one Comment token spanning the whole input.
On the code this is wrong: `multiline_comment` starts pair-matching with the
opening `*` as the previous character, so in `/*/ */` the opening `*`
matches the following `/` as a `*/` close; the scan stops after `/*/` and
the rest is tokenized as `*` and `/` operators — three tokens, though the
diagnostics sink stays empty. -/
theorem claim_C8_overlapping_close_breaks_balance :
    tokenize_items 50 { Tokenizer.new "/*/ */".toList with emit_comments := true } =
      .ok [.ok { position := { absolutePosition := 0, line := 1, column := 1,
                               text := ['/', '*', '/'] },
                 ty := .Comment .MultiLine },
        .ok { position := { absolutePosition := 4, line := 1, column := 4, text := ['*'] },
              ty := .Operator .Star },
        .ok { position := { absolutePosition := 5, line := 1, column := 5, text := ['/'] },
              ty := .Operator .Slash }] ∧
    tokenize_diags 50 { Tokenizer.new "/*/ */".toList with emit_comments := true } = .ok [] :=
  ⟨rfl, rfl⟩

/-! ## Claim C6 counterexample -/

/-- C6 counterexample: in `a b` the token `b` is the 3rd character of
line 1 (`specColumn = 3`), but the tokenizer reports column 2 — the
`consume()` column formula `token_end - newlines.last()` is off by one on
the first line (the sentinel newline offset 0 stands for a newline that is
not there). -/
theorem claim_C6_counterexample_line1_column :
    tokenize_items 50 (Tokenizer.new "a b".toList) =
      .ok [.ok { position := { absolutePosition := 0, line := 1, column := 1, text := ['a'] },
                 ty := .Identifier },
        .ok { position := { absolutePosition := 2, line := 1, column := 2, text := ['b'] },
              ty := .Identifier }] ∧
    specColumn "a b".toList 2 = 3 ∧ (2 : Nat) ≠ 3 :=
  ⟨rfl, rfl, by omega⟩

/-! ## Claim C7 counterexample -/

/-- C7 counterexample: on `/*é` the multiline comment runs to end of input
unclosed, but no `UnclosedMultilineComment` diagnostic is appended: the
diagnostic's `pos()` slices `token_start..=token_end` with `token_end` the
START byte of the two-byte `é`, so the slice end falls inside the character
and the tokenizer panics instead. -/
theorem claim_C7_counterexample_multibyte_panic :
    tokenize_items 20 (Tokenizer.new "/*é".toList) = .panicked := rfl

/-! ## Claim C9 counterexample -/

/-- C9 counterexample: the zero-argument call `f()` is an AST built purely
from calls and identifiers; it renders as `(f())`, but re-parsing that text
fails (`call_expr` always parses one argument before looking for `)`), so
the re-parsed AST cannot match the original's shape. -/
theorem claim_C9_counterexample_zero_arg_call :
    renderExpr (.Call { head := ['f'], tail := none } []) = some "(f())".toList ∧
    run_expr 50 50 "(f())".toList =
      .ok (.error (.Unexpected (some (.Delimeter ⟨.Parentheses, .Right⟩))
        "a literal or an identifier")) :=
  ⟨rfl, rfl⟩

/-! ## Claim C10 counterexample -/

/-- C10 counterexample: tokenizing `//é` followed by a newline panics: the
single-line comment stops before the newline with `token_end` at the START
byte of the two-byte `é`, and `pos()` slices `token_start..=token_end`,
whose exclusive end `token_end + 1` falls inside the character — the very
slice the claim asserts is always on character boundaries. -/
theorem claim_C10_counterexample_multibyte_comment_panic :
    tokenize_items 50 (Tokenizer.new "//é\n".toList) = .panicked := rfl

/-! ### Scanner loop behaviour lemmas -/
theorem ascii_utf8Len {c : Char} (h : c.val < 128) : utf8Len c = 1 := by
  unfold utf8Len
  rw [if_pos h]

theorem char_ascii_of_le {c u : Char} (h : c ≤ u) (hu : u.val.toNat < 128) :
    utf8Len c = 1 := by
  apply ascii_utf8Len
  have h2 : c.val.toNat ≤ u.val.toNat := Char.le_def.mp h
  show c.val.toNat < (128 : UInt32).toNat
  have h3 : (128 : UInt32).toNat = 128 := rfl
  omega

theorem isIdentCont_utf8Len {c : Char} (h : isIdentCont c = true) : utf8Len c = 1 := by
  unfold isIdentCont at h
  simp only [Bool.decide_or, Bool.or_eq_true, decide_eq_true_eq] at h
  rcases h with h | h | h | h
  · exact char_ascii_of_le h.2 (by decide)
  · exact char_ascii_of_le h.2 (by decide)
  · rw [h]; rfl
  · exact char_ascii_of_le h.2 (by decide)

theorem digit_utf8Len {c : Char} (h : '0' ≤ c ∧ c ≤ '9') : utf8Len c = 1 :=
  char_ascii_of_le h.2 (by decide)

theorem stateAt_chrs (src : List Char) (i : Nat) (d : List Diagnostic) (L C : Nat)
    (ws cm : Bool) :
    (stateAt src i d L C ws cm).chrs = charIndices (off src i) (src.drop i) := rfl

theorem midState_chrs (src : List Char) (i m : Nat) (d : List Diagnostic) (L C : Nat)
    (ws cm : Bool) :
    (midState src i m d L C ws cm).chrs = charIndices (off src m) (src.drop m) := rfl

theorem ident_go_run (src : List Char) (i : Nat) (d : List Diagnostic) (L C : Nat)
    (ws cm : Bool) :
    ∀ (u rest : List Char) (m : Nat), src.drop m = u ++ rest →
    (∀ c ∈ u, isIdentCont c = true) →
    (rest = [] ∨ ∃ c2 t2, rest = c2 :: t2 ∧ isIdentCont c2 = false) →
    ident_go (midState src i m d L C ws cm).chrs (midState src i m d L C ws cm) =
      midState src i (m + u.length) d L C ws cm := by
  intro u
  induction u with
  | nil =>
    intro rest m hdrop hu hrest
    simp only [List.nil_append] at hdrop
    rcases hrest with rfl | ⟨c2, t2, rfl, hc2⟩
    · rw [midState_chrs, hdrop]
      simp [charIndices, ident_go]
    · rw [midState_chrs, charIndices_cons_of_drop hdrop]
      unfold ident_go
      rw [hc2]
      simp
  | cons c u2 ih =>
    intro rest m hdrop hu hrest
    have hdrop2 : src.drop m = c :: (u2 ++ rest) := by simpa using hdrop
    have hc : isIdentCont c = true := hu c (List.mem_cons_self c u2)
    have hascii := isIdentCont_utf8Len hc
    rw [midState_chrs, charIndices_cons_of_drop hdrop2]
    unfold ident_go
    rw [hc]
    simp only [if_true]
    rw [midState_next_char i d L C ws cm hdrop2 hascii]
    have hdrop3 : src.drop (m + 1) = u2 ++ rest := drop_succ_of_drop hdrop2
    rw [← midState_chrs src i (m + 1) d L C ws cm]
    rw [ih rest (m + 1) hdrop3 (fun c2 hc2 => hu c2 (List.mem_cons_of_mem c hc2)) hrest]
    congr 1
    simp
    omega

theorem wschar_utf8Len {c : Char} (h : c = ' ' ∨ c = '\t' ∨ c = '\n') : utf8Len c = 1 := by
  rcases h with rfl | rfl | rfl <;> rfl

theorem whitespace_go_run (src : List Char) (i : Nat) (d : List Diagnostic) (L C : Nat)
    (ws cm : Bool) :
    ∀ (u rest : List Char) (m : Nat), src.drop m = u ++ rest →
    (∀ c ∈ u, c = ' ' ∨ c = '\t' ∨ c = '\n') →
    (rest = [] ∨ ∃ c2 t2, rest = c2 :: t2 ∧ ¬(c2 = ' ' ∨ c2 = '\t' ∨ c2 = '\n')) →
    whitespace_go (midState src i m d L C ws cm).chrs (midState src i m d L C ws cm) =
      midState src i (m + u.length) d L C ws cm := by
  intro u
  induction u with
  | nil =>
    intro rest m hdrop hu hrest
    simp only [List.nil_append] at hdrop
    rcases hrest with rfl | ⟨c2, t2, rfl, hc2⟩
    · rw [midState_chrs, hdrop]
      simp [charIndices, whitespace_go]
    · rw [midState_chrs, charIndices_cons_of_drop hdrop]
      unfold whitespace_go
      rw [if_neg hc2]
      simp
  | cons c u2 ih =>
    intro rest m hdrop hu hrest
    have hdrop2 : src.drop m = c :: (u2 ++ rest) := by simpa using hdrop
    have hc := hu c (List.mem_cons_self c u2)
    have hascii := wschar_utf8Len hc
    rw [midState_chrs, charIndices_cons_of_drop hdrop2]
    unfold whitespace_go
    rw [if_pos hc]
    rw [midState_next_char i d L C ws cm hdrop2 hascii]
    have hdrop3 : src.drop (m + 1) = u2 ++ rest := drop_succ_of_drop hdrop2
    rw [← midState_chrs src i (m + 1) d L C ws cm]
    rw [ih rest (m + 1) hdrop3 (fun c2 hc2 => hu c2 (List.mem_cons_of_mem c hc2)) hrest]
    congr 1
    simp
    omega


theorem number_int_go_run (src : List Char) (i : Nat) (d : List Diagnostic) (L C : Nat)
    (ws cm : Bool) :
    ∀ (u rest : List Char) (m : Nat) (acc : Nat), src.drop m = u ++ rest →
    (∀ c ∈ u, ('0' ≤ c ∧ c ≤ '9') ∨ c = '_') →
    (rest = [] ∨ ∃ c2 t2, rest = c2 :: t2 ∧ ¬('0' ≤ c2 ∧ c2 ≤ '9') ∧ c2 ≠ '_') →
    number_int_go (midState src i m d L C ws cm).chrs (midState src i m d L C ws cm) acc =
      (u.foldl digitStep acc, midState src i (m + u.length) d L C ws cm) := by
  intro u
  induction u with
  | nil =>
    intro rest m acc hdrop hu hrest
    simp only [List.nil_append] at hdrop
    rcases hrest with rfl | ⟨c2, t2, rfl, hc2, hc3⟩
    · rw [midState_chrs, hdrop]
      simp [charIndices, number_int_go]
    · rw [midState_chrs, charIndices_cons_of_drop hdrop]
      unfold number_int_go
      rw [if_neg hc2, if_neg hc3]
      simp
  | cons c u2 ih =>
    intro rest m acc hdrop hu hrest
    have hdrop2 : src.drop m = c :: (u2 ++ rest) := by simpa using hdrop
    have hc := hu c (List.mem_cons_self c u2)
    have hascii : utf8Len c = 1 := by
      rcases hc with hc | rfl
      · exact digit_utf8Len hc
      · rfl
    rw [midState_chrs, charIndices_cons_of_drop hdrop2]
    have hdrop3 : src.drop (m + 1) = u2 ++ rest := drop_succ_of_drop hdrop2
    have hrec := ih rest (m + 1) (digitStep acc c) hdrop3
      (fun c2 hc2 => hu c2 (List.mem_cons_of_mem c hc2)) hrest
    rw [← midState_chrs src i (m + 1) d L C ws cm] at *
    unfold number_int_go
    rcases hc with hdig | rfl
    · rw [if_pos hdig]
      rw [midState_next_char i d L C ws cm hdrop2 hascii]
      rw [show digitStep acc c = (acc * 10 + (c.toNat - '0'.toNat)) % 2 ^ 64 from by
        unfold digitStep; rw [if_pos hdig]] at hrec
      rw [hrec, Prod.mk.injEq]
      refine ⟨?_, ?_⟩
      · simp only [List.foldl_cons]
        unfold digitStep
        rw [if_pos hdig]
      · congr 1
        simp
        omega
    · have hnd : ¬('0' ≤ '_' ∧ '_' ≤ '9') := by decide
      rw [if_neg hnd, if_pos rfl]
      rw [midState_next_char i d L C ws cm hdrop2 hascii]
      rw [show digitStep acc '_' = acc from by unfold digitStep; rw [if_neg hnd]] at hrec
      rw [hrec, Prod.mk.injEq]
      refine ⟨?_, ?_⟩
      · simp only [List.foldl_cons]
        unfold digitStep
        rw [if_neg hnd]
      · congr 1
        simp
        omega

theorem number_frac_go_run (src : List Char) (i : Nat) (d : List Diagnostic) (L C : Nat)
    (ws cm : Bool) :
    ∀ (u rest : List Char) (m : Nat) (fp pw : ℚ), src.drop m = u ++ rest →
    (∀ c ∈ u, ('0' ≤ c ∧ c ≤ '9') ∨ c = '_') →
    (rest = [] ∨ ∃ c2 t2, rest = c2 :: t2 ∧ ¬('0' ≤ c2 ∧ c2 ≤ '9') ∧ c2 ≠ '_') →
    ∃ q : ℚ,
      number_frac_go (midState src i m d L C ws cm).chrs (midState src i m d L C ws cm) fp pw =
        (q, midState src i (m + u.length) d L C ws cm) := by
  intro u
  induction u with
  | nil =>
    intro rest m fp pw hdrop hu hrest
    simp only [List.nil_append] at hdrop
    rcases hrest with rfl | ⟨c2, t2, rfl, hc2, hc3⟩
    · refine ⟨fp, ?_⟩
      rw [midState_chrs, hdrop]
      simp [charIndices, number_frac_go]
    · refine ⟨fp, ?_⟩
      rw [midState_chrs, charIndices_cons_of_drop hdrop]
      unfold number_frac_go
      rw [if_neg hc2, if_neg hc3]
      simp
  | cons c u2 ih =>
    intro rest m fp pw hdrop hu hrest
    have hdrop2 : src.drop m = c :: (u2 ++ rest) := by simpa using hdrop
    have hc := hu c (List.mem_cons_self c u2)
    have hascii : utf8Len c = 1 := by
      rcases hc with hc | rfl
      · exact digit_utf8Len hc
      · rfl
    have hdrop3 : src.drop (m + 1) = u2 ++ rest := drop_succ_of_drop hdrop2
    rw [midState_chrs, charIndices_cons_of_drop hdrop2]
    unfold number_frac_go
    rcases hc with hdig | rfl
    · rw [if_pos hdig]
      rw [midState_next_char i d L C ws cm hdrop2 hascii]
      obtain ⟨q, hq⟩ := ih rest (m + 1) (fp + (c.toNat - '0'.toNat : ℚ) * pw) (pw * (1 / 10))
        hdrop3 (fun c2 hc2 => hu c2 (List.mem_cons_of_mem c hc2)) hrest
      rw [← midState_chrs src i (m + 1) d L C ws cm]
      refine ⟨q, ?_⟩
      rw [hq]
      congr 2
      simp
      omega
    · have hnd : ¬('0' ≤ '_' ∧ '_' ≤ '9') := by decide
      rw [if_neg hnd, if_pos rfl]
      rw [midState_next_char i d L C ws cm hdrop2 hascii]
      obtain ⟨q, hq⟩ := ih rest (m + 1) fp pw hdrop3
        (fun c2 hc2 => hu c2 (List.mem_cons_of_mem '_' hc2)) hrest
      rw [← midState_chrs src i (m + 1) d L C ws cm]
      refine ⟨q, ?_⟩
      rw [hq]
      congr 2
      simp
      omega

theorem mem_src_of_drop_cons {src : List Char} {m : Nat} {c : Char} {tail : List Char}
    (h : src.drop m = c :: tail) : c ∈ src := by
  apply List.drop_subset m src
  rw [h]
  exact List.mem_cons_self c tail

theorem drop_cons_lt_length {src : List Char} {m : Nat} {c : Char} {tail : List Char}
    (h : src.drop m = c :: tail) : m < src.length := by
  by_contra hc
  push_neg at hc
  rw [List.drop_eq_nil_of_le hc] at h
  exact List.noConfusion h

theorem multiline_go_run (src : List Char) (i : Nat) (d : List Diagnostic) (L C : Nat)
    (ws cm : Bool) (ha : asciiSrc src) :
    ∀ (l : List Char) (m : Nat) (pc : Char) (nest : Nat), src.drop m = l → m ≤ src.length →
    ∃ m2 closed,
      multiline_go (midState src i m d L C ws cm).chrs (midState src i m d L C ws cm) pc nest =
        (closed, midState src i m2 d L C ws cm) ∧
      m ≤ m2 ∧ m2 ≤ src.length ∧ (closed = false → src.drop m2 = []) := by
  intro l
  induction l with
  | nil =>
    intro m pc nest hdrop hm
    refine ⟨m, false, ?_, le_refl m, hm, fun _ => hdrop⟩
    rw [midState_chrs, hdrop]
    simp [charIndices, multiline_go]
  | cons c l2 ih =>
    intro m pc nest hdrop hm
    have hascii : utf8Len c = 1 := ha c (mem_src_of_drop_cons hdrop)
    have hm2 : m + 1 ≤ src.length := drop_cons_lt_length hdrop
    have hdrop3 : src.drop (m + 1) = l2 := drop_succ_of_drop hdrop
    rw [midState_chrs, charIndices_cons_of_drop hdrop]
    unfold multiline_go
    simp only []
    rw [midState_next_char i d L C ws cm hdrop hascii]
    by_cases h1 : pc = '*' ∧ c = '/'
    · rw [if_pos h1]
      by_cases h2 : nest - 1 = 0
      · rw [if_pos h2]
        exact ⟨m + 1, true, rfl, by omega, hm2, fun h => by exact absurd h (by simp)⟩
      · rw [if_neg h2]
        obtain ⟨m2, closed, heq, hle, hlen, hcl⟩ := ih (m + 1) c (nest - 1) hdrop3 hm2
        rw [← midState_chrs src i (m + 1) d L C ws cm]
        exact ⟨m2, closed, heq, by omega, hlen, hcl⟩
    · rw [if_neg h1]
      by_cases h2 : pc = '/' ∧ c = '*'
      · rw [if_pos h2]
        obtain ⟨m2, closed, heq, hle, hlen, hcl⟩ := ih (m + 1) c (nest + 1) hdrop3 hm2
        rw [← midState_chrs src i (m + 1) d L C ws cm]
        exact ⟨m2, closed, heq, by omega, hlen, hcl⟩
      · rw [if_neg h2]
        obtain ⟨m2, closed, heq, hle, hlen, hcl⟩ := ih (m + 1) c nest hdrop3 hm2
        rw [← midState_chrs src i (m + 1) d L C ws cm]
        exact ⟨m2, closed, heq, by omega, hlen, hcl⟩

theorem string_lit_loop_state :
    ∀ (fuel : Nat) (t : Tokenizer) (s : List Char) (esc : Bool)
      (r : Except TokenizerError (List Char)) (t2 : Tokenizer),
    string_lit_loop fuel t s esc = some (r, t2) → t2 = t := by
  intro fuel
  induction fuel with
  | zero => intro t s esc r t2 h; exact absurd h (by simp [string_lit_loop])
  | succ f ih =>
    intro t s esc r t2 h
    unfold string_lit_loop at h
    split at h
    · simp only [Option.some.injEq, Prod.mk.injEq] at h
      exact h.2.symm
    · split at h
      · simp only [Option.some.injEq, Prod.mk.injEq] at h
        exact h.2.symm
      · split at h
        · exact ih _ _ _ _ _ h
        · split at h
          · exact ih _ _ _ _ _ h
          · exact ih _ _ _ _ _ h

theorem singleline_loop_run (src : List Char) (i : Nat) (d : List Diagnostic) (L C : Nat)
    (ws cm : Bool) (ha : asciiSrc src) :
    ∀ (fuel m : Nat), m ≤ src.length →
    singleline_comment_loop fuel (midState src i m d L C ws cm) = none ∨
    ∃ m2, singleline_comment_loop fuel (midState src i m d L C ws cm) =
        some (midState src i m2 d L C ws cm) ∧ m ≤ m2 ∧ m2 ≤ src.length := by
  intro fuel
  induction fuel with
  | zero => intro m hm; left; rfl
  | succ f ih =>
    intro m hm
    unfold singleline_comment_loop
    cases hdrop : src.drop m with
    | nil =>
      rw [if_neg (by rw [midState_peek_eof d L C ws cm hdrop]; simp)]
      rw [midState_next_char_eof d L C ws cm hdrop]
      exact ih m hm
    | cons c tail =>
      have hascii : utf8Len c = 1 := ha c (mem_src_of_drop_cons hdrop)
      have hlt : m < src.length := drop_cons_lt_length hdrop
      by_cases hc : c = '\n'
      · subst hc
        rw [if_pos (by rw [midState_peek i d L C ws cm hdrop])]
        right
        exact ⟨m, rfl, le_refl m, hm⟩
      · rw [if_neg (by rw [midState_peek i d L C ws cm hdrop]; simp [hc])]
        rw [midState_next_char i d L C ws cm hdrop hascii]
        rcases ih (m + 1) (by omega) with h | ⟨m2, heq, h1, h2⟩
        · left; exact h
        · right; exact ⟨m2, heq, by omega, h2⟩

theorem char_lit_run (src : List Char) (i m : Nat) (d : List Diagnostic) (L C : Nat)
    (ws cm : Bool) (ha : asciiSrc src) (hm : m ≤ src.length) :
    ∃ m2 r, Tokenizer.char_lit (midState src i m d L C ws cm) =
        (r, midState src i m2 d L C ws cm) ∧ m ≤ m2 ∧ m2 ≤ src.length := by
  unfold Tokenizer.char_lit
  cases hdrop : src.drop m with
  | nil =>
    rw [midState_next_char_eof d L C ws cm hdrop]
    exact ⟨m, .error .UnfinishedChar, rfl, le_refl m, hm⟩
  | cons c tail =>
    have hascii : utf8Len c = 1 := ha c (mem_src_of_drop_cons hdrop)
    have hlt : m < src.length := drop_cons_lt_length hdrop
    rw [midState_next_char i d L C ws cm hdrop hascii]
    simp only []
    have heat : ∀ m3, m3 ≤ src.length →
        ∃ (m4 : Nat) (b : Bool), (midState src i m3 d L C ws cm).eat '\'' =
          (b, midState src i m4 d L C ws cm) ∧ m3 ≤ m4 ∧ m4 ≤ src.length := by
      intro m3 hm3
      unfold Tokenizer.eat
      cases hdrop3 : src.drop m3 with
      | nil =>
        rw [if_neg (by rw [midState_peek_eof d L C ws cm hdrop3]; simp)]
        exact ⟨m3, false, rfl, le_refl m3, hm3⟩
      | cons c3 tail3 =>
        have hascii3 : utf8Len c3 = 1 := ha c3 (mem_src_of_drop_cons hdrop3)
        have hlt3 : m3 < src.length := drop_cons_lt_length hdrop3
        by_cases hc3 : c3 = '\''
        · subst hc3
          rw [if_pos (by rw [midState_peek i d L C ws cm hdrop3])]
          rw [midState_next_char i d L C ws cm hdrop3 hascii3]
          exact ⟨m3 + 1, true, rfl, by omega, by omega⟩
        · rw [if_neg (by rw [midState_peek i d L C ws cm hdrop3]; simp [hc3])]
          exact ⟨m3, false, rfl, le_refl m3, hm3⟩
    by_cases hc : c = '\\'
    · rw [if_pos hc]
      cases hdrop2 : src.drop (m + 1) with
      | nil =>
        rw [midState_peek_eof d L C ws cm hdrop2]
        exact ⟨m + 1, .error .UnfinishedChar, rfl, by omega, by omega⟩
      | cons c2 tail2 =>
        rw [midState_peek i d L C ws cm hdrop2]
        simp only []
        obtain ⟨m4, b, heq, h1, h2⟩ := heat (m + 1) (by omega)
        rw [heq]
        cases b
        · exact ⟨m4, .error .UnfinishedChar, by simp, by omega, h2⟩
        · exact ⟨m4, .ok c2, by simp, by omega, h2⟩
    · rw [if_neg hc]
      simp only []
      obtain ⟨m4, b, heq, h1, h2⟩ := heat (m + 1) (by omega)
      rw [heq]
      cases b
      · exact ⟨m4, .error .UnfinishedChar, by simp, by omega, h2⟩
      · exact ⟨m4, .ok c, by simp, by omega, h2⟩


theorem dropWhile_head_false {p : Char → Bool} {l : List Char} {c : Char} {t : List Char}
    (h : l.dropWhile p = c :: t) : p c = false := by
  have h0 : 0 < (l.dropWhile p).length := by rw [h]; simp
  have h1 := List.dropWhile_get_zero_not p l h0
  simp only [List.get_eq_getElem, h] at h1
  simp at h1
  simp [h1]

theorem off_pos {src : List Char} {m : Nat} (h1 : 1 ≤ m) (h2 : 1 ≤ src.length) :
    1 ≤ off src m := by
  have hmono := off_mono src 1 m h1
  have : 1 ≤ off src 1 := by
    cases src with
    | nil => simp at h2
    | cons c rest =>
      unfold off utf8ByteLen
      simp [List.take]
      exact utf8Len_pos c
  omega

theorem finish_spec {src : List Char} {i m : Nat} (d : List Diagnostic) (L C : Nat)
    (ws cm : Bool) (ty : TokenType) (him : i < m) (hm : m ≤ src.length) :
    (midState src i m d L C ws cm).finish_token ty =
      .ok (some (.ok
        { position := { absolutePosition := off src i, line := L, column := C,
                        text := (src.take m).drop i },
          ty := ty }), midState src i m d L C ws cm) := by
  unfold Tokenizer.finish_token
  rw [midState_pos d L C ws cm (by omega) hm (off_pos (by omega) (by omega))]

theorem midState_peek_eq (src : List Char) (i m : Nat) (d : List Diagnostic) (L C : Nat)
    (ws cm : Bool) :
    (midState src i m d L C ws cm).peek_char = (src.drop m).head? := by
  cases hdrop : src.drop m with
  | nil => rw [midState_peek_eof d L C ws cm hdrop]; rfl
  | cons c tail => rw [midState_peek i d L C ws cm hdrop]; rfl

theorem eat_spec_hit {src : List Char} {m : Nat} {v : Char} {tail : List Char}
    (i : Nat) (d : List Diagnostic) (L C : Nat) (ws cm : Bool)
    (hdrop : src.drop m = v :: tail) (hv : utf8Len v = 1) :
    (midState src i m d L C ws cm).eat v = (true, midState src i (m + 1) d L C ws cm) := by
  unfold Tokenizer.eat
  rw [if_pos (by rw [midState_peek i d L C ws cm hdrop])]
  rw [midState_next_char i d L C ws cm hdrop hv]

theorem eat_spec_miss {src : List Char} {m : Nat} {v : Char}
    (i : Nat) (d : List Diagnostic) (L C : Nat) (ws cm : Bool)
    (h : (src.drop m).head? ≠ some v) :
    (midState src i m d L C ws cm).eat v = (false, midState src i m d L C ws cm) := by
  unfold Tokenizer.eat
  rw [if_neg (by rw [midState_peek_eq]; exact h)]

theorem inner_disj_of_finish (src : List Char) (i m : Nat) (d : List Diagnostic) (L C : Nat)
    (ws cm : Bool) (ty : TokenType) (him : i < m) (hm : m ≤ src.length) :
    InnerDisj src i d L C ws cm ((midState src i m d L C ws cm).finish_token ty) := by
  right; right
  refine ⟨m, .ok
    { position := { absolutePosition := off src i, line := L, column := C,
                    text := (src.take m).drop i }, ty := ty }, [], him, hm, ?_, ?_⟩
  · rw [finish_spec d L C ws cm ty him hm, List.append_nil]
  · intro tok htok
    injection htok with h2
    rw [← h2]

theorem inner_disj_of_finish_diag (src : List Char) (i m : Nat) (d : List Diagnostic)
    (dg : Diagnostic) (L C : Nat) (ws cm : Bool) (ty : TokenType)
    (him : i < m) (hm : m ≤ src.length) :
    InnerDisj src i d L C ws cm
      ((midState src i m (d ++ [dg]) L C ws cm).finish_token ty) := by
  right; right
  refine ⟨m, .ok
    { position := { absolutePosition := off src i, line := L, column := C,
                    text := (src.take m).drop i }, ty := ty }, [dg], him, hm, ?_, ?_⟩
  · rw [finish_spec (d ++ [dg]) L C ws cm ty him hm]
  · intro tok htok
    injection htok with h2
    rw [← h2]

theorem inner_disj_of_error (src : List Char) (i m : Nat) (d : List Diagnostic) (L C : Nat)
    (ws cm : Bool) (e : TokenizerError) (him : i < m) (hm : m ≤ src.length) :
    InnerDisj src i d L C ws cm (.ok (some (.error e), midState src i m d L C ws cm)) := by
  right; right
  refine ⟨m, .error e, [], him, hm, by rw [List.append_nil], ?_⟩
  intro tok htok
  exact absurd htok (by simp)

theorem inner_disj_outOfFuel (src : List Char) (i : Nat) (d : List Diagnostic) (L C : Nat)
    (ws cm : Bool) : InnerDisj src i d L C ws cm .outOfFuel :=
  Or.inl rfl

theorem drop_add_of_drop {src u rest : List Char} {k : Nat}
    (h : src.drop k = u ++ rest) : src.drop (k + u.length) = rest := by
  rw [← List.drop_drop, h]
  simp

theorem inner_spec (src : List Char) (ha : asciiSrc src) :
    ∀ (fuel i : Nat) (d : List Diagnostic) (L C : Nat) (ws cm : Bool), i ≤ src.length →
    InnerDisj src i d L C ws cm (get_token_inner fuel (stateAt src i d L C ws cm)) := by
  intro fuel i d L C ws cm hi
  cases hdrop : src.drop i with
  | nil =>
    right; left
    refine ⟨hdrop, ?_⟩
    unfold get_token_inner
    rw [stateAt_next_char_eof d L C ws cm hdrop]
  | cons c tail =>
    have hascii : utf8Len c = 1 := ha c (mem_src_of_drop_cons hdrop)
    have hlt : i < src.length := drop_cons_lt_length hdrop
    have hstep := stateAt_next_char d L C ws cm hdrop hascii
    unfold get_token_inner
    rw [hstep]
    split
    · rename_i heqpair
      exact absurd heqpair (by simp)
    · rename_i first t heqpair
      rw [Prod.mk.injEq] at heqpair
      obtain ⟨hfirst, ht⟩ := heqpair
      injection hfirst with hfirst
      subst hfirst
      subst ht
      split
      · exact inner_disj_of_finish src i (i + 1) d L C ws cm _ (by omega) (by omega)
      · exact inner_disj_of_finish src i (i + 1) d L C ws cm _ (by omega) (by omega)
      · exact inner_disj_of_finish src i (i + 1) d L C ws cm _ (by omega) (by omega)
      · exact inner_disj_of_finish src i (i + 1) d L C ws cm _ (by omega) (by omega)
      · exact inner_disj_of_finish src i (i + 1) d L C ws cm _ (by omega) (by omega)
      · exact inner_disj_of_finish src i (i + 1) d L C ws cm _ (by omega) (by omega)
      · exact inner_disj_of_finish src i (i + 1) d L C ws cm _ (by omega) (by omega)
      · exact inner_disj_of_finish src i (i + 1) d L C ws cm _ (by omega) (by omega)
      · exact inner_disj_of_finish src i (i + 1) d L C ws cm _ (by omega) (by omega)
      · exact inner_disj_of_finish src i (i + 1) d L C ws cm _ (by omega) (by omega)
      · exact inner_disj_of_finish src i (i + 1) d L C ws cm _ (by omega) (by omega)
      · exact inner_disj_of_finish src i (i + 1) d L C ws cm _ (by omega) (by omega)
      · rcases hdrop2 : src.drop (i + 1) with _ | ⟨c2, tail2⟩
        · rw [eat_spec_miss i d L C ws cm (by rw [hdrop2]; simp)]
          exact inner_disj_of_finish src i (i + 1) d L C ws cm _ (by omega) (by omega)
        · have hlt2 := drop_cons_lt_length hdrop2
          by_cases hc2 : c2 = '$'
          · subst hc2
            rw [eat_spec_hit i d L C ws cm hdrop2 rfl]
            exact inner_disj_of_finish src i (i + 2) d L C ws cm _ (by omega) (by omega)
          · rw [eat_spec_miss i d L C ws cm (by rw [hdrop2]; simp [hc2])]
            exact inner_disj_of_finish src i (i + 1) d L C ws cm _ (by omega) (by omega)
      · rcases hdrop2 : src.drop (i + 1) with _ | ⟨c2, tail2⟩
        · rw [midState_peek_eof d L C ws cm hdrop2]
          exact inner_disj_of_finish src i (i + 1) d L C ws cm _ (by omega) (by omega)
        · have hlt2 := drop_cons_lt_length hdrop2
          rw [midState_peek i d L C ws cm hdrop2]
          split
          · rename_i heq2
            injection heq2 with heq2
            subst heq2
            rw [midState_next_char i d L C ws cm hdrop2 rfl]
            exact inner_disj_of_finish src i (i + 2) d L C ws cm _ (by omega) (by omega)
          · rename_i heq2
            injection heq2 with heq2
            subst heq2
            rw [midState_next_char i d L C ws cm hdrop2 rfl]
            exact inner_disj_of_finish src i (i + 2) d L C ws cm _ (by omega) (by omega)
          · exact inner_disj_of_finish src i (i + 1) d L C ws cm _ (by omega) (by omega)
      · rcases hdrop2 : src.drop (i + 1) with _ | ⟨c2, tail2⟩
        · rw [eat_spec_miss i d L C ws cm (by rw [hdrop2]; simp)]
          exact inner_disj_of_finish src i (i + 1) d L C ws cm _ (by omega) (by omega)
        · have hlt2 := drop_cons_lt_length hdrop2
          by_cases hc2 : c2 = '.'
          · subst hc2
            rw [eat_spec_hit i d L C ws cm hdrop2 rfl]
            simp only []
            rcases hdrop3 : src.drop (i + 2) with _ | ⟨c3, tail3⟩
            · rw [eat_spec_miss i d L C ws cm (by rw [hdrop3]; simp)]
              exact inner_disj_of_finish src i (i + 2) d L C ws cm _ (by omega) (by omega)
            · have hlt3 := drop_cons_lt_length hdrop3
              by_cases hc3 : c3 = '.'
              · subst hc3
                rw [eat_spec_hit i d L C ws cm hdrop3 rfl]
                exact inner_disj_of_finish src i (i + 3) d L C ws cm _ (by omega) (by omega)
              · rw [eat_spec_miss i d L C ws cm (by rw [hdrop3]; simp [hc3])]
                exact inner_disj_of_finish src i (i + 2) d L C ws cm _ (by omega) (by omega)
          · rw [eat_spec_miss i d L C ws cm (by rw [hdrop2]; simp [hc2])]
            exact inner_disj_of_finish src i (i + 1) d L C ws cm _ (by omega) (by omega)
      · unfold whitespace_loop
        have hdecomp := (List.takeWhile_append_dropWhile
          (fun ch => decide (ch = ' ' ∨ ch = '\t' ∨ ch = '\n')) (src.drop (i + 1))).symm
        have hu : ∀ ch ∈ (src.drop (i + 1)).takeWhile
            (fun ch => decide (ch = ' ' ∨ ch = '\t' ∨ ch = '\n')),
            ch = ' ' ∨ ch = '\t' ∨ ch = '\n' := by
          intro ch hch
          have := List.mem_takeWhile_imp hch
          simpa using this
        have hrest : ((src.drop (i + 1)).dropWhile
              (fun ch => decide (ch = ' ' ∨ ch = '\t' ∨ ch = '\n'))) = [] ∨
            ∃ c2 t2, ((src.drop (i + 1)).dropWhile
              (fun ch => decide (ch = ' ' ∨ ch = '\t' ∨ ch = '\n'))) = c2 :: t2 ∧
              ¬(c2 = ' ' ∨ c2 = '\t' ∨ c2 = '\n') := by
          rcases hdw : ((src.drop (i + 1)).dropWhile
              (fun ch => decide (ch = ' ' ∨ ch = '\t' ∨ ch = '\n'))) with _ | ⟨c2, t2⟩
          · exact Or.inl rfl
          · refine Or.inr ⟨c2, t2, rfl, ?_⟩
            have := dropWhile_head_false hdw
            simpa using this
        rw [whitespace_go_run src i d L C ws cm _ _ (i + 1) hdecomp hu hrest]
        have hlen2 : i + 1 + ((src.drop (i + 1)).takeWhile
            (fun ch => decide (ch = ' ' ∨ ch = '\t' ∨ ch = '\n'))).length ≤ src.length := by
          have h1 : ((src.drop (i + 1)).takeWhile
              (fun ch => decide (ch = ' ' ∨ ch = '\t' ∨ ch = '\n'))).length ≤
              (src.drop (i + 1)).length := (List.takeWhile_sublist _).length_le
          have h2 : (src.drop (i + 1)).length = src.length - (i + 1) := List.length_drop _ _
          omega
        exact inner_disj_of_finish src i _ d L C ws cm _ (by omega) hlen2
      · unfold whitespace_loop
        have hdecomp := (List.takeWhile_append_dropWhile
          (fun ch => decide (ch = ' ' ∨ ch = '\t' ∨ ch = '\n')) (src.drop (i + 1))).symm
        have hu : ∀ ch ∈ (src.drop (i + 1)).takeWhile
            (fun ch => decide (ch = ' ' ∨ ch = '\t' ∨ ch = '\n')),
            ch = ' ' ∨ ch = '\t' ∨ ch = '\n' := by
          intro ch hch
          have := List.mem_takeWhile_imp hch
          simpa using this
        have hrest : ((src.drop (i + 1)).dropWhile
              (fun ch => decide (ch = ' ' ∨ ch = '\t' ∨ ch = '\n'))) = [] ∨
            ∃ c2 t2, ((src.drop (i + 1)).dropWhile
              (fun ch => decide (ch = ' ' ∨ ch = '\t' ∨ ch = '\n'))) = c2 :: t2 ∧
              ¬(c2 = ' ' ∨ c2 = '\t' ∨ c2 = '\n') := by
          rcases hdw : ((src.drop (i + 1)).dropWhile
              (fun ch => decide (ch = ' ' ∨ ch = '\t' ∨ ch = '\n'))) with _ | ⟨c2, t2⟩
          · exact Or.inl rfl
          · refine Or.inr ⟨c2, t2, rfl, ?_⟩
            have := dropWhile_head_false hdw
            simpa using this
        rw [whitespace_go_run src i d L C ws cm _ _ (i + 1) hdecomp hu hrest]
        have hlen2 : i + 1 + ((src.drop (i + 1)).takeWhile
            (fun ch => decide (ch = ' ' ∨ ch = '\t' ∨ ch = '\n'))).length ≤ src.length := by
          have h1 : ((src.drop (i + 1)).takeWhile
              (fun ch => decide (ch = ' ' ∨ ch = '\t' ∨ ch = '\n'))).length ≤
              (src.drop (i + 1)).length := (List.takeWhile_sublist _).length_le
          have h2 : (src.drop (i + 1)).length = src.length - (i + 1) := List.length_drop _ _
          omega
        exact inner_disj_of_finish src i _ d L C ws cm _ (by omega) hlen2
      · unfold whitespace_loop
        have hdecomp := (List.takeWhile_append_dropWhile
          (fun ch => decide (ch = ' ' ∨ ch = '\t' ∨ ch = '\n')) (src.drop (i + 1))).symm
        have hu : ∀ ch ∈ (src.drop (i + 1)).takeWhile
            (fun ch => decide (ch = ' ' ∨ ch = '\t' ∨ ch = '\n')),
            ch = ' ' ∨ ch = '\t' ∨ ch = '\n' := by
          intro ch hch
          have := List.mem_takeWhile_imp hch
          simpa using this
        have hrest : ((src.drop (i + 1)).dropWhile
              (fun ch => decide (ch = ' ' ∨ ch = '\t' ∨ ch = '\n'))) = [] ∨
            ∃ c2 t2, ((src.drop (i + 1)).dropWhile
              (fun ch => decide (ch = ' ' ∨ ch = '\t' ∨ ch = '\n'))) = c2 :: t2 ∧
              ¬(c2 = ' ' ∨ c2 = '\t' ∨ c2 = '\n') := by
          rcases hdw : ((src.drop (i + 1)).dropWhile
              (fun ch => decide (ch = ' ' ∨ ch = '\t' ∨ ch = '\n'))) with _ | ⟨c2, t2⟩
          · exact Or.inl rfl
          · refine Or.inr ⟨c2, t2, rfl, ?_⟩
            have := dropWhile_head_false hdw
            simpa using this
        rw [whitespace_go_run src i d L C ws cm _ _ (i + 1) hdecomp hu hrest]
        have hlen2 : i + 1 + ((src.drop (i + 1)).takeWhile
            (fun ch => decide (ch = ' ' ∨ ch = '\t' ∨ ch = '\n'))).length ≤ src.length := by
          have h1 : ((src.drop (i + 1)).takeWhile
              (fun ch => decide (ch = ' ' ∨ ch = '\t' ∨ ch = '\n'))).length ≤
              (src.drop (i + 1)).length := (List.takeWhile_sublist _).length_le
          have h2 : (src.drop (i + 1)).length = src.length - (i + 1) := List.length_drop _ _
          omega
        exact inner_disj_of_finish src i _ d L C ws cm _ (by omega) hlen2
      · obtain ⟨m2, r, heq, h1, h2⟩ := char_lit_run src i (i + 1) d L C ws cm ha (by omega)
        rw [heq]
        cases r with
        | error e => exact inner_disj_of_error src i m2 d L C ws cm e (by omega) h2
        | ok ch => exact inner_disj_of_finish src i m2 d L C ws cm _ (by omega) h2
      · rcases hsl : Tokenizer.string_lit fuel (midState src i (i + 1) d L C ws cm)
            with _ | ⟨r, t2⟩
        · exact inner_disj_outOfFuel src i d L C ws cm
        · have hsl2 := hsl
          unfold Tokenizer.string_lit at hsl2
          have ht2 : t2 = midState src i (i + 1) d L C ws cm :=
            string_lit_loop_state fuel _ [] false r t2 hsl2
          subst ht2
          cases r with
          | error e => exact inner_disj_of_error src i (i + 1) d L C ws cm e (by omega) (by omega)
          | ok str => exact inner_disj_of_finish src i (i + 1) d L C ws cm _ (by omega) (by omega)
      · rcases hdrop2 : src.drop (i + 1) with _ | ⟨c2, tail2⟩
        · rw [midState_peek_eof d L C ws cm hdrop2]
          exact inner_disj_of_finish src i (i + 1) d L C ws cm _ (by omega) (by omega)
        · have hlt2 := drop_cons_lt_length hdrop2
          rw [midState_peek i d L C ws cm hdrop2]
          split
          · rename_i heq2
            injection heq2 with heq2
            subst heq2
            rw [midState_next_char i d L C ws cm hdrop2 rfl]
            exact inner_disj_of_finish src i (i + 2) d L C ws cm _ (by omega) (by omega)
          · rename_i heq2
            injection heq2 with heq2
            subst heq2
            rw [midState_next_char i d L C ws cm hdrop2 rfl]
            exact inner_disj_of_finish src i (i + 2) d L C ws cm _ (by omega) (by omega)
          · exact inner_disj_of_finish src i (i + 1) d L C ws cm _ (by omega) (by omega)
      · rcases hdrop2 : src.drop (i + 1) with _ | ⟨c2, tail2⟩
        · rw [midState_peek_eof d L C ws cm hdrop2]
          exact inner_disj_of_finish src i (i + 1) d L C ws cm _ (by omega) (by omega)
        · have hlt2 := drop_cons_lt_length hdrop2
          rw [midState_peek i d L C ws cm hdrop2]
          split
          · rename_i heq2
            injection heq2 with heq2
            subst heq2
            rw [midState_next_char i d L C ws cm hdrop2 rfl]
            exact inner_disj_of_finish src i (i + 2) d L C ws cm _ (by omega) (by omega)
          · rename_i heq2
            injection heq2 with heq2
            subst heq2
            rw [midState_next_char i d L C ws cm hdrop2 rfl]
            exact inner_disj_of_finish src i (i + 2) d L C ws cm _ (by omega) (by omega)
          · exact inner_disj_of_finish src i (i + 1) d L C ws cm _ (by omega) (by omega)
      · rcases hdrop2 : src.drop (i + 1) with _ | ⟨c2, tail2⟩
        · rw [midState_peek_eof d L C ws cm hdrop2]
          exact inner_disj_of_finish src i (i + 1) d L C ws cm _ (by omega) (by omega)
        · have hlt2 := drop_cons_lt_length hdrop2
          rw [midState_peek i d L C ws cm hdrop2]
          split
          · rename_i heq2
            injection heq2 with heq2
            subst heq2
            rw [midState_next_char i d L C ws cm hdrop2 rfl]
            exact inner_disj_of_finish src i (i + 2) d L C ws cm _ (by omega) (by omega)
          · rename_i heq2
            injection heq2 with heq2
            subst heq2
            rw [midState_next_char i d L C ws cm hdrop2 rfl]
            rcases hdrop3 : src.drop (i + 2) with _ | ⟨c3, tail3⟩
            · rw [eat_spec_miss i d L C ws cm (by rw [hdrop3]; simp)]
              exact inner_disj_of_finish src i (i + 2) d L C ws cm _ (by omega) (by omega)
            · have hlt3 := drop_cons_lt_length hdrop3
              by_cases hc3 : c3 = '='
              · subst hc3
                rw [eat_spec_hit i d L C ws cm hdrop3 rfl]
                exact inner_disj_of_finish src i (i + 3) d L C ws cm _ (by omega) (by omega)
              · rw [eat_spec_miss i d L C ws cm (by rw [hdrop3]; simp [hc3])]
                exact inner_disj_of_finish src i (i + 2) d L C ws cm _ (by omega) (by omega)
          · exact inner_disj_of_finish src i (i + 1) d L C ws cm _ (by omega) (by omega)
      · rcases hdrop2 : src.drop (i + 1) with _ | ⟨c2, tail2⟩
        · rw [eat_spec_miss i d L C ws cm (by rw [hdrop2]; simp)]
          exact inner_disj_of_finish src i (i + 1) d L C ws cm _ (by omega) (by omega)
        · have hlt2 := drop_cons_lt_length hdrop2
          by_cases hc2 : c2 = '='
          · subst hc2
            rw [eat_spec_hit i d L C ws cm hdrop2 rfl]
            exact inner_disj_of_finish src i (i + 2) d L C ws cm _ (by omega) (by omega)
          · rw [eat_spec_miss i d L C ws cm (by rw [hdrop2]; simp [hc2])]
            exact inner_disj_of_finish src i (i + 1) d L C ws cm _ (by omega) (by omega)
      · rcases hdrop2 : src.drop (i + 1) with _ | ⟨c2, tail2⟩
        · rw [eat_spec_miss i d L C ws cm (by rw [hdrop2]; simp)]
          exact inner_disj_of_finish src i (i + 1) d L C ws cm _ (by omega) (by omega)
        · have hlt2 := drop_cons_lt_length hdrop2
          by_cases hc2 : c2 = '='
          · subst hc2
            rw [eat_spec_hit i d L C ws cm hdrop2 rfl]
            exact inner_disj_of_finish src i (i + 2) d L C ws cm _ (by omega) (by omega)
          · rw [eat_spec_miss i d L C ws cm (by rw [hdrop2]; simp [hc2])]
            exact inner_disj_of_finish src i (i + 1) d L C ws cm _ (by omega) (by omega)
      · rcases hdrop2 : src.drop (i + 1) with _ | ⟨c2, tail2⟩
        · rw [eat_spec_miss i d L C ws cm (by rw [hdrop2]; simp)]
          exact inner_disj_of_finish src i (i + 1) d L C ws cm _ (by omega) (by omega)
        · have hlt2 := drop_cons_lt_length hdrop2
          by_cases hc2 : c2 = '='
          · subst hc2
            rw [eat_spec_hit i d L C ws cm hdrop2 rfl]
            exact inner_disj_of_finish src i (i + 2) d L C ws cm _ (by omega) (by omega)
          · rw [eat_spec_miss i d L C ws cm (by rw [hdrop2]; simp [hc2])]
            exact inner_disj_of_finish src i (i + 1) d L C ws cm _ (by omega) (by omega)
      · rcases hdrop2 : src.drop (i + 1) with _ | ⟨c2, tail2⟩
        · rw [eat_spec_miss i d L C ws cm (by rw [hdrop2]; simp)]
          exact inner_disj_of_finish src i (i + 1) d L C ws cm _ (by omega) (by omega)
        · have hlt2 := drop_cons_lt_length hdrop2
          by_cases hc2 : c2 = '='
          · subst hc2
            rw [eat_spec_hit i d L C ws cm hdrop2 rfl]
            exact inner_disj_of_finish src i (i + 2) d L C ws cm _ (by omega) (by omega)
          · rw [eat_spec_miss i d L C ws cm (by rw [hdrop2]; simp [hc2])]
            exact inner_disj_of_finish src i (i + 1) d L C ws cm _ (by omega) (by omega)
      · rcases hdrop2 : src.drop (i + 1) with _ | ⟨c2, tail2⟩
        · rw [midState_peek_eof d L C ws cm hdrop2]
          exact inner_disj_of_finish src i (i + 1) d L C ws cm _ (by omega) (by omega)
        · have hlt2 := drop_cons_lt_length hdrop2
          rw [midState_peek i d L C ws cm hdrop2]
          split
          · rename_i heq2
            injection heq2 with heq2
            subst heq2
            obtain ⟨m2, closed, heqm, hle2, hlen2, hcl⟩ :=
              multiline_go_run src i d L C ws cm ha (src.drop (i + 2)) (i + 2) '*' 1 rfl (by omega)
            have hmc : (midState src i (i + 1) d L C ws cm).multiline_comment =
                (closed, midState src i m2 d L C ws cm) := by
              unfold Tokenizer.multiline_comment
              rw [midState_next_char i d L C ws cm hdrop2 rfl]
              simp only []
              unfold multiline_comment_loop
              exact heqm
            rw [hmc]
            cases closed with
            | true =>
              exact inner_disj_of_finish src i m2 d L C ws cm _ (by omega) hlen2
            | false =>
              simp only []
              rw [midState_pos d L C ws cm (by omega) hlen2 (off_pos (by omega) (by omega))]
              exact inner_disj_of_finish_diag src i m2 d
                { ty := .UnclosedMultilineComment,
                  position := { absolutePosition := off src i, line := L, column := C,
                                text := (src.take m2).drop i } } L C ws cm _ (by omega) hlen2
          · rename_i heq2
            injection heq2 with heq2
            subst heq2
            rcases singleline_loop_run src i d L C ws cm ha fuel (i + 1) (by omega)
              with hnone | ⟨m2, heqs, hle2, hlen2⟩
            · rw [hnone]
              exact inner_disj_outOfFuel src i d L C ws cm
            · rw [heqs]
              exact inner_disj_of_finish src i m2 d L C ws cm _ (by omega) hlen2
          · rename_i heq2
            injection heq2 with heq2
            subst heq2
            rw [midState_next_char i d L C ws cm hdrop2 rfl]
            exact inner_disj_of_finish src i (i + 2) d L C ws cm _ (by omega) (by omega)
          · exact inner_disj_of_finish src i (i + 1) d L C ws cm _ (by omega) (by omega)
      · rcases hdrop2 : src.drop (i + 1) with _ | ⟨c2, tail2⟩
        · rw [midState_peek_eof d L C ws cm hdrop2]
          exact inner_disj_of_finish src i (i + 1) d L C ws cm _ (by omega) (by omega)
        · have hlt2 := drop_cons_lt_length hdrop2
          rw [midState_peek i d L C ws cm hdrop2]
          split
          · rename_i heq2
            injection heq2 with heq2
            subst heq2
            rw [midState_next_char i d L C ws cm hdrop2 rfl]
            rcases hdrop3 : src.drop (i + 2) with _ | ⟨c3, tail3⟩
            · rw [eat_spec_miss i d L C ws cm (by rw [hdrop3]; simp)]
              exact inner_disj_of_finish src i (i + 2) d L C ws cm _ (by omega) (by omega)
            · have hlt3 := drop_cons_lt_length hdrop3
              by_cases hc3 : c3 = '='
              · subst hc3
                rw [eat_spec_hit i d L C ws cm hdrop3 rfl]
                exact inner_disj_of_finish src i (i + 3) d L C ws cm _ (by omega) (by omega)
              · rw [eat_spec_miss i d L C ws cm (by rw [hdrop3]; simp [hc3])]
                exact inner_disj_of_finish src i (i + 2) d L C ws cm _ (by omega) (by omega)
          · rename_i heq2
            injection heq2 with heq2
            subst heq2
            rw [midState_next_char i d L C ws cm hdrop2 rfl]
            exact inner_disj_of_finish src i (i + 2) d L C ws cm _ (by omega) (by omega)
          · exact inner_disj_of_finish src i (i + 1) d L C ws cm _ (by omega) (by omega)
      · rcases hdrop2 : src.drop (i + 1) with _ | ⟨c2, tail2⟩
        · rw [midState_peek_eof d L C ws cm hdrop2]
          exact inner_disj_of_finish src i (i + 1) d L C ws cm _ (by omega) (by omega)
        · have hlt2 := drop_cons_lt_length hdrop2
          rw [midState_peek i d L C ws cm hdrop2]
          split
          · rename_i heq2
            injection heq2 with heq2
            subst heq2
            rw [midState_next_char i d L C ws cm hdrop2 rfl]
            rcases hdrop3 : src.drop (i + 2) with _ | ⟨c3, tail3⟩
            · rw [eat_spec_miss i d L C ws cm (by rw [hdrop3]; simp)]
              exact inner_disj_of_finish src i (i + 2) d L C ws cm _ (by omega) (by omega)
            · have hlt3 := drop_cons_lt_length hdrop3
              by_cases hc3 : c3 = '='
              · subst hc3
                rw [eat_spec_hit i d L C ws cm hdrop3 rfl]
                exact inner_disj_of_finish src i (i + 3) d L C ws cm _ (by omega) (by omega)
              · rw [eat_spec_miss i d L C ws cm (by rw [hdrop3]; simp [hc3])]
                exact inner_disj_of_finish src i (i + 2) d L C ws cm _ (by omega) (by omega)
          · rename_i heq2
            injection heq2 with heq2
            subst heq2
            rw [midState_next_char i d L C ws cm hdrop2 rfl]
            exact inner_disj_of_finish src i (i + 2) d L C ws cm _ (by omega) (by omega)
          · exact inner_disj_of_finish src i (i + 1) d L C ws cm _ (by omega) (by omega)
      · rcases hdrop2 : src.drop (i + 1) with _ | ⟨c2, tail2⟩
        · rw [midState_peek_eof d L C ws cm hdrop2]
          exact inner_disj_of_finish src i (i + 1) d L C ws cm _ (by omega) (by omega)
        · have hlt2 := drop_cons_lt_length hdrop2
          rw [midState_peek i d L C ws cm hdrop2]
          split
          · rename_i heq2
            injection heq2 with heq2
            subst heq2
            rw [midState_next_char i d L C ws cm hdrop2 rfl]
            exact inner_disj_of_finish src i (i + 2) d L C ws cm _ (by omega) (by omega)
          · rename_i heq2
            injection heq2 with heq2
            subst heq2
            rw [midState_next_char i d L C ws cm hdrop2 rfl]
            rcases hdrop3 : src.drop (i + 2) with _ | ⟨c3, tail3⟩
            · rw [if_neg (by rw [midState_peek_eof d L C ws cm hdrop3]; simp)]
              exact inner_disj_of_finish src i (i + 2) d L C ws cm _ (by omega) (by omega)
            · have hlt3 := drop_cons_lt_length hdrop3
              by_cases hc3 : c3 = '='
              · subst hc3
                rw [if_pos (by rw [midState_peek i d L C ws cm hdrop3])]
                rw [midState_next_char i d L C ws cm hdrop3 rfl]
                exact inner_disj_of_finish src i (i + 3) d L C ws cm _ (by omega) (by omega)
              · rw [if_neg (by rw [midState_peek i d L C ws cm hdrop3]; simp [hc3])]
                exact inner_disj_of_finish src i (i + 2) d L C ws cm _ (by omega) (by omega)
          · exact inner_disj_of_finish src i (i + 1) d L C ws cm _ (by omega) (by omega)
      · rcases hdrop2 : src.drop (i + 1) with _ | ⟨c2, tail2⟩
        · rw [midState_peek_eof d L C ws cm hdrop2]
          exact inner_disj_of_finish src i (i + 1) d L C ws cm _ (by omega) (by omega)
        · have hlt2 := drop_cons_lt_length hdrop2
          rw [midState_peek i d L C ws cm hdrop2]
          split
          · rename_i heq2
            injection heq2 with heq2
            subst heq2
            rw [midState_next_char i d L C ws cm hdrop2 rfl]
            exact inner_disj_of_finish src i (i + 2) d L C ws cm _ (by omega) (by omega)
          · rename_i heq2
            injection heq2 with heq2
            subst heq2
            rw [midState_next_char i d L C ws cm hdrop2 rfl]
            rcases hdrop3 : src.drop (i + 2) with _ | ⟨c3, tail3⟩
            · rw [if_neg (by rw [midState_peek_eof d L C ws cm hdrop3]; simp)]
              exact inner_disj_of_finish src i (i + 2) d L C ws cm _ (by omega) (by omega)
            · have hlt3 := drop_cons_lt_length hdrop3
              by_cases hc3 : c3 = '='
              · subst hc3
                rw [if_pos (by rw [midState_peek i d L C ws cm hdrop3])]
                rw [midState_next_char i d L C ws cm hdrop3 rfl]
                exact inner_disj_of_finish src i (i + 3) d L C ws cm _ (by omega) (by omega)
              · rw [if_neg (by rw [midState_peek i d L C ws cm hdrop3]; simp [hc3])]
                exact inner_disj_of_finish src i (i + 2) d L C ws cm _ (by omega) (by omega)
          · exact inner_disj_of_finish src i (i + 1) d L C ws cm _ (by omega) (by omega)
      · by_cases hid : isIdentStart c = true
        · rw [if_pos hid]
          unfold ident_loop
          have hdecomp := (List.takeWhile_append_dropWhile isIdentCont (src.drop (i + 1))).symm
          have hu : ∀ ch ∈ (src.drop (i + 1)).takeWhile isIdentCont, isIdentCont ch = true :=
            fun ch hch => List.mem_takeWhile_imp hch
          have hrest : ((src.drop (i + 1)).dropWhile isIdentCont) = [] ∨
              ∃ c2 t2, ((src.drop (i + 1)).dropWhile isIdentCont) = c2 :: t2 ∧
                isIdentCont c2 = false := by
            rcases hdw : ((src.drop (i + 1)).dropWhile isIdentCont) with _ | ⟨c2, t2⟩
            · exact Or.inl rfl
            · exact Or.inr ⟨c2, t2, rfl, dropWhile_head_false hdw⟩
          rw [ident_go_run src i d L C ws cm _ _ (i + 1) hdecomp hu hrest]
          have hlen2 : i + 1 + ((src.drop (i + 1)).takeWhile isIdentCont).length ≤ src.length := by
            have h1 : ((src.drop (i + 1)).takeWhile isIdentCont).length ≤
                (src.drop (i + 1)).length := (List.takeWhile_sublist _).length_le
            have h2 : (src.drop (i + 1)).length = src.length - (i + 1) := List.length_drop _ _
            omega
          rw [midState_pos d L C ws cm (by omega) hlen2 (off_pos (by omega) (by omega))]
          simp only []
          exact inner_disj_of_finish src i _ d L C ws cm _ (by omega) hlen2
        · rw [if_neg hid]
          by_cases hdig : '0' ≤ c ∧ c ≤ '9'
          · rw [if_pos hdig]
            unfold Tokenizer.number
            unfold number_int_loop
            have hdecomp := (List.takeWhile_append_dropWhile
              (fun ch => decide (('0' ≤ ch ∧ ch ≤ '9') ∨ ch = '_')) (src.drop (i + 1))).symm
            have hu : ∀ ch ∈ (src.drop (i + 1)).takeWhile
                (fun ch => decide (('0' ≤ ch ∧ ch ≤ '9') ∨ ch = '_')),
                ('0' ≤ ch ∧ ch ≤ '9') ∨ ch = '_' := by
              intro ch hch
              have := List.mem_takeWhile_imp hch
              simpa using this
            have hrest : ((src.drop (i + 1)).dropWhile
                  (fun ch => decide (('0' ≤ ch ∧ ch ≤ '9') ∨ ch = '_'))) = [] ∨
                ∃ c2 t2, ((src.drop (i + 1)).dropWhile
                  (fun ch => decide (('0' ≤ ch ∧ ch ≤ '9') ∨ ch = '_'))) = c2 :: t2 ∧
                  ¬('0' ≤ c2 ∧ c2 ≤ '9') ∧ c2 ≠ '_' := by
              rcases hdw : ((src.drop (i + 1)).dropWhile
                  (fun ch => decide (('0' ≤ ch ∧ ch ≤ '9') ∨ ch = '_'))) with _ | ⟨c2, t2⟩
              · exact Or.inl rfl
              · have h5 := dropWhile_head_false hdw
                rw [decide_eq_false_iff_not] at h5
                exact Or.inr ⟨c2, t2, rfl, fun hcon => h5 (Or.inl hcon),
                  fun hcon => h5 (Or.inr hcon)⟩
            rw [number_int_go_run src i d L C ws cm _ _ (i + 1) _ hdecomp hu hrest]
            have hlen2 : i + 1 + ((src.drop (i + 1)).takeWhile
                (fun ch => decide (('0' ≤ ch ∧ ch ≤ '9') ∨ ch = '_'))).length ≤ src.length := by
              have h1 : ((src.drop (i + 1)).takeWhile
                  (fun ch => decide (('0' ≤ ch ∧ ch ≤ '9') ∨ ch = '_'))).length ≤
                  (src.drop (i + 1)).length := (List.takeWhile_sublist _).length_le
              have h2 : (src.drop (i + 1)).length = src.length - (i + 1) := List.length_drop _ _
              omega
            have hdropm1 : src.drop (i + 1 + ((src.drop (i + 1)).takeWhile
                (fun ch => decide (('0' ≤ ch ∧ ch ≤ '9') ∨ ch = '_'))).length) =
                ((src.drop (i + 1)).dropWhile
                  (fun ch => decide (('0' ≤ ch ∧ ch ≤ '9') ∨ ch = '_'))) :=
              drop_add_of_drop hdecomp
            simp only []
            rcases hdw2 : ((src.drop (i + 1)).dropWhile
                (fun ch => decide (('0' ≤ ch ∧ ch ≤ '9') ∨ ch = '_'))) with _ | ⟨c3, tail3⟩
            · rw [hdw2] at hdropm1
              rw [eat_spec_miss i d L C ws cm (by rw [hdropm1]; simp)]
              exact inner_disj_of_finish src i _ d L C ws cm _ (by omega) hlen2
            · rw [hdw2] at hdropm1
              have hlt3 := drop_cons_lt_length hdropm1
              by_cases hc3 : c3 = '.'
              · subst hc3
                rw [eat_spec_hit i d L C ws cm hdropm1 rfl]
                simp only []
                unfold number_frac_loop
                have hdecompf := (List.takeWhile_append_dropWhile
                  (fun ch => decide (('0' ≤ ch ∧ ch ≤ '9') ∨ ch = '_'))
                  (src.drop (i + 1 + ((src.drop (i + 1)).takeWhile
                    (fun ch => decide (('0' ≤ ch ∧ ch ≤ '9') ∨ ch = '_'))).length + 1))).symm
                have huf : ∀ ch ∈ (src.drop (i + 1 + ((src.drop (i + 1)).takeWhile
                    (fun ch => decide (('0' ≤ ch ∧ ch ≤ '9') ∨ ch = '_'))).length + 1)).takeWhile
                    (fun ch => decide (('0' ≤ ch ∧ ch ≤ '9') ∨ ch = '_')),
                    ('0' ≤ ch ∧ ch ≤ '9') ∨ ch = '_' := by
                  intro ch hch
                  have := List.mem_takeWhile_imp hch
                  simpa using this
                have hrestf : ((src.drop (i + 1 + ((src.drop (i + 1)).takeWhile
                      (fun ch => decide (('0' ≤ ch ∧ ch ≤ '9') ∨ ch = '_'))).length + 1)).dropWhile
                      (fun ch => decide (('0' ≤ ch ∧ ch ≤ '9') ∨ ch = '_'))) = [] ∨
                    ∃ c4 t4, ((src.drop (i + 1 + ((src.drop (i + 1)).takeWhile
                      (fun ch => decide (('0' ≤ ch ∧ ch ≤ '9') ∨ ch = '_'))).length + 1)).dropWhile
                      (fun ch => decide (('0' ≤ ch ∧ ch ≤ '9') ∨ ch = '_'))) = c4 :: t4 ∧
                      ¬('0' ≤ c4 ∧ c4 ≤ '9') ∧ c4 ≠ '_' := by
                  rcases hdw4 : ((src.drop (i + 1 + ((src.drop (i + 1)).takeWhile
                      (fun ch => decide (('0' ≤ ch ∧ ch ≤ '9') ∨ ch = '_'))).length + 1)).dropWhile
                      (fun ch => decide (('0' ≤ ch ∧ ch ≤ '9') ∨ ch = '_'))) with _ | ⟨c4, t4⟩
                  · exact Or.inl rfl
                  · have h5 := dropWhile_head_false hdw4
                    rw [decide_eq_false_iff_not] at h5
                    exact Or.inr ⟨c4, t4, rfl, fun hcon => h5 (Or.inl hcon),
                      fun hcon => h5 (Or.inr hcon)⟩
                obtain ⟨q, heqf⟩ := number_frac_go_run src i d L C ws cm _ _ _ 0 (1 / 10)
                  hdecompf huf hrestf
                rw [heqf]
                have hlenf : i + 1 + ((src.drop (i + 1)).takeWhile
                    (fun ch => decide (('0' ≤ ch ∧ ch ≤ '9') ∨ ch = '_'))).length + 1 +
                    ((src.drop (i + 1 + ((src.drop (i + 1)).takeWhile
                      (fun ch => decide (('0' ≤ ch ∧ ch ≤ '9') ∨ ch = '_'))).length + 1)).takeWhile
                      (fun ch => decide (('0' ≤ ch ∧ ch ≤ '9') ∨ ch = '_'))).length ≤ src.length := by
                  have h1 : ((src.drop (i + 1 + ((src.drop (i + 1)).takeWhile
                      (fun ch => decide (('0' ≤ ch ∧ ch ≤ '9') ∨ ch = '_'))).length + 1)).takeWhile
                      (fun ch => decide (('0' ≤ ch ∧ ch ≤ '9') ∨ ch = '_'))).length ≤
                      (src.drop (i + 1 + ((src.drop (i + 1)).takeWhile
                      (fun ch => decide (('0' ≤ ch ∧ ch ≤ '9') ∨ ch = '_'))).length + 1)).length :=
                    (List.takeWhile_sublist _).length_le
                  have h2 : (src.drop (i + 1 + ((src.drop (i + 1)).takeWhile
                      (fun ch => decide (('0' ≤ ch ∧ ch ≤ '9') ∨ ch = '_'))).length + 1)).length =
                      src.length - (i + 1 + ((src.drop (i + 1)).takeWhile
                      (fun ch => decide (('0' ≤ ch ∧ ch ≤ '9') ∨ ch = '_'))).length + 1) :=
                    List.length_drop _ _
                  omega
                exact inner_disj_of_finish src i _ d L C ws cm _ (by omega) hlenf
              · rw [eat_spec_miss i d L C ws cm (by rw [hdropm1]; simp [hc3])]
                exact inner_disj_of_finish src i _ d L C ws cm _ (by omega) hlen2
          · rw [if_neg hdig]
            exact inner_disj_of_error src i (i + 1) d L C ws cm _ (by omega) (by omega)

theorem stateAt_consume (src : List Char) (i : Nat) (d : List Diagnostic) (L C : Nat)
    (ws cm : Bool) :
    (stateAt src i d L C ws cm).consume = eofState src i d ws cm := rfl

theorem get_token_spec (src : List Char) (ha : asciiSrc src) :
    ∀ (fuel i : Nat) (d : List Diagnostic) (L C : Nat) (ws cm : Bool), i ≤ src.length →
    GTDisj src i d L C ws cm (get_token fuel (stateAt src i d L C ws cm)) := by
  intro fuel
  induction fuel with
  | zero => intro i d L C ws cm hi; exact Or.inl rfl
  | succ f ih =>
    intro i d L C ws cm hi
    rcases inner_spec src ha f i d L C ws cm hi with houf | ⟨hnil, hok⟩ |
      ⟨m, it, d2, him, hm, heq, hpos⟩
    · left
      simp only [get_token]
      rw [houf]
    · right; left
      refine ⟨i, [], le_refl i, hi, hnil, ?_⟩
      rw [List.append_nil]
      simp only [get_token]
      rw [hok]
      rfl
    · have hoffm : 1 ≤ off src m := off_pos (by omega) (by omega)
      have hcons : (midState src i m (d ++ d2) L C ws cm).consume =
          stateAt src m (d ++ d2) (stdL src m) (stdC src m) ws cm :=
        midState_consume (d ++ d2) L C ws cm hoffm
      rcases it with e | tok
      · right; right
        refine ⟨i, m, d2, .error e, le_refl i, him, hm, ?_, ?_⟩
        · simp only [get_token]
          rw [heq]
          simp only []
          rw [hcons]
        · intro tok htok
          exact absurd htok (by simp)
      · rcases tok with ⟨pos, ty⟩
        have hpos2 : pos =
            { absolutePosition := off src i, line := L, column := C,
              text := (src.take m).drop i } := hpos ⟨pos, ty⟩ rfl
        have hLif : (if i = i then L else stdL src i) = L := if_pos rfl
        have hCif : (if i = i then C else stdC src i) = C := if_pos rfl
        cases ty with
        | Whitespace =>
          cases ws with
          | true =>
            right; right
            refine ⟨i, m, d2, .ok ⟨pos, .Whitespace⟩, le_refl i, him, hm, ?_, ?_⟩
            · simp only [get_token]
              rw [heq]
              simp only []
              rw [hcons]
              rw [if_pos (show (stateAt src m (d ++ d2) (stdL src m) (stdC src m) true
                cm).emit_whitespace = true from rfl)]
            · intro tok htok
              injection htok with htok
              rw [hLif, hCif, ← htok, hpos2]
          | false =>
            have hrec := ih m (d ++ d2) (stdL src m) (stdC src m) false cm hm
            have hcond : ¬((stateAt src m (d ++ d2) (stdL src m) (stdC src m) false
                cm).emit_whitespace = true) := fun hcon => nomatch hcon
            rcases hrec with h1 | ⟨i2, d3, h2, h3, h4, h5⟩ |
              ⟨j2, m2, d3, it2, h2, h3, h4, h5, h6⟩
            · left
              simp only [get_token]
              rw [heq]
              simp only []
              rw [hcons, if_neg hcond]
              exact h1
            · right; left
              refine ⟨i2, d2 ++ d3, by omega, h3, h4, ?_⟩
              rw [List.append_assoc] at h5
              simp only [get_token]
              rw [heq]
              simp only []
              rw [hcons, if_neg hcond]
              exact h5
            · right; right
              refine ⟨j2, m2, d2 ++ d3, it2, by omega, h3, h4, ?_, ?_⟩
              · rw [List.append_assoc] at h5
                simp only [get_token]
                rw [heq]
                simp only []
                rw [hcons, if_neg hcond]
                exact h5
              · intro tok htok
                have h7 := h6 tok htok
                rw [h7]
                have hne : ¬(j2 = i) := by omega
                rw [if_neg hne, if_neg hne]
                by_cases hjm : j2 = m
                · subst hjm
                  rw [if_pos rfl, if_pos rfl]
                · rw [if_neg hjm, if_neg hjm]
        | Comment cc =>
          cases cm with
          | true =>
            right; right
            refine ⟨i, m, d2, .ok ⟨pos, .Comment cc⟩, le_refl i, him, hm, ?_, ?_⟩
            · simp only [get_token]
              rw [heq]
              simp only []
              rw [hcons]
              rw [if_pos (show (stateAt src m (d ++ d2) (stdL src m) (stdC src m) ws
                true).emit_comments = true from rfl)]
            · intro tok htok
              injection htok with htok
              rw [hLif, hCif, ← htok, hpos2]
          | false =>
            have hrec := ih m (d ++ d2) (stdL src m) (stdC src m) ws false hm
            have hcond : ¬((stateAt src m (d ++ d2) (stdL src m) (stdC src m) ws
                false).emit_comments = true) := fun hcon => nomatch hcon
            rcases hrec with h1 | ⟨i2, d3, h2, h3, h4, h5⟩ |
              ⟨j2, m2, d3, it2, h2, h3, h4, h5, h6⟩
            · left
              simp only [get_token]
              rw [heq]
              simp only []
              rw [hcons, if_neg hcond]
              exact h1
            · right; left
              refine ⟨i2, d2 ++ d3, by omega, h3, h4, ?_⟩
              rw [List.append_assoc] at h5
              simp only [get_token]
              rw [heq]
              simp only []
              rw [hcons, if_neg hcond]
              exact h5
            · right; right
              refine ⟨j2, m2, d2 ++ d3, it2, by omega, h3, h4, ?_, ?_⟩
              · rw [List.append_assoc] at h5
                simp only [get_token]
                rw [heq]
                simp only []
                rw [hcons, if_neg hcond]
                exact h5
              · intro tok htok
                have h7 := h6 tok htok
                rw [h7]
                have hne : ¬(j2 = i) := by omega
                rw [if_neg hne, if_neg hne]
                by_cases hjm : j2 = m
                · subst hjm
                  rw [if_pos rfl, if_pos rfl]
                · rw [if_neg hjm, if_neg hjm]
        | Identifier =>
          right; right
          refine ⟨i, m, d2, .ok ⟨pos, .Identifier⟩, le_refl i, him, hm, ?_, ?_⟩
          · simp only [get_token]
            rw [heq]
            simp only []
            rw [hcons]
          · intro tok htok
            injection htok with htok
            rw [hLif, hCif, ← htok, hpos2]
        | Punctuation pp =>
          right; right
          refine ⟨i, m, d2, .ok ⟨pos, .Punctuation pp⟩, le_refl i, him, hm, ?_, ?_⟩
          · simp only [get_token]
            rw [heq]
            simp only []
            rw [hcons]
          · intro tok htok
            injection htok with htok
            rw [hLif, hCif, ← htok, hpos2]
        | Delimeter dd =>
          right; right
          refine ⟨i, m, d2, .ok ⟨pos, .Delimeter dd⟩, le_refl i, him, hm, ?_, ?_⟩
          · simp only [get_token]
            rw [heq]
            simp only []
            rw [hcons]
          · intro tok htok
            injection htok with htok
            rw [hLif, hCif, ← htok, hpos2]
        | Literal ll =>
          right; right
          refine ⟨i, m, d2, .ok ⟨pos, .Literal ll⟩, le_refl i, him, hm, ?_, ?_⟩
          · simp only [get_token]
            rw [heq]
            simp only []
            rw [hcons]
          · intro tok htok
            injection htok with htok
            rw [hLif, hCif, ← htok, hpos2]
        | Operator oo =>
          right; right
          refine ⟨i, m, d2, .ok ⟨pos, .Operator oo⟩, le_refl i, him, hm, ?_, ?_⟩
          · simp only [get_token]
            rw [heq]
            simp only []
            rw [hcons]
          · intro tok htok
            injection htok with htok
            rw [hLif, hCif, ← htok, hpos2]
        | Keyword kk =>
          right; right
          refine ⟨i, m, d2, .ok ⟨pos, .Keyword kk⟩, le_refl i, him, hm, ?_, ?_⟩
          · simp only [get_token]
            rw [heq]
            simp only []
            rw [hcons]
          · intro tok htok
            injection htok with htok
            rw [hLif, hCif, ← htok, hpos2]

theorem tokenize_run_spec (src : List Char) (ha : asciiSrc src) :
    ∀ (fuel i : Nat) (d : List Diagnostic) (L C : Nat) (ws cm : Bool), i ≤ src.length →
    DrainDisj src i d L C ws cm (tokenize_run fuel (stateAt src i d L C ws cm)) := by
  intro fuel
  induction fuel with
  | zero => intro i d L C ws cm hi; exact Or.inl rfl
  | succ f ih =>
    intro i d L C ws cm hi
    rcases get_token_spec src ha f i d L C ws cm hi with h1 |
      ⟨i2, d2, hii2, hi2, hnil, heq⟩ | ⟨j, m, d2, it, hij, hjm, hm, heq, hposc⟩
    · left
      simp only [tokenize_run]
      rw [h1]
    · right
      refine ⟨[], eofState src i2 (d ++ d2) ws cm, ?_, ?_⟩
      · simp only [tokenize_run]
        rw [heq]
      · intro it hit
        exact absurd hit (by simp)
    · rcases ih m (d ++ d2) (stdL src m) (stdC src m) ws cm hm with h1 |
        ⟨items, t1, heq2, hitems⟩
      · left
        simp only [tokenize_run]
        rw [heq]
        simp only []
        rw [h1]
      · right
        refine ⟨it :: items, t1, ?_, ?_⟩
        · simp only [tokenize_run]
          rw [heq]
          simp only []
          rw [heq2]
        · intro it2 hit2 tok htok
          rcases List.mem_cons.mp hit2 with rfl | hmem
          · have h7 := hposc tok htok
            refine ⟨j, m, hij, hjm, hm, ?_, ?_, ?_, ?_⟩ <;> rw [h7]
          · obtain ⟨j2, m2, hij2, hj2m2, hm2, ha1, ha2, ha3, ha4⟩ := hitems it2 hmem tok htok
            refine ⟨j2, m2, by omega, hj2m2, hm2, ha1, ?_, ?_, ha4⟩
            · rw [ha2]
              have hne : ¬(j2 = i) := by omega
              rw [if_neg hne]
              by_cases hjm2 : j2 = m
              · subst hjm2
                rw [if_pos rfl]
              · rw [if_neg hjm2]
            · rw [ha3]
              have hne : ¬(j2 = i) := by omega
              rw [if_neg hne]
              by_cases hjm2 : j2 = m
              · subst hjm2
                rw [if_pos rfl]
              · rw [if_neg hjm2]

theorem utf8ByteLen_ascii {l : List Char} (h : ∀ c ∈ l, utf8Len c = 1) :
    utf8ByteLen l = l.length := by
  induction l with
  | nil => rfl
  | cons c rest ih =>
    rw [utf8ByteLen_cons, h c (by simp), ih (fun c2 hc2 => h c2 (by simp [hc2]))]
    rw [List.length_cons]
    omega

theorem off_ascii (src : List Char) (ha : asciiSrc src) (i : Nat) (hi : i ≤ src.length) :
    off src i = i := by
  unfold off
  rw [utf8ByteLen_ascii (fun c hc => ha c (List.take_subset i src hc))]
  simp [hi]

theorem stdL_eq_specLine (src : List Char) : ∀ j, j ≤ src.length →
    stdL src j = specLine src j := by
  intro j
  induction j with
  | zero => intro _; rfl
  | succ n ihn =>
    intro hj
    have hn : n < src.length := by omega
    have hts : src.take (n + 1) = src.take n ++ [src[n]] := by
      rw [List.take_succ, List.getElem?_eq_getElem hn]
      rfl
    have h8 := ihn (by omega)
    unfold stdL specLine at h8 ⊢
    rw [hts, List.count_append]
    unfold nlOffsets
    have hgd : src.getD n ' ' = src[n] := by
      rw [List.getD_eq_getElem?_getD, List.getElem?_eq_getElem hn]
      rfl
    by_cases hc : src.getD n ' ' = '\n'
    · rw [if_pos hc]
      have hcc : src[n] = '\n' := by rw [← hgd]; exact hc
      have h9 : List.count '\n' [src[n]] = 1 := by rw [hcc]; rfl
      rw [h9, List.length_cons]
      omega
    · rw [if_neg hc]
      have hcc : ¬(src[n] = '\n') := by rw [← hgd]; exact hc
      have h9 : List.count '\n' [src[n]] = 0 := by
        simp [List.count_singleton]
        intro hcon
        exact hcc hcon
      rw [h9]
      omega

theorem headD_nlOffsets (src : List Char) (ha : asciiSrc src) : ∀ j, j ≤ src.length →
    (nlOffsets src j).headD 0 = (lastNewlineBefore src j).getD 0 := by
  intro j
  induction j with
  | zero => intro _; rfl
  | succ n ihn =>
    intro hj
    unfold nlOffsets lastNewlineBefore
    by_cases hc : src.getD n ' ' = '\n'
    · rw [if_pos hc, if_pos hc]
      simp only [List.headD_cons, Option.getD_some]
      exact off_ascii src ha n (by omega)
    · rw [if_neg hc, if_neg hc]
      exact ihn (by omega)

theorem stdC_eq_codeColumn (src : List Char) (ha : asciiSrc src) (j : Nat)
    (hj : j ≤ src.length) : stdC src j = codeColumn src j := by
  unfold stdC codeColumn
  rw [off_ascii src ha j hj, headD_nlOffsets src ha j hj]

/-- claim C6 (amended): on ASCII inputs every token of a full drain reports
the correct 1-based line number, and its column is exactly
`start_offset - offset_of_most_recent_newline` (sentinel 0) except that the
token starting at offset 0 reports the hard-coded initial column 1.  On
lines >= 2 (a newline precedes the token) that value is the correct 1-based
column; for tokens after the first that start on line 1 it is the 0-based
column, one less than the spec's 1-based value. -/
theorem claim_C6_amended_line_column (src : List Char) (ha : asciiSrc src) (fuel : Nat)
    (items : List TokenizerItem) (t1 : Tokenizer)
    (h : tokenize_run fuel (Tokenizer.new src) = .ok (items, t1)) :
    ∀ it ∈ items, ∀ tok, it = .ok tok →
      ∃ j, j < src.length ∧ tok.position.absolutePosition = j ∧
        tok.position.line = specLine src j ∧
        tok.position.column = (if j = 0 then 1 else codeColumn src j) ∧
        (∀ q, lastNewlineBefore src j = some q → tok.position.column = specColumn src j) ∧
        (lastNewlineBefore src j = none → j ≠ 0 →
          tok.position.column = specColumn src j - 1) ∧
        (j = 0 → tok.position.column = specColumn src j) := by
  intro it hit tok htok
  have hnew : Tokenizer.new src = stateAt src 0 [] 1 1 false false := rfl
  rw [hnew] at h
  rcases tokenize_run_spec src ha fuel 0 [] 1 1 false false (by omega) with h1 |
    ⟨items2, t2, heq2, hitems⟩
  · rw [h] at h1
    exact absurd h1 (by simp)
  · rw [h] at heq2
    injection heq2 with heq2
    rw [Prod.mk.injEq] at heq2
    obtain ⟨hi1, hi2⟩ := heq2
    subst hi1
    obtain ⟨j, m, hij, hjm, hm, hA, hL, hC, hT⟩ := hitems it hit tok htok
    refine ⟨j, by omega, ?_, ?_, ?_, ?_, ?_, ?_⟩
    · rw [hA, off_ascii src ha j (by omega)]
    · rw [hL]
      by_cases hj0 : j = 0
      · subst hj0
        rw [if_pos rfl]
        rfl
      · rw [if_neg hj0, stdL_eq_specLine src j (by omega)]
    · rw [hC]
      by_cases hj0 : j = 0
      · subst hj0
        rw [if_pos rfl, if_pos rfl]
      · rw [if_neg hj0, if_neg hj0, stdC_eq_codeColumn src ha j (by omega)]
    · intro q hq
      rw [hC]
      by_cases hj0 : j = 0
      · subst hj0
        exact absurd hq (by simp [lastNewlineBefore])
      · rw [if_neg hj0, stdC_eq_codeColumn src ha j (by omega)]
        unfold codeColumn specColumn
        rw [hq]
        rfl
    · intro hq hj0
      rw [hC, if_neg hj0, stdC_eq_codeColumn src ha j (by omega)]
      unfold codeColumn specColumn
      rw [hq]
      simp
    · intro hj0
      subst hj0
      rw [hC, if_pos rfl]
      rfl

/-- claim C10 (amended): on ASCII inputs the tokenizer never panics — a full
drain either runs out of fuel (the known divergent loops) or returns
cleanly — and every produced token's `text` is the in-bounds character
slice `src[j..m]` starting at the token's absolute position, i.e. the
inclusive byte range `token_start..=token_end` always lies on character
boundaries within the source. -/
theorem claim_C10_amended_ascii_no_panic (src : List Char) (ha : asciiSrc src) (fuel : Nat) :
    tokenize_run fuel (Tokenizer.new src) ≠ .panicked ∧
    (∀ items t1, tokenize_run fuel (Tokenizer.new src) = .ok (items, t1) →
      ∀ it ∈ items, ∀ tok, it = .ok tok →
        ∃ j m, j < m ∧ m ≤ src.length ∧ tok.position.absolutePosition = j ∧
          tok.position.text = (src.take m).drop j) := by
  have hnew : Tokenizer.new src = stateAt src 0 [] 1 1 false false := rfl
  rw [hnew]
  constructor
  · rcases tokenize_run_spec src ha fuel 0 [] 1 1 false false (by omega) with h1 |
      ⟨items, t2, heq, _⟩
    · rw [h1]
      simp
    · rw [heq]
      simp
  · intro items t1 h it hit tok htok
    rcases tokenize_run_spec src ha fuel 0 [] 1 1 false false (by omega) with h1 |
      ⟨items2, t2, heq2, hitems⟩
    · rw [h] at h1
      exact absurd h1 (by simp)
    · rw [h] at heq2
      injection heq2 with heq2
      rw [Prod.mk.injEq] at heq2
      obtain ⟨hi1, hi2⟩ := heq2
      subst hi1
      obtain ⟨j, m, hij, hjm, hm, hA, hL2, hC2, hT⟩ := hitems it hit tok htok
      exact ⟨j, m, hjm, hm, by rw [hA, off_ascii src ha j (by omega)], hT⟩

/-- Witness for the amended C6 theorem at the concrete input `a\nb`: the
token `a` (offset 0) reports line 1 column 1, and the token `b` (offset 2,
line 2) reports line 2 column 1 — both correct here, `b`'s column being
computed from the recorded newline. -/
theorem claim_C6_amended_witness :
    ∃ j, j < (['a', '\n', 'b'] : List Char).length ∧
      ({ position := { absolutePosition := 2, line := 2, column := 1, text := ['b'] },
         ty := .Identifier } : Token).position.absolutePosition = j ∧
      ({ position := { absolutePosition := 2, line := 2, column := 1, text := ['b'] },
         ty := .Identifier } : Token).position.line = specLine ['a', '\n', 'b'] j ∧
      ({ position := { absolutePosition := 2, line := 2, column := 1, text := ['b'] },
         ty := .Identifier } : Token).position.column =
        (if j = 0 then 1 else codeColumn ['a', '\n', 'b'] j) ∧
      (∀ q, lastNewlineBefore ['a', '\n', 'b'] j = some q →
        ({ position := { absolutePosition := 2, line := 2, column := 1, text := ['b'] },
           ty := .Identifier } : Token).position.column = specColumn ['a', '\n', 'b'] j) ∧
      (lastNewlineBefore ['a', '\n', 'b'] j = none → j ≠ 0 →
        ({ position := { absolutePosition := 2, line := 2, column := 1, text := ['b'] },
           ty := .Identifier } : Token).position.column =
          specColumn ['a', '\n', 'b'] j - 1) ∧
      (j = 0 →
        ({ position := { absolutePosition := 2, line := 2, column := 1, text := ['b'] },
           ty := .Identifier } : Token).position.column = specColumn ['a', '\n', 'b'] j) :=
  claim_C6_amended_line_column ['a', '\n', 'b'] (by unfold asciiSrc; decide) 10
    [.ok { position := { absolutePosition := 0, line := 1, column := 1, text := ['a'] },
           ty := .Identifier },
     .ok { position := { absolutePosition := 2, line := 2, column := 1, text := ['b'] },
           ty := .Identifier }]
    { source := ['a', '\n', 'b'], token_start := 4, token_end := 4, start_line := 2,
      start_column := 3, chrs := [], newlines := [1, 0], diagnostics := [],
      emit_whitespace := false, emit_comments := false } rfl
    (.ok { position := { absolutePosition := 2, line := 2, column := 1, text := ['b'] },
           ty := .Identifier })
    (List.Mem.tail _ (List.Mem.head _))
    { position := { absolutePosition := 2, line := 2, column := 1, text := ['b'] },
      ty := .Identifier } rfl

/-- Witness for the amended C10 theorem at the concrete ASCII input `a b`. -/
theorem claim_C10_amended_witness :
    tokenize_run 10 (Tokenizer.new ['a', ' ', 'b']) ≠ .panicked ∧
    (∀ items t1, tokenize_run 10 (Tokenizer.new ['a', ' ', 'b']) = .ok (items, t1) →
      ∀ it ∈ items, ∀ tok, it = .ok tok →
        ∃ j m, j < m ∧ m ≤ (['a', ' ', 'b'] : List Char).length ∧
          tok.position.absolutePosition = j ∧
          tok.position.text = ((['a', ' ', 'b'] : List Char).take m).drop j) :=
  claim_C10_amended_ascii_no_panic ['a', ' ', 'b'] (by unfold asciiSrc; decide) 10

theorem charIndices_map_snd : ∀ (l : List Char) (k : Nat),
    (charIndices k l).map Prod.snd = l := by
  intro l
  induction l with
  | nil => intro k; rfl
  | cons c rest ih =>
    intro k
    unfold charIndices
    rw [List.map_cons, ih]

theorem multiline_go_fst (ps : List (Nat × Char)) : ∀ (t : Tokenizer) (pc : Char) (nest : Nat),
    (multiline_go ps t pc nest).1 = mlCloses (ps.map Prod.snd) pc nest := by
  induction ps with
  | nil => intro t pc nest; rfl
  | cons p rest ih =>
    intro t pc nest
    rcases p with ⟨o, c⟩
    rw [List.map_cons]
    unfold multiline_go mlCloses
    simp only []
    split_ifs <;> first | rfl | apply ih

/-- claim C7 (amended): whenever the scan of an ASCII input reaches a `/*`
comment opener and the pair-matching scan never closes before end of input,
`get_token_inner` consumes the rest of the input, appends EXACTLY ONE
`UnclosedMultilineComment` diagnostic — tagged with the comment's position
(starting at the comment's `/`) — and still produces an `Ok` MultiLine
comment token (no error item). -/
theorem claim_C7_amended_unclosed_comment (src : List Char) (ha : asciiSrc src)
    (fuel i : Nat) (d : List Diagnostic) (L C : Nat) (ws cm : Bool) (tail : List Char)
    (hdrop : src.drop i = '/' :: '*' :: tail)
    (hnc : mlCloses tail '*' 1 = false) :
    ∃ m2, src.drop m2 = [] ∧ i < m2 ∧ m2 ≤ src.length ∧
      get_token_inner fuel (stateAt src i d L C ws cm) =
        .ok (some (.ok { position := { absolutePosition := off src i, line := L, column := C,
                                       text := (src.take m2).drop i },
                         ty := .Comment .MultiLine }),
             midState src i m2
               (d ++ [{ ty := .UnclosedMultilineComment,
                        position := { absolutePosition := off src i, line := L, column := C,
                                      text := (src.take m2).drop i } }]) L C ws cm) := by
  have hlt : i < src.length := drop_cons_lt_length hdrop
  have hdrop2 : src.drop (i + 1) = '*' :: tail := drop_succ_of_drop hdrop
  have hlt2 : i + 1 < src.length := drop_cons_lt_length hdrop2
  have hdrop3 : src.drop (i + 2) = tail := drop_succ_of_drop hdrop2
  obtain ⟨m2, closed, heqm, hle2, hlen2, hcl⟩ :=
    multiline_go_run src i d L C ws cm ha (src.drop (i + 2)) (i + 2) '*' 1 rfl (by omega)
  have hclosed : closed = false := by
    have h9 := multiline_go_fst (midState src i (i + 2) d L C ws cm).chrs
      (midState src i (i + 2) d L C ws cm) '*' 1
    rw [heqm] at h9
    simp only [] at h9
    rw [midState_chrs, hdrop3, charIndices_map_snd, hnc] at h9
    exact h9
  subst hclosed
  have hmc : (midState src i (i + 1) d L C ws cm).multiline_comment =
      (false, midState src i m2 d L C ws cm) := by
    unfold Tokenizer.multiline_comment
    rw [midState_next_char i d L C ws cm hdrop2 rfl]
    simp only []
    unfold multiline_comment_loop
    exact heqm
  have hop : 1 ≤ off src m2 := off_pos (by omega) (by omega)
  have him2 : i ≤ m2 := by omega
  have him3 : i < m2 := by omega
  refine ⟨m2, hcl rfl, him3, hlen2, ?_⟩
  unfold get_token_inner
  rw [stateAt_next_char d L C ws cm hdrop rfl]
  simp only []
  rw [midState_peek i d L C ws cm hdrop2]
  simp only []
  rw [hmc]
  simp only []
  rw [midState_pos d L C ws cm him2 hlen2 hop]
  simp only []
  exact finish_spec
    (d ++ [{ ty := .UnclosedMultilineComment,
             position := { absolutePosition := off src i, line := L, column := C,
                           text := (src.take m2).drop i } }]) L C ws cm
    (.Comment .MultiLine) him3 hlen2

/-- Witness for the amended C7 theorem at the concrete input `/*abc`. -/
theorem claim_C7_amended_witness :
    ∃ m2, (['/', '*', 'a', 'b', 'c'] : List Char).drop m2 = [] ∧ 0 < m2 ∧
      m2 ≤ (['/', '*', 'a', 'b', 'c'] : List Char).length ∧
      get_token_inner 0 (stateAt ['/', '*', 'a', 'b', 'c'] 0 [] 1 1 false false) =
        .ok (some (.ok
          { position := { absolutePosition := off ['/', '*', 'a', 'b', 'c'] 0,
                          line := 1, column := 1,
                          text := ((['/', '*', 'a', 'b', 'c'] : List Char).take m2).drop 0 },
            ty := .Comment .MultiLine }),
          midState ['/', '*', 'a', 'b', 'c'] 0 m2
            ([] ++ [{ ty := .UnclosedMultilineComment,
                      position :=
                        { absolutePosition := off ['/', '*', 'a', 'b', 'c'] 0,
                          line := 1, column := 1,
                          text := ((['/', '*', 'a', 'b', 'c'] : List Char).take m2).drop 0 } }])
            1 1 false false) :=
  claim_C7_amended_unclosed_comment ['/', '*', 'a', 'b', 'c'] (by unfold asciiSrc; decide)
    0 0 [] 1 1 false false ['a', 'b', 'c'] rfl rfl

theorem inner_lparen (src : List Char) (i : Nat) (d : List Diagnostic) (L C : Nat)
    (ws cm : Bool) (fuel : Nat) (rest : List Char)
    (hdrop : src.drop i = '(' :: rest) :
    get_token_inner fuel (stateAt src i d L C ws cm) =
      .ok (some (.ok
        { position := { absolutePosition := off src i, line := L, column := C,
                        text := (src.take (i + 1)).drop i },
          ty := .Delimeter ⟨.Parentheses, .Left⟩ }), midState src i (i + 1) d L C ws cm) := by
  have hlt : i < src.length := drop_cons_lt_length hdrop
  unfold get_token_inner
  rw [stateAt_next_char d L C ws cm hdrop rfl]
  simp only []
  exact finish_spec d L C ws cm _ (by omega) (by omega)

theorem inner_rparen (src : List Char) (i : Nat) (d : List Diagnostic) (L C : Nat)
    (ws cm : Bool) (fuel : Nat) (rest : List Char)
    (hdrop : src.drop i = ')' :: rest) :
    get_token_inner fuel (stateAt src i d L C ws cm) =
      .ok (some (.ok
        { position := { absolutePosition := off src i, line := L, column := C,
                        text := (src.take (i + 1)).drop i },
          ty := .Delimeter ⟨.Parentheses, .Right⟩ }), midState src i (i + 1) d L C ws cm) := by
  have hlt : i < src.length := drop_cons_lt_length hdrop
  unfold get_token_inner
  rw [stateAt_next_char d L C ws cm hdrop rfl]
  simp only []
  exact finish_spec d L C ws cm _ (by omega) (by omega)

theorem inner_lsq (src : List Char) (i : Nat) (d : List Diagnostic) (L C : Nat)
    (ws cm : Bool) (fuel : Nat) (rest : List Char)
    (hdrop : src.drop i = '[' :: rest) :
    get_token_inner fuel (stateAt src i d L C ws cm) =
      .ok (some (.ok
        { position := { absolutePosition := off src i, line := L, column := C,
                        text := (src.take (i + 1)).drop i },
          ty := .Delimeter ⟨.Square, .Left⟩ }), midState src i (i + 1) d L C ws cm) := by
  have hlt : i < src.length := drop_cons_lt_length hdrop
  unfold get_token_inner
  rw [stateAt_next_char d L C ws cm hdrop rfl]
  simp only []
  exact finish_spec d L C ws cm _ (by omega) (by omega)

theorem inner_rsq (src : List Char) (i : Nat) (d : List Diagnostic) (L C : Nat)
    (ws cm : Bool) (fuel : Nat) (rest : List Char)
    (hdrop : src.drop i = ']' :: rest) :
    get_token_inner fuel (stateAt src i d L C ws cm) =
      .ok (some (.ok
        { position := { absolutePosition := off src i, line := L, column := C,
                        text := (src.take (i + 1)).drop i },
          ty := .Delimeter ⟨.Square, .Right⟩ }), midState src i (i + 1) d L C ws cm) := by
  have hlt : i < src.length := drop_cons_lt_length hdrop
  unfold get_token_inner
  rw [stateAt_next_char d L C ws cm hdrop rfl]
  simp only []
  exact finish_spec d L C ws cm _ (by omega) (by omega)

theorem inner_comma (src : List Char) (i : Nat) (d : List Diagnostic) (L C : Nat)
    (ws cm : Bool) (fuel : Nat) (rest : List Char)
    (hdrop : src.drop i = ',' :: rest) :
    get_token_inner fuel (stateAt src i d L C ws cm) =
      .ok (some (.ok
        { position := { absolutePosition := off src i, line := L, column := C,
                        text := (src.take (i + 1)).drop i },
          ty := .Punctuation .Comma }), midState src i (i + 1) d L C ws cm) := by
  have hlt : i < src.length := drop_cons_lt_length hdrop
  unfold get_token_inner
  rw [stateAt_next_char d L C ws cm hdrop rfl]
  simp only []
  exact finish_spec d L C ws cm _ (by omega) (by omega)
theorem inner_plus (src : List Char) (i : Nat) (d : List Diagnostic) (L C : Nat)
    (ws cm : Bool) (fuel : Nat) (rest : List Char)
    (hdrop : src.drop i = '+' :: rest) (hsafe : OpSafe rest) :
    get_token_inner fuel (stateAt src i d L C ws cm) =
      .ok (some (.ok
        { position := { absolutePosition := off src i, line := L, column := C,
                        text := (src.take (i + 1)).drop i },
          ty := .Operator .Plus }), midState src i (i + 1) d L C ws cm) := by
  have hlt : i < src.length := drop_cons_lt_length hdrop
  have hdrop2 : src.drop (i + 1) = rest := drop_succ_of_drop hdrop
  unfold get_token_inner
  rw [stateAt_next_char d L C ws cm hdrop rfl]
  simp only []
  rcases hsafe with rfl | ⟨c2, rt, rfl, h1, h2, h3, h4, h5⟩
  · rw [midState_peek_eof d L C ws cm hdrop2]
    exact finish_spec d L C ws cm _ (by omega) (by omega)
  · rw [midState_peek i d L C ws cm hdrop2]
    split
    · rename_i heq
      injection heq with heq
      exact absurd heq h1
    · rename_i heq
      injection heq with heq
      exact absurd heq h2
    · exact finish_spec d L C ws cm _ (by omega) (by omega)

theorem inner_minus (src : List Char) (i : Nat) (d : List Diagnostic) (L C : Nat)
    (ws cm : Bool) (fuel : Nat) (rest : List Char)
    (hdrop : src.drop i = '-' :: rest) (hsafe : OpSafe rest) :
    get_token_inner fuel (stateAt src i d L C ws cm) =
      .ok (some (.ok
        { position := { absolutePosition := off src i, line := L, column := C,
                        text := (src.take (i + 1)).drop i },
          ty := .Operator .Minus }), midState src i (i + 1) d L C ws cm) := by
  have hlt : i < src.length := drop_cons_lt_length hdrop
  have hdrop2 : src.drop (i + 1) = rest := drop_succ_of_drop hdrop
  unfold get_token_inner
  rw [stateAt_next_char d L C ws cm hdrop rfl]
  simp only []
  rcases hsafe with rfl | ⟨c2, rt, rfl, h1, h2, h3, h4, h5⟩
  · rw [midState_peek_eof d L C ws cm hdrop2]
    exact finish_spec d L C ws cm _ (by omega) (by omega)
  · rw [midState_peek i d L C ws cm hdrop2]
    split
    · rename_i heq
      injection heq with heq
      exact absurd heq h1
    · rename_i heq
      injection heq with heq
      exact absurd heq h3
    · exact finish_spec d L C ws cm _ (by omega) (by omega)

theorem inner_star (src : List Char) (i : Nat) (d : List Diagnostic) (L C : Nat)
    (ws cm : Bool) (fuel : Nat) (rest : List Char)
    (hdrop : src.drop i = '*' :: rest) (hsafe : OpSafe rest) :
    get_token_inner fuel (stateAt src i d L C ws cm) =
      .ok (some (.ok
        { position := { absolutePosition := off src i, line := L, column := C,
                        text := (src.take (i + 1)).drop i },
          ty := .Operator .Star }), midState src i (i + 1) d L C ws cm) := by
  have hlt : i < src.length := drop_cons_lt_length hdrop
  have hdrop2 : src.drop (i + 1) = rest := drop_succ_of_drop hdrop
  unfold get_token_inner
  rw [stateAt_next_char d L C ws cm hdrop rfl]
  simp only []
  rcases hsafe with rfl | ⟨c2, rt, rfl, h1, h2, h3, h4, h5⟩
  · rw [midState_peek_eof d L C ws cm hdrop2]
    exact finish_spec d L C ws cm _ (by omega) (by omega)
  · rw [midState_peek i d L C ws cm hdrop2]
    split
    · rename_i heq
      injection heq with heq
      exact absurd heq h1
    · rename_i heq
      injection heq with heq
      exact absurd heq h4
    · exact finish_spec d L C ws cm _ (by omega) (by omega)

theorem inner_slash (src : List Char) (i : Nat) (d : List Diagnostic) (L C : Nat)
    (ws cm : Bool) (fuel : Nat) (rest : List Char)
    (hdrop : src.drop i = '/' :: rest) (hsafe : OpSafe rest) :
    get_token_inner fuel (stateAt src i d L C ws cm) =
      .ok (some (.ok
        { position := { absolutePosition := off src i, line := L, column := C,
                        text := (src.take (i + 1)).drop i },
          ty := .Operator .Slash }), midState src i (i + 1) d L C ws cm) := by
  have hlt : i < src.length := drop_cons_lt_length hdrop
  have hdrop2 : src.drop (i + 1) = rest := drop_succ_of_drop hdrop
  unfold get_token_inner
  rw [stateAt_next_char d L C ws cm hdrop rfl]
  simp only []
  rcases hsafe with rfl | ⟨c2, rt, rfl, h1, h2, h3, h4, h5⟩
  · rw [midState_peek_eof d L C ws cm hdrop2]
    exact finish_spec d L C ws cm _ (by omega) (by omega)
  · rw [midState_peek i d L C ws cm hdrop2]
    split
    · rename_i heq
      injection heq with heq
      exact absurd heq h4
    · rename_i heq
      injection heq with heq
      exact absurd heq h5
    · rename_i heq
      injection heq with heq
      exact absurd heq h1
    · exact finish_spec d L C ws cm _ (by omega) (by omega)
theorem slice_of_drop {src w rest : List Char} {i : Nat} (hi : i ≤ src.length)
    (h : src.drop i = w ++ rest) : (src.take (i + w.length)).drop i = w := by
  have hlen : (src.take i).length = i := by
    rw [List.length_take]
    omega
  rw [List.take_add, h, List.take_left, List.drop_left' hlen]

theorem digit_not_identStart {c : Char} (h : '0' ≤ c ∧ c ≤ '9') :
    isIdentStart c = false := by
  unfold isIdentStart
  rw [decide_eq_false_iff_not]
  intro hcon
  have hhigh : c.val.toNat ≤ ('9' : Char).val.toNat := Char.le_def.mp h.2
  have h9 : ('9' : Char).val.toNat = 57 := rfl
  rcases hcon with h5 | h5 | h5
  · have h6 : ('a' : Char).val.toNat ≤ c.val.toNat := Char.le_def.mp h5.1
    have h7 : ('a' : Char).val.toNat = 97 := rfl
    omega
  · have h6 : ('A' : Char).val.toNat ≤ c.val.toNat := Char.le_def.mp h5.1
    have h7 : ('A' : Char).val.toNat = 65 := rfl
    omega
  · rw [h5] at hhigh
    have h7 : ('_' : Char).val.toNat = 95 := rfl
    omega

theorem identStart_isIdentCont {c : Char} (h : isIdentStart c = true) :
    isIdentCont c = true := by
  unfold isIdentStart at h
  unfold isIdentCont
  simp only [Bool.decide_or, Bool.or_eq_true, decide_eq_true_eq] at h ⊢
  tauto

theorem identStart_utf8Len {c : Char} (h : isIdentStart c = true) : utf8Len c = 1 :=
  isIdentCont_utf8Len (identStart_isIdentCont h)

theorem inner_charlit (src : List Char) (i : Nat) (d : List Diagnostic) (L C : Nat)
    (ws cm : Bool) (fuel : Nat) (c : Char) (rest : List Char)
    (hdrop : src.drop i = '\'' :: c :: '\'' :: rest) (hac : utf8Len c = 1) :
    ∃ ch, get_token_inner fuel (stateAt src i d L C ws cm) =
      .ok (some (.ok
        { position := { absolutePosition := off src i, line := L, column := C,
                        text := (src.take (i + 3)).drop i },
          ty := .Literal (.Char ch) }), midState src i (i + 3) d L C ws cm) := by
  have hlt : i < src.length := drop_cons_lt_length hdrop
  have hdrop2 : src.drop (i + 1) = c :: '\'' :: rest := drop_succ_of_drop hdrop
  have hlt2 : i + 1 < src.length := drop_cons_lt_length hdrop2
  have hdrop3 : src.drop (i + 2) = '\'' :: rest := drop_succ_of_drop hdrop2
  have hlt3 : i + 2 < src.length := drop_cons_lt_length hdrop3
  unfold get_token_inner
  rw [stateAt_next_char d L C ws cm hdrop rfl]
  simp only []
  unfold Tokenizer.char_lit
  rw [midState_next_char i d L C ws cm hdrop2 hac]
  simp only []
  by_cases hc : c = '\\'
  · subst hc
    rw [if_pos rfl]
    rw [midState_peek i d L C ws cm hdrop3]
    simp only []
    rw [eat_spec_hit i d L C ws cm hdrop3 rfl]
    refine ⟨'\'', ?_⟩
    simp only []
    exact finish_spec d L C ws cm _ (by omega) (by omega)
  · rw [if_neg hc]
    simp only []
    rw [eat_spec_hit i d L C ws cm hdrop3 rfl]
    refine ⟨c, ?_⟩
    simp only []
    exact finish_spec d L C ws cm _ (by omega) (by omega)

theorem inner_ident (src : List Char) (i : Nat) (d : List Diagnostic) (L C : Nat)
    (ws cm : Bool) (fuel : Nat) (w rest : List Char)
    (hdrop : src.drop i = w ++ rest) (hw : validIdent w = true)
    (hrest : rest = [] ∨ ∃ c2 rt, rest = c2 :: rt ∧ isIdentCont c2 = false) :
    get_token_inner fuel (stateAt src i d L C ws cm) =
      .ok (some (.ok
        { position := { absolutePosition := off src i, line := L, column := C,
                        text := (src.take (i + w.length)).drop i },
          ty := .Identifier }), midState src i (i + w.length) d L C ws cm) := by
  rcases w with _ | ⟨c0, wr⟩
  · exact absurd hw (by decide)
  have hw' := hw
  unfold validIdent at hw'
  simp only [Bool.and_eq_true, decide_eq_true_eq] at hw'
  obtain ⟨⟨hstart, hall⟩, hne⟩ := hw'
  have hdropc : src.drop i = c0 :: (wr ++ rest) := by rw [hdrop]; rfl
  have hlt : i < src.length := drop_cons_lt_length hdropc
  have hdrop2 : src.drop (i + 1) = wr ++ rest := drop_succ_of_drop hdropc
  have hm : i + (c0 :: wr).length ≤ src.length := by
    have h3 : (src.drop i).length = (c0 :: wr).length + rest.length := by
      rw [hdrop, List.length_append]
    have h4 : (src.drop i).length = src.length - i := List.length_drop _ _
    omega
  have hop : 1 ≤ off src (i + (c0 :: wr).length) :=
    off_pos (by simp only [List.length_cons]; omega) (by omega)
  unfold get_token_inner
  rw [stateAt_next_char d L C ws cm hdropc (identStart_utf8Len hstart)]
  simp only []
  split
  all_goals try exact absurd hstart (by decide)
  rw [if_pos hstart]
  unfold ident_loop
  rw [ident_go_run src i d L C ws cm wr rest (i + 1) hdrop2
    (fun c hc => List.all_eq_true.mp hall c hc) hrest]
  have hlenw : i + 1 + wr.length = i + (c0 :: wr).length := by
    simp only [List.length_cons]
    omega
  rw [hlenw]
  rw [midState_pos d L C ws cm (by omega) hm hop]
  simp only []
  have hslice : (src.take (i + (c0 :: wr).length)).drop i = c0 :: wr :=
    slice_of_drop (by omega) hdrop
  have hkw2 : get_keyword ((src.take (i + (c0 :: wr).length)).drop i) = none := by
    rw [hslice]
    unfold get_keyword
    rw [if_neg hne]
  rw [hkw2]
  exact finish_spec d L C ws cm _ (by simp only [List.length_cons]; omega) hm

theorem inner_int (src : List Char) (i : Nat) (d : List Diagnostic) (L C : Nat)
    (ws cm : Bool) (fuel : Nat) (c0 : Char) (ds rest : List Char)
    (hdrop : src.drop i = c0 :: (ds ++ rest))
    (hc0 : '0' ≤ c0 ∧ c0 ≤ '9')
    (hds : ∀ c ∈ ds, '0' ≤ c ∧ c ≤ '9')
    (hrest : rest = [] ∨ ∃ c2 rt, rest = c2 :: rt ∧
      ¬('0' ≤ c2 ∧ c2 ≤ '9') ∧ c2 ≠ '_' ∧ c2 ≠ '.') :
    get_token_inner fuel (stateAt src i d L C ws cm) =
      .ok (some (.ok
        { position := { absolutePosition := off src i, line := L, column := C,
                        text := (src.take (i + (1 + ds.length))).drop i },
          ty := .Literal (.Number (.Integer
            (ds.foldl digitStep ((c0.toNat - '0'.toNat) % 2 ^ 64)))) }),
        midState src i (i + (1 + ds.length)) d L C ws cm) := by
  have hlt : i < src.length := drop_cons_lt_length hdrop
  have hdrop2 : src.drop (i + 1) = ds ++ rest := drop_succ_of_drop hdrop
  have hm1drop : src.drop (i + 1 + ds.length) = rest := drop_add_of_drop hdrop2
  have hm : i + (1 + ds.length) ≤ src.length := by
    have h3 : (src.drop (i + 1)).length = ds.length + rest.length := by
      rw [hdrop2, List.length_append]
    have h4 : (src.drop (i + 1)).length = src.length - (i + 1) := List.length_drop _ _
    omega
  have hnid : ¬(isIdentStart c0 = true) := by
    rw [digit_not_identStart hc0]
    simp
  unfold get_token_inner
  rw [stateAt_next_char d L C ws cm hdrop (digit_utf8Len hc0)]
  simp only []
  split
  all_goals try exact absurd hc0 (by decide)
  rw [if_neg hnid, if_pos hc0]
  unfold Tokenizer.number
  unfold number_int_loop
  rw [number_int_go_run src i d L C ws cm ds rest (i + 1) _ hdrop2
    (fun c hc => Or.inl (hds c hc))
    (by
      rcases hrest with rfl | ⟨c2, rt, rfl, hnd, hnu, hndot⟩
      · exact Or.inl rfl
      · exact Or.inr ⟨c2, rt, rfl, hnd, hnu⟩)]
  simp only []
  have hmiss : (src.drop (i + 1 + ds.length)).head? ≠ some '.' := by
    rw [hm1drop]
    rcases hrest with rfl | ⟨c2, rt, rfl, hnd, hnu, hndot⟩
    · simp
    · simp [hndot]
  rw [eat_spec_miss i d L C ws cm hmiss]
  simp only []
  have hlen2 : i + 1 + ds.length = i + (1 + ds.length) := by omega
  rw [hlen2]
  exact finish_spec d L C ws cm _ (by omega) hm

theorem pull_tok (src : List Char) (i m : Nat) (d : List Diagnostic) (L C : Nat)
    (Φf : Nat) (tok : Token)
    (hinner : get_token_inner Φf (stateAt src i d L C false false) =
      .ok (some (.ok tok), midState src i m d L C false false))
    (him : i < m) (hm : m ≤ src.length)
    (hty1 : tok.ty ≠ .Whitespace) (hty2 : ∀ cc, tok.ty ≠ .Comment cc) :
    get_token (Φf + 1) (stateAt src i d L C false false) =
      .ok (some (.ok tok), stateAt src m d (stdL src m) (stdC src m) false false) := by
  have hcons : (midState src i m d L C false false).consume =
      stateAt src m d (stdL src m) (stdC src m) false false :=
    midState_consume d L C false false (off_pos (by omega) (by omega))
  simp only [get_token]
  rw [hinner]
  simp only []
  rw [hcons]

theorem skip_space (src : List Char) (i : Nat) (d : List Diagnostic) (L C : Nat)
    (Φf : Nat) (c2 : Char) (rt : List Char)
    (hdrop : src.drop i = ' ' :: c2 :: rt)
    (hc2 : ¬(c2 = ' ' ∨ c2 = '\t' ∨ c2 = '\n')) :
    get_token (Φf + 1) (stateAt src i d L C false false) =
      get_token Φf (stateAt src (i + 1) d (stdL src (i + 1)) (stdC src (i + 1))
        false false) := by
  have hlt : i < src.length := drop_cons_lt_length hdrop
  have hdrop2 : src.drop (i + 1) = c2 :: rt := drop_succ_of_drop hdrop
  have hinner : get_token_inner Φf (stateAt src i d L C false false) =
      .ok (some (.ok
        { position := { absolutePosition := off src i, line := L, column := C,
                        text := (src.take (i + 1)).drop i },
          ty := .Whitespace }), midState src i (i + 1) d L C false false) := by
    unfold get_token_inner
    rw [stateAt_next_char d L C false false hdrop rfl]
    simp only []
    unfold whitespace_loop
    rw [whitespace_go_run src i d L C false false [] (c2 :: rt) (i + 1)
      (by rw [hdrop2]; rfl)
      (by intro c hc; exact absurd hc (by simp))
      (Or.inr ⟨c2, rt, rfl, hc2⟩)]
    simp only [List.length_nil, Nat.add_zero]
    exact finish_spec d L C false false _ (by omega) (by omega)
  have hcons : (midState src i (i + 1) d L C false false).consume =
      stateAt src (i + 1) d (stdL src (i + 1)) (stdC src (i + 1)) false false :=
    midState_consume d L C false false (off_pos (by omega) (by omega))
  simp only [get_token]
  rw [hinner]
  simp only []
  rw [hcons]
  rw [if_neg (show ¬((stateAt src (i + 1) d (stdL src (i + 1)) (stdC src (i + 1)) false
    false).emit_whitespace = true) from fun hcon => nomatch hcon)]

theorem identStart_not_ws {c : Char} (h : isIdentStart c = true) :
    ¬(c = ' ' ∨ c = '\t' ∨ c = '\n') := by
  intro hcon
  rcases hcon with rfl | rfl | rfl <;> exact absurd h (by decide)

theorem digit_not_ws {c : Char} (h : '0' ≤ c ∧ c ≤ '9') :
    ¬(c = ' ' ∨ c = '\t' ∨ c = '\n') := by
  intro hcon
  rcases hcon with rfl | rfl | rfl <;> exact absurd h (by decide)

theorem pull_sp_lparen (src : List Char) (i : Nat) (d : List Diagnostic) (L C : Nat)
    (sp rest : List Char) (hsp : sp = [] ∨ sp = [' '])
    (hdrop : src.drop i = sp ++ '(' :: rest) :
    ∃ tok, get_token 2 (stateAt src i d L C false false) =
        .ok (some (.ok tok),
          stateAt src (i + sp.length + 1) d (stdL src (i + sp.length + 1))
            (stdC src (i + sp.length + 1)) false false) ∧
      tok.ty = .Delimeter ⟨.Parentheses, .Left⟩ := by
  rcases hsp with rfl | rfl
  · simp only [List.nil_append] at hdrop
    have hlt : i < src.length := drop_cons_lt_length hdrop
    have h2 := pull_tok src i (i + 1) d L C 1 _
      (inner_lparen src i d L C false false 1 rest hdrop)
      (by omega) (by omega) (by simp) (fun cc => by simp)
    exact ⟨_, h2, rfl⟩
  · rw [List.cons_append, List.nil_append] at hdrop
    have hlt : i < src.length := drop_cons_lt_length hdrop
    have hdrop2 : src.drop (i + 1) = '(' :: rest := drop_succ_of_drop hdrop
    have hlt2 : i + 1 < src.length := drop_cons_lt_length hdrop2
    have h2 := pull_tok src (i + 1) (i + 2) d (stdL src (i + 1)) (stdC src (i + 1)) 0 _
      (inner_lparen src (i + 1) d (stdL src (i + 1)) (stdC src (i + 1)) false false 0 rest hdrop2)
      (by omega) (by omega) (by simp) (fun cc => by simp)
    have h3 : get_token 2 (stateAt src i d L C false false) =
        get_token 1 (stateAt src (i + 1) d (stdL src (i + 1)) (stdC src (i + 1)) false false) :=
      skip_space src i d L C 1 '(' rest hdrop (by decide)
    exact ⟨_, h3.trans h2, rfl⟩

theorem pull_sp_rparen (src : List Char) (i : Nat) (d : List Diagnostic) (L C : Nat)
    (sp rest : List Char) (hsp : sp = [] ∨ sp = [' '])
    (hdrop : src.drop i = sp ++ ')' :: rest) :
    ∃ tok, get_token 2 (stateAt src i d L C false false) =
        .ok (some (.ok tok),
          stateAt src (i + sp.length + 1) d (stdL src (i + sp.length + 1))
            (stdC src (i + sp.length + 1)) false false) ∧
      tok.ty = .Delimeter ⟨.Parentheses, .Right⟩ := by
  rcases hsp with rfl | rfl
  · simp only [List.nil_append] at hdrop
    have hlt : i < src.length := drop_cons_lt_length hdrop
    have h2 := pull_tok src i (i + 1) d L C 1 _
      (inner_rparen src i d L C false false 1 rest hdrop)
      (by omega) (by omega) (by simp) (fun cc => by simp)
    exact ⟨_, h2, rfl⟩
  · rw [List.cons_append, List.nil_append] at hdrop
    have hlt : i < src.length := drop_cons_lt_length hdrop
    have hdrop2 : src.drop (i + 1) = ')' :: rest := drop_succ_of_drop hdrop
    have hlt2 : i + 1 < src.length := drop_cons_lt_length hdrop2
    have h2 := pull_tok src (i + 1) (i + 2) d (stdL src (i + 1)) (stdC src (i + 1)) 0 _
      (inner_rparen src (i + 1) d (stdL src (i + 1)) (stdC src (i + 1)) false false 0 rest hdrop2)
      (by omega) (by omega) (by simp) (fun cc => by simp)
    have h3 : get_token 2 (stateAt src i d L C false false) =
        get_token 1 (stateAt src (i + 1) d (stdL src (i + 1)) (stdC src (i + 1)) false false) :=
      skip_space src i d L C 1 ')' rest hdrop (by decide)
    exact ⟨_, h3.trans h2, rfl⟩

theorem pull_sp_lsq (src : List Char) (i : Nat) (d : List Diagnostic) (L C : Nat)
    (sp rest : List Char) (hsp : sp = [] ∨ sp = [' '])
    (hdrop : src.drop i = sp ++ '[' :: rest) :
    ∃ tok, get_token 2 (stateAt src i d L C false false) =
        .ok (some (.ok tok),
          stateAt src (i + sp.length + 1) d (stdL src (i + sp.length + 1))
            (stdC src (i + sp.length + 1)) false false) ∧
      tok.ty = .Delimeter ⟨.Square, .Left⟩ := by
  rcases hsp with rfl | rfl
  · simp only [List.nil_append] at hdrop
    have hlt : i < src.length := drop_cons_lt_length hdrop
    have h2 := pull_tok src i (i + 1) d L C 1 _
      (inner_lsq src i d L C false false 1 rest hdrop)
      (by omega) (by omega) (by simp) (fun cc => by simp)
    exact ⟨_, h2, rfl⟩
  · rw [List.cons_append, List.nil_append] at hdrop
    have hlt : i < src.length := drop_cons_lt_length hdrop
    have hdrop2 : src.drop (i + 1) = '[' :: rest := drop_succ_of_drop hdrop
    have hlt2 : i + 1 < src.length := drop_cons_lt_length hdrop2
    have h2 := pull_tok src (i + 1) (i + 2) d (stdL src (i + 1)) (stdC src (i + 1)) 0 _
      (inner_lsq src (i + 1) d (stdL src (i + 1)) (stdC src (i + 1)) false false 0 rest hdrop2)
      (by omega) (by omega) (by simp) (fun cc => by simp)
    have h3 : get_token 2 (stateAt src i d L C false false) =
        get_token 1 (stateAt src (i + 1) d (stdL src (i + 1)) (stdC src (i + 1)) false false) :=
      skip_space src i d L C 1 '[' rest hdrop (by decide)
    exact ⟨_, h3.trans h2, rfl⟩

theorem pull_sp_rsq (src : List Char) (i : Nat) (d : List Diagnostic) (L C : Nat)
    (sp rest : List Char) (hsp : sp = [] ∨ sp = [' '])
    (hdrop : src.drop i = sp ++ ']' :: rest) :
    ∃ tok, get_token 2 (stateAt src i d L C false false) =
        .ok (some (.ok tok),
          stateAt src (i + sp.length + 1) d (stdL src (i + sp.length + 1))
            (stdC src (i + sp.length + 1)) false false) ∧
      tok.ty = .Delimeter ⟨.Square, .Right⟩ := by
  rcases hsp with rfl | rfl
  · simp only [List.nil_append] at hdrop
    have hlt : i < src.length := drop_cons_lt_length hdrop
    have h2 := pull_tok src i (i + 1) d L C 1 _
      (inner_rsq src i d L C false false 1 rest hdrop)
      (by omega) (by omega) (by simp) (fun cc => by simp)
    exact ⟨_, h2, rfl⟩
  · rw [List.cons_append, List.nil_append] at hdrop
    have hlt : i < src.length := drop_cons_lt_length hdrop
    have hdrop2 : src.drop (i + 1) = ']' :: rest := drop_succ_of_drop hdrop
    have hlt2 : i + 1 < src.length := drop_cons_lt_length hdrop2
    have h2 := pull_tok src (i + 1) (i + 2) d (stdL src (i + 1)) (stdC src (i + 1)) 0 _
      (inner_rsq src (i + 1) d (stdL src (i + 1)) (stdC src (i + 1)) false false 0 rest hdrop2)
      (by omega) (by omega) (by simp) (fun cc => by simp)
    have h3 : get_token 2 (stateAt src i d L C false false) =
        get_token 1 (stateAt src (i + 1) d (stdL src (i + 1)) (stdC src (i + 1)) false false) :=
      skip_space src i d L C 1 ']' rest hdrop (by decide)
    exact ⟨_, h3.trans h2, rfl⟩

theorem pull_sp_comma (src : List Char) (i : Nat) (d : List Diagnostic) (L C : Nat)
    (sp rest : List Char) (hsp : sp = [] ∨ sp = [' '])
    (hdrop : src.drop i = sp ++ ',' :: rest) :
    ∃ tok, get_token 2 (stateAt src i d L C false false) =
        .ok (some (.ok tok),
          stateAt src (i + sp.length + 1) d (stdL src (i + sp.length + 1))
            (stdC src (i + sp.length + 1)) false false) ∧
      tok.ty = .Punctuation .Comma := by
  rcases hsp with rfl | rfl
  · simp only [List.nil_append] at hdrop
    have hlt : i < src.length := drop_cons_lt_length hdrop
    have h2 := pull_tok src i (i + 1) d L C 1 _
      (inner_comma src i d L C false false 1 rest hdrop)
      (by omega) (by omega) (by simp) (fun cc => by simp)
    exact ⟨_, h2, rfl⟩
  · rw [List.cons_append, List.nil_append] at hdrop
    have hlt : i < src.length := drop_cons_lt_length hdrop
    have hdrop2 : src.drop (i + 1) = ',' :: rest := drop_succ_of_drop hdrop
    have hlt2 : i + 1 < src.length := drop_cons_lt_length hdrop2
    have h2 := pull_tok src (i + 1) (i + 2) d (stdL src (i + 1)) (stdC src (i + 1)) 0 _
      (inner_comma src (i + 1) d (stdL src (i + 1)) (stdC src (i + 1)) false false 0 rest hdrop2)
      (by omega) (by omega) (by simp) (fun cc => by simp)
    have h3 : get_token 2 (stateAt src i d L C false false) =
        get_token 1 (stateAt src (i + 1) d (stdL src (i + 1)) (stdC src (i + 1)) false false) :=
      skip_space src i d L C 1 ',' rest hdrop (by decide)
    exact ⟨_, h3.trans h2, rfl⟩

theorem pull_sp_plus (src : List Char) (i : Nat) (d : List Diagnostic) (L C : Nat)
    (sp rest : List Char) (hsp : sp = [] ∨ sp = [' '])
    (hdrop : src.drop i = sp ++ '+' :: rest) (hsafe : OpSafe rest) :
    ∃ tok, get_token 2 (stateAt src i d L C false false) =
        .ok (some (.ok tok),
          stateAt src (i + sp.length + 1) d (stdL src (i + sp.length + 1))
            (stdC src (i + sp.length + 1)) false false) ∧
      tok.ty = .Operator .Plus := by
  rcases hsp with rfl | rfl
  · simp only [List.nil_append] at hdrop
    have hlt : i < src.length := drop_cons_lt_length hdrop
    have h2 := pull_tok src i (i + 1) d L C 1 _
      (inner_plus src i d L C false false 1 rest hdrop hsafe)
      (by omega) (by omega) (by simp) (fun cc => by simp)
    exact ⟨_, h2, rfl⟩
  · rw [List.cons_append, List.nil_append] at hdrop
    have hlt : i < src.length := drop_cons_lt_length hdrop
    have hdrop2 : src.drop (i + 1) = '+' :: rest := drop_succ_of_drop hdrop
    have hlt2 : i + 1 < src.length := drop_cons_lt_length hdrop2
    have h2 := pull_tok src (i + 1) (i + 2) d (stdL src (i + 1)) (stdC src (i + 1)) 0 _
      (inner_plus src (i + 1) d (stdL src (i + 1)) (stdC src (i + 1)) false false 0 rest
        hdrop2 hsafe)
      (by omega) (by omega) (by simp) (fun cc => by simp)
    have h3 : get_token 2 (stateAt src i d L C false false) =
        get_token 1 (stateAt src (i + 1) d (stdL src (i + 1)) (stdC src (i + 1)) false false) :=
      skip_space src i d L C 1 '+' rest hdrop (by decide)
    exact ⟨_, h3.trans h2, rfl⟩

theorem pull_sp_minus (src : List Char) (i : Nat) (d : List Diagnostic) (L C : Nat)
    (sp rest : List Char) (hsp : sp = [] ∨ sp = [' '])
    (hdrop : src.drop i = sp ++ '-' :: rest) (hsafe : OpSafe rest) :
    ∃ tok, get_token 2 (stateAt src i d L C false false) =
        .ok (some (.ok tok),
          stateAt src (i + sp.length + 1) d (stdL src (i + sp.length + 1))
            (stdC src (i + sp.length + 1)) false false) ∧
      tok.ty = .Operator .Minus := by
  rcases hsp with rfl | rfl
  · simp only [List.nil_append] at hdrop
    have hlt : i < src.length := drop_cons_lt_length hdrop
    have h2 := pull_tok src i (i + 1) d L C 1 _
      (inner_minus src i d L C false false 1 rest hdrop hsafe)
      (by omega) (by omega) (by simp) (fun cc => by simp)
    exact ⟨_, h2, rfl⟩
  · rw [List.cons_append, List.nil_append] at hdrop
    have hlt : i < src.length := drop_cons_lt_length hdrop
    have hdrop2 : src.drop (i + 1) = '-' :: rest := drop_succ_of_drop hdrop
    have hlt2 : i + 1 < src.length := drop_cons_lt_length hdrop2
    have h2 := pull_tok src (i + 1) (i + 2) d (stdL src (i + 1)) (stdC src (i + 1)) 0 _
      (inner_minus src (i + 1) d (stdL src (i + 1)) (stdC src (i + 1)) false false 0 rest
        hdrop2 hsafe)
      (by omega) (by omega) (by simp) (fun cc => by simp)
    have h3 : get_token 2 (stateAt src i d L C false false) =
        get_token 1 (stateAt src (i + 1) d (stdL src (i + 1)) (stdC src (i + 1)) false false) :=
      skip_space src i d L C 1 '-' rest hdrop (by decide)
    exact ⟨_, h3.trans h2, rfl⟩

theorem pull_sp_star (src : List Char) (i : Nat) (d : List Diagnostic) (L C : Nat)
    (sp rest : List Char) (hsp : sp = [] ∨ sp = [' '])
    (hdrop : src.drop i = sp ++ '*' :: rest) (hsafe : OpSafe rest) :
    ∃ tok, get_token 2 (stateAt src i d L C false false) =
        .ok (some (.ok tok),
          stateAt src (i + sp.length + 1) d (stdL src (i + sp.length + 1))
            (stdC src (i + sp.length + 1)) false false) ∧
      tok.ty = .Operator .Star := by
  rcases hsp with rfl | rfl
  · simp only [List.nil_append] at hdrop
    have hlt : i < src.length := drop_cons_lt_length hdrop
    have h2 := pull_tok src i (i + 1) d L C 1 _
      (inner_star src i d L C false false 1 rest hdrop hsafe)
      (by omega) (by omega) (by simp) (fun cc => by simp)
    exact ⟨_, h2, rfl⟩
  · rw [List.cons_append, List.nil_append] at hdrop
    have hlt : i < src.length := drop_cons_lt_length hdrop
    have hdrop2 : src.drop (i + 1) = '*' :: rest := drop_succ_of_drop hdrop
    have hlt2 : i + 1 < src.length := drop_cons_lt_length hdrop2
    have h2 := pull_tok src (i + 1) (i + 2) d (stdL src (i + 1)) (stdC src (i + 1)) 0 _
      (inner_star src (i + 1) d (stdL src (i + 1)) (stdC src (i + 1)) false false 0 rest
        hdrop2 hsafe)
      (by omega) (by omega) (by simp) (fun cc => by simp)
    have h3 : get_token 2 (stateAt src i d L C false false) =
        get_token 1 (stateAt src (i + 1) d (stdL src (i + 1)) (stdC src (i + 1)) false false) :=
      skip_space src i d L C 1 '*' rest hdrop (by decide)
    exact ⟨_, h3.trans h2, rfl⟩

theorem pull_sp_slash (src : List Char) (i : Nat) (d : List Diagnostic) (L C : Nat)
    (sp rest : List Char) (hsp : sp = [] ∨ sp = [' '])
    (hdrop : src.drop i = sp ++ '/' :: rest) (hsafe : OpSafe rest) :
    ∃ tok, get_token 2 (stateAt src i d L C false false) =
        .ok (some (.ok tok),
          stateAt src (i + sp.length + 1) d (stdL src (i + sp.length + 1))
            (stdC src (i + sp.length + 1)) false false) ∧
      tok.ty = .Operator .Slash := by
  rcases hsp with rfl | rfl
  · simp only [List.nil_append] at hdrop
    have hlt : i < src.length := drop_cons_lt_length hdrop
    have h2 := pull_tok src i (i + 1) d L C 1 _
      (inner_slash src i d L C false false 1 rest hdrop hsafe)
      (by omega) (by omega) (by simp) (fun cc => by simp)
    exact ⟨_, h2, rfl⟩
  · rw [List.cons_append, List.nil_append] at hdrop
    have hlt : i < src.length := drop_cons_lt_length hdrop
    have hdrop2 : src.drop (i + 1) = '/' :: rest := drop_succ_of_drop hdrop
    have hlt2 : i + 1 < src.length := drop_cons_lt_length hdrop2
    have h2 := pull_tok src (i + 1) (i + 2) d (stdL src (i + 1)) (stdC src (i + 1)) 0 _
      (inner_slash src (i + 1) d (stdL src (i + 1)) (stdC src (i + 1)) false false 0 rest
        hdrop2 hsafe)
      (by omega) (by omega) (by simp) (fun cc => by simp)
    have h3 : get_token 2 (stateAt src i d L C false false) =
        get_token 1 (stateAt src (i + 1) d (stdL src (i + 1)) (stdC src (i + 1)) false false) :=
      skip_space src i d L C 1 '/' rest hdrop (by decide)
    exact ⟨_, h3.trans h2, rfl⟩

theorem pull_sp_ident (src : List Char) (i : Nat) (d : List Diagnostic) (L C : Nat)
    (sp w rest : List Char) (hsp : sp = [] ∨ sp = [' '])
    (hdrop : src.drop i = sp ++ (w ++ rest)) (hw : validIdent w = true)
    (hrest : rest = [] ∨ ∃ c2 rt, rest = c2 :: rt ∧ isIdentCont c2 = false) :
    ∃ tok, get_token 2 (stateAt src i d L C false false) =
        .ok (some (.ok tok),
          stateAt src (i + sp.length + w.length) d (stdL src (i + sp.length + w.length))
            (stdC src (i + sp.length + w.length)) false false) ∧
      tok.ty = .Identifier ∧ tok.text = w := by
  rcases w with _ | ⟨c0, wr⟩
  · exact absurd hw (by decide)
  have hw' := hw
  unfold validIdent at hw'
  simp only [Bool.and_eq_true, decide_eq_true_eq] at hw'
  obtain ⟨⟨hstart, hall⟩, hne⟩ := hw'
  rcases hsp with rfl | rfl
  · simp only [List.nil_append] at hdrop
    have hdropc : src.drop i = c0 :: (wr ++ rest) := by
      rw [hdrop]
      rfl
    have hlt : i < src.length := drop_cons_lt_length hdropc
    have hm : i + (c0 :: wr).length ≤ src.length := by
      have h3 : (src.drop i).length = (c0 :: wr).length + rest.length := by
        rw [hdrop, List.length_append]
      have h4 : (src.drop i).length = src.length - i := List.length_drop _ _
      omega
    have h2 := pull_tok src i (i + (c0 :: wr).length) d L C 1 _
      (inner_ident src i d L C false false 1 (c0 :: wr) rest hdrop hw hrest)
      (by simp only [List.length_cons]; omega) hm (by simp) (fun cc => by simp)
    exact ⟨_, h2, rfl, slice_of_drop (by omega) hdrop⟩
  · rw [List.cons_append, List.nil_append] at hdrop
    have hdropc : src.drop i = ' ' :: c0 :: (wr ++ rest) := by
      rw [hdrop]
      rfl
    have hlt : i < src.length := drop_cons_lt_length hdropc
    have hdrop2 : src.drop (i + 1) = (c0 :: wr) ++ rest := drop_succ_of_drop hdropc
    have hlt2 : i + 1 < src.length := drop_cons_lt_length (show src.drop (i + 1) =
      c0 :: (wr ++ rest) from hdrop2)
    have hm : i + 1 + (c0 :: wr).length ≤ src.length := by
      have h3 : (src.drop (i + 1)).length = (c0 :: wr).length + rest.length := by
        rw [hdrop2, List.length_append]
      have h4 : (src.drop (i + 1)).length = src.length - (i + 1) := List.length_drop _ _
      omega
    have h2 := pull_tok src (i + 1) (i + 1 + (c0 :: wr).length) d
      (stdL src (i + 1)) (stdC src (i + 1)) 0 _
      (inner_ident src (i + 1) d (stdL src (i + 1)) (stdC src (i + 1)) false false 0
        (c0 :: wr) rest hdrop2 hw hrest)
      (by simp only [List.length_cons]; omega) hm (by simp) (fun cc => by simp)
    have h3 : get_token 2 (stateAt src i d L C false false) =
        get_token 1 (stateAt src (i + 1) d (stdL src (i + 1)) (stdC src (i + 1)) false false) :=
      skip_space src i d L C 1 c0 (wr ++ rest) hdropc (identStart_not_ws hstart)
    exact ⟨_, h3.trans h2, rfl, slice_of_drop (by omega) hdrop2⟩

theorem pull_sp_int (src : List Char) (i : Nat) (d : List Diagnostic) (L C : Nat)
    (sp : List Char) (c0 : Char) (ds rest : List Char) (hsp : sp = [] ∨ sp = [' '])
    (hdrop : src.drop i = sp ++ (c0 :: (ds ++ rest)))
    (hc0 : '0' ≤ c0 ∧ c0 ≤ '9')
    (hds : ∀ c ∈ ds, '0' ≤ c ∧ c ≤ '9')
    (hrest : rest = [] ∨ ∃ c2 rt, rest = c2 :: rt ∧
      ¬('0' ≤ c2 ∧ c2 ≤ '9') ∧ c2 ≠ '_' ∧ c2 ≠ '.') :
    ∃ tok, get_token 2 (stateAt src i d L C false false) =
        .ok (some (.ok tok),
          stateAt src (i + sp.length + (1 + ds.length)) d
            (stdL src (i + sp.length + (1 + ds.length)))
            (stdC src (i + sp.length + (1 + ds.length))) false false) ∧
      tok.ty = .Literal (.Number (.Integer
        (ds.foldl digitStep ((c0.toNat - '0'.toNat) % 2 ^ 64)))) := by
  rcases hsp with rfl | rfl
  · simp only [List.nil_append] at hdrop
    have hlt : i < src.length := drop_cons_lt_length hdrop
    have hm : i + (1 + ds.length) ≤ src.length := by
      have hdrop2 : src.drop (i + 1) = ds ++ rest := drop_succ_of_drop hdrop
      have h3 : (src.drop (i + 1)).length = ds.length + rest.length := by
        rw [hdrop2, List.length_append]
      have h4 : (src.drop (i + 1)).length = src.length - (i + 1) := List.length_drop _ _
      omega
    have h2 := pull_tok src i (i + (1 + ds.length)) d L C 1 _
      (inner_int src i d L C false false 1 c0 ds rest hdrop hc0 hds hrest)
      (by omega) hm (by simp) (fun cc => by simp)
    exact ⟨_, h2, rfl⟩
  · rw [List.cons_append, List.nil_append] at hdrop
    have hlt : i < src.length := drop_cons_lt_length hdrop
    have hdrop2 : src.drop (i + 1) = c0 :: (ds ++ rest) := drop_succ_of_drop hdrop
    have hlt2 : i + 1 < src.length := drop_cons_lt_length hdrop2
    have hm : i + 1 + (1 + ds.length) ≤ src.length := by
      have hdrop3 : src.drop (i + 1 + 1) = ds ++ rest := drop_succ_of_drop hdrop2
      have h3 : (src.drop (i + 1 + 1)).length = ds.length + rest.length := by
        rw [hdrop3, List.length_append]
      have h4 : (src.drop (i + 1 + 1)).length = src.length - (i + 1 + 1) :=
        List.length_drop _ _
      omega
    have h2 := pull_tok src (i + 1) (i + 1 + (1 + ds.length)) d
      (stdL src (i + 1)) (stdC src (i + 1)) 0 _
      (inner_int src (i + 1) d (stdL src (i + 1)) (stdC src (i + 1)) false false 0
        c0 ds rest hdrop2 hc0 hds hrest)
      (by omega) hm (by simp) (fun cc => by simp)
    have h3 : get_token 2 (stateAt src i d L C false false) =
        get_token 1 (stateAt src (i + 1) d (stdL src (i + 1)) (stdC src (i + 1)) false false) :=
      skip_space src i d L C 1 c0 (ds ++ rest) hdrop (digit_not_ws hc0)
    exact ⟨_, h3.trans h2, rfl⟩

theorem pull_sp_char (src : List Char) (i : Nat) (d : List Diagnostic) (L C : Nat)
    (sp : List Char) (c : Char) (rest : List Char) (hsp : sp = [] ∨ sp = [' '])
    (hdrop : src.drop i = sp ++ ('\'' :: c :: '\'' :: rest)) (hac : utf8Len c = 1) :
    ∃ tok ch, get_token 2 (stateAt src i d L C false false) =
        .ok (some (.ok tok),
          stateAt src (i + sp.length + 3) d (stdL src (i + sp.length + 3))
            (stdC src (i + sp.length + 3)) false false) ∧
      tok.ty = .Literal (.Char ch) := by
  rcases hsp with rfl | rfl
  · simp only [List.nil_append] at hdrop
    have hlt : i < src.length := drop_cons_lt_length hdrop
    have hdropb : src.drop (i + 1) = c :: '\'' :: rest := drop_succ_of_drop hdrop
    have hdropc : src.drop (i + 2) = '\'' :: rest := drop_succ_of_drop hdropb
    have hlt3 : i + 2 < src.length := drop_cons_lt_length hdropc
    obtain ⟨ch, hinner⟩ := inner_charlit src i d L C false false 1 c rest hdrop hac
    have h2 := pull_tok src i (i + 3) d L C 1 _ hinner
      (by omega) (by omega) (by simp) (fun cc => by simp)
    exact ⟨_, ch, h2, rfl⟩
  · rw [List.cons_append, List.nil_append] at hdrop
    have hlt : i < src.length := drop_cons_lt_length hdrop
    have hdrop2 : src.drop (i + 1) = '\'' :: c :: '\'' :: rest := drop_succ_of_drop hdrop
    have hdropb : src.drop (i + 1 + 1) = c :: '\'' :: rest := drop_succ_of_drop hdrop2
    have hdropc : src.drop (i + 1 + 2) = '\'' :: rest := drop_succ_of_drop hdropb
    have hlt3 : i + 1 + 2 < src.length := drop_cons_lt_length hdropc
    obtain ⟨ch, hinner⟩ := inner_charlit src (i + 1) d (stdL src (i + 1)) (stdC src (i + 1))
      false false 0 c rest hdrop2 hac
    have h2 := pull_tok src (i + 1) (i + 1 + 3) d (stdL src (i + 1)) (stdC src (i + 1)) 0 _
      hinner (by omega) (by omega) (by simp) (fun cc => by simp)
    have h3 : get_token 2 (stateAt src i d L C false false) =
        get_token 1 (stateAt src (i + 1) d (stdL src (i + 1)) (stdC src (i + 1)) false false) :=
      skip_space src i d L C 1 '\'' (c :: '\'' :: rest) hdrop (by decide)
    exact ⟨_, ch, h3.trans h2, rfl⟩
theorem digitChar_isDigit (k : Nat) (hk : k < 10) :
    '0' ≤ Char.ofNat (48 + k) ∧ Char.ofNat (48 + k) ≤ '9' := by
  interval_cases k <;> exact ⟨by decide, by decide⟩

theorem natToDecimalAux_mem : ∀ (fuel n : Nat) (accL : List Char) (c : Char),
    c ∈ natToDecimalAux fuel n accL → ('0' ≤ c ∧ c ≤ '9') ∨ c ∈ accL := by
  intro fuel
  induction fuel with
  | zero => intro n accL c hc; exact Or.inr hc
  | succ f ih =>
    intro n accL c hc
    unfold natToDecimalAux at hc
    by_cases hn : n < 10
    · rw [if_pos hn] at hc
      rcases List.mem_cons.mp hc with rfl | hc2
      · exact Or.inl (digitChar_isDigit n hn)
      · exact Or.inr hc2
    · rw [if_neg hn] at hc
      rcases ih (n / 10) _ c hc with h | h
      · exact Or.inl h
      · rcases List.mem_cons.mp h with rfl | h2
        · exact Or.inl (digitChar_isDigit (n % 10) (Nat.mod_lt _ (by omega)))
        · exact Or.inr h2

theorem natToDecimal_digits (n : Nat) : ∀ c ∈ natToDecimal n, '0' ≤ c ∧ c ≤ '9' := by
  intro c hc
  rcases natToDecimalAux_mem (n + 1) n [] c hc with h | h
  · exact h
  · exact absurd h (by simp)

theorem natToDecimalAux_ne_nil : ∀ (fuel n : Nat) (accL : List Char),
    natToDecimalAux fuel n accL = [] → accL = [] ∧ fuel = 0 := by
  intro fuel
  induction fuel with
  | zero => intro n accL h; exact ⟨h, rfl⟩
  | succ f ih =>
    intro n accL h
    unfold natToDecimalAux at h
    by_cases hn : n < 10
    · rw [if_pos hn] at h
      exact absurd h (by simp)
    · rw [if_neg hn] at h
      have h2 := (ih _ _ h).1
      exact absurd h2 (by simp)

theorem natToDecimal_ne_nil (n : Nat) : natToDecimal n ≠ [] := by
  intro h
  have h2 := (natToDecimalAux_ne_nil (n + 1) n [] h).2
  omega

theorem head_facts_of_identStart {c : Char} (h : isIdentStart c = true) :
    c ≠ '=' ∧ c ≠ '+' ∧ c ≠ '-' ∧ c ≠ '*' ∧ c ≠ '/' ∧
      ¬(c = ' ' ∨ c = '\t' ∨ c = '\n') := by
  refine ⟨?_, ?_, ?_, ?_, ?_, identStart_not_ws h⟩ <;>
    exact fun hcon => by subst hcon; exact absurd h (by decide)

theorem head_facts_of_digit {c : Char} (h : '0' ≤ c ∧ c ≤ '9') :
    c ≠ '=' ∧ c ≠ '+' ∧ c ≠ '-' ∧ c ≠ '*' ∧ c ≠ '/' ∧
      ¬(c = ' ' ∨ c = '\t' ∨ c = '\n') := by
  refine ⟨?_, ?_, ?_, ?_, ?_, digit_not_ws h⟩ <;>
    exact fun hcon => by subst hcon; exact absurd h (by decide)

theorem wfE_unop_elim {op : Operator} {r : Expr} (h : wfE (.unop op r) = true) :
    (op = .Plus ∨ op = .Minus) ∧ wfE r = true := by
  cases op
  case Plus => exact ⟨Or.inl rfl, h⟩
  case Minus => exact ⟨Or.inr rfl, h⟩
  all_goals exact nomatch h

theorem wfE_binop_elim {l : Expr} {op : Operator} {r : Expr}
    (h : wfE (.binop l op r) = true) :
    (op = .Plus ∨ op = .Minus ∨ op = .Star ∨ op = .Slash) ∧
      wfE l = true ∧ wfE r = true := by
  cases op
  case Plus => exact ⟨Or.inl rfl, (Bool.and_eq_true _ _).mp h |>.1,
    (Bool.and_eq_true _ _).mp h |>.2⟩
  case Minus => exact ⟨Or.inr (Or.inl rfl), (Bool.and_eq_true _ _).mp h |>.1,
    (Bool.and_eq_true _ _).mp h |>.2⟩
  case Star => exact ⟨Or.inr (Or.inr (Or.inl rfl)), (Bool.and_eq_true _ _).mp h |>.1,
    (Bool.and_eq_true _ _).mp h |>.2⟩
  case Slash => exact ⟨Or.inr (Or.inr (Or.inr rfl)), (Bool.and_eq_true _ _).mp h |>.1,
    (Bool.and_eq_true _ _).mp h |>.2⟩
  all_goals exact nomatch h

theorem wfE_name_elim {p : EPath} (h : wfE (.Name p) = true) :
    p.tail = none ∧ validIdent p.head = true := by
  rcases p with ⟨head, tail⟩
  cases tail
  · exact ⟨rfl, by simpa using h⟩
  · exact nomatch h

theorem wfE_index_elim {e i : Expr} (h : wfE (.Index e i) = true) :
    wfE e = true ∧ wfE i = true :=
  (Bool.and_eq_true _ _).mp h

theorem wfE_call_elim {f : EPath} {args : List Expr} (h : wfE (.Call f args) = true) :
    f.tail = none ∧ validIdent f.head = true ∧ args ≠ [] ∧ wfArgs args = true := by
  rcases f with ⟨head, tail⟩
  cases tail
  · have h2 : ((Option.isNone (none : Option (List Token)) && validIdent head) &&
      !args.isEmpty && wfArgs args) = true := h
    simp only [Bool.and_eq_true] at h2
    obtain ⟨⟨⟨hnone, hv⟩, hne⟩, hwa⟩ := h2
    refine ⟨rfl, hv, ?_, hwa⟩
    cases args
    · exact absurd hne (by simp)
    · simp
  · exact nomatch h

theorem wfE_lit_elim {v : Literal} (h : wfE (.Lit v) = true) :
    (∃ n, v = .Number (.Integer n)) ∨ (∃ c, v = .Char c) := by
  cases v with
  | Number nl =>
    cases nl with
    | Integer n => exact Or.inl ⟨n, rfl⟩
    | Real q => exact nomatch h
  | String s2 => exact nomatch h
  | Char c => exact Or.inr ⟨c, rfl⟩

theorem pullsSeg_append {Φ : Nat} {t1 t2 t3 : Tokenizer} {T1 T2 : List Token}
    (h1 : PullsSeg Φ t1 T1 t2) (h2 : PullsSeg Φ t2 T2 t3) :
    PullsSeg Φ t1 (T1 ++ T2) t3 := by
  induction h1 with
  | nil t => exact h2
  | cons t ta tb tok L h hL ih => exact PullsSeg.cons _ _ _ _ _ h (ih h2)

theorem pull_sp_oper (src : List Char) (i : Nat) (d : List Diagnostic) (L C : Nat)
    (sp rest : List Char) (op : Operator)
    (hop4 : op = .Plus ∨ op = .Minus ∨ op = .Star ∨ op = .Slash)
    (hsp : sp = [] ∨ sp = [' '])
    (hdrop : src.drop i = sp ++ (renderOp op ++ rest)) (hsafe : OpSafe rest) :
    ∃ tok, get_token 2 (stateAt src i d L C false false) =
        .ok (some (.ok tok),
          stateAt src (i + sp.length + 1) d (stdL src (i + sp.length + 1))
            (stdC src (i + sp.length + 1)) false false) ∧
      tok.ty = .Operator op := by
  rcases hop4 with rfl | rfl | rfl | rfl
  · exact pull_sp_plus src i d L C sp rest hsp hdrop hsafe
  · exact pull_sp_minus src i d L C sp rest hsp hdrop hsafe
  · exact pull_sp_star src i d L C sp rest hsp hdrop hsafe
  · exact pull_sp_slash src i d L C sp rest hsp hdrop hsafe

theorem renderOp_four {op : Operator}
    (hop4 : op = .Plus ∨ op = .Minus ∨ op = .Star ∨ op = .Slash) :
    (renderOp op).length = 1 := by
  rcases hop4 with rfl | rfl | rfl | rfl <;> rfl

theorem render_unop_elim {op : Operator} {r : Expr} {s : List Char}
    (hr : renderExpr (.unop op r) = some s) :
    ∃ rs, renderExpr r = some rs ∧ s = ['('] ++ renderOp op ++ rs ++ [')'] := by
  simp only [renderExpr] at hr
  rcases hrr : renderExpr r with _ | rs <;> rw [hrr] at hr
  · exact absurd hr (by simp)
  · injection hr with hr
    exact ⟨rs, rfl, hr.symm⟩

theorem render_binop_elim {l : Expr} {op : Operator} {r : Expr} {s : List Char}
    (hr : renderExpr (.binop l op r) = some s) :
    ∃ ls rs, renderExpr l = some ls ∧ renderExpr r = some rs ∧
      s = ['('] ++ ls ++ [' '] ++ renderOp op ++ [' '] ++ rs ++ [')'] := by
  simp only [renderExpr] at hr
  rcases hrl : renderExpr l with _ | ls <;> rw [hrl] at hr
  · exact absurd hr (by simp)
  · rcases hrr : renderExpr r with _ | rs <;> rw [hrr] at hr
    · exact absurd hr (by simp)
    · injection hr with hr
      exact ⟨ls, rs, rfl, rfl, hr.symm⟩

theorem render_index_elim {e i : Expr} {s : List Char}
    (hr : renderExpr (.Index e i) = some s) :
    ∃ es is2, renderExpr e = some es ∧ renderExpr i = some is2 ∧
      s = ['('] ++ es ++ ['['] ++ is2 ++ [']', ')'] := by
  simp only [renderExpr] at hr
  rcases hre : renderExpr e with _ | es <;> rw [hre] at hr
  · exact absurd hr (by simp)
  · rcases hri : renderExpr i with _ | is2 <;> rw [hri] at hr
    · exact absurd hr (by simp)
    · injection hr with hr
      exact ⟨es, is2, rfl, rfl, hr.symm⟩

theorem render_call_elim {f : EPath} {args : List Expr} {s : List Char}
    (hr : renderExpr (.Call f args) = some s) :
    ∃ as2, renderArgs args = some as2 ∧
      s = ['('] ++ renderPath f ++ ['('] ++ as2 ++ [')', ')'] := by
  simp only [renderExpr] at hr
  rcases hra : renderArgs args with _ | as2 <;> rw [hra] at hr
  · exact absurd hr (by simp)
  · injection hr with hr
    exact ⟨as2, rfl, hr.symm⟩

theorem render_name_elim {w : List Char} {s : List Char}
    (hr : renderExpr (.Name { head := w, tail := none }) = some s) : s = w := by
  simp only [renderExpr, renderPath] at hr
  rw [List.append_nil] at hr
  injection hr with hr
  exact hr.symm

theorem render_args_cons_elim {a : Expr} {as2 : List Expr} {s : List Char}
    (hr : renderArgs (a :: as2) = some s) :
    ∃ sa ts, renderExpr a = some sa ∧ renderArgsTail as2 = some ts ∧ s = sa ++ ts := by
  simp only [renderArgs] at hr
  rcases hra : renderExpr a with _ | sa <;> rw [hra] at hr
  · exact absurd hr (by simp)
  · rcases hrt : renderArgsTail as2 with _ | ts <;> rw [hrt] at hr
    · exact absurd hr (by simp)
    · injection hr with hr
      exact ⟨sa, ts, rfl, rfl, hr.symm⟩

theorem render_args_tail_cons_elim {a : Expr} {as2 : List Expr} {s : List Char}
    (hr : renderArgsTail (a :: as2) = some s) :
    ∃ sa ts, renderExpr a = some sa ∧ renderArgsTail as2 = some ts ∧
      s = [',', ' '] ++ sa ++ ts := by
  simp only [renderArgsTail] at hr
  rcases hra : renderExpr a with _ | sa <;> rw [hra] at hr
  · exact absurd hr (by simp)
  · rcases hrt : renderArgsTail as2 with _ | ts <;> rw [hrt] at hr
    · exact absurd hr (by simp)
    · injection hr with hr
      exact ⟨sa, ts, rfl, rfl, hr.symm⟩

theorem render_head (e : Expr) (hwf : wfE e = true) (s : List Char)
    (hr : renderExpr e = some s) :
    ∃ c0 s1, s = c0 :: s1 ∧ c0 ≠ '=' ∧ c0 ≠ '+' ∧ c0 ≠ '-' ∧ c0 ≠ '*' ∧ c0 ≠ '/' ∧
      ¬(c0 = ' ' ∨ c0 = '\t' ∨ c0 = '\n') := by
  cases e with
  | unop op r =>
    obtain ⟨rs, _, rfl⟩ := render_unop_elim hr
    exact ⟨'(', _, rfl, by decide, by decide, by decide, by decide, by decide, by decide⟩
  | binop l op r =>
    obtain ⟨ls, rs, _, _, rfl⟩ := render_binop_elim hr
    exact ⟨'(', _, rfl, by decide, by decide, by decide, by decide, by decide, by decide⟩
  | Index e2 i2 =>
    obtain ⟨es, is2, _, _, rfl⟩ := render_index_elim hr
    exact ⟨'(', _, rfl, by decide, by decide, by decide, by decide, by decide, by decide⟩
  | Call f args =>
    obtain ⟨as2, _, rfl⟩ := render_call_elim hr
    exact ⟨'(', _, rfl, by decide, by decide, by decide, by decide, by decide, by decide⟩
  | postop l op => exact nomatch hwf
  | Name p =>
    obtain ⟨htail, hvalid⟩ := wfE_name_elim hwf
    rcases p with ⟨head, tail⟩
    simp only [] at htail
    subst htail
    rcases head with _ | ⟨c0, w1⟩
    · exact absurd hvalid (by decide)
    · have hs := render_name_elim hr
      have hv := hvalid
      unfold validIdent at hv
      simp only [Bool.and_eq_true, decide_eq_true_eq] at hv
      obtain ⟨⟨hstart, _⟩, _⟩ := hv
      obtain ⟨h1, h2, h3, h4, h5, h6⟩ := head_facts_of_identStart hstart
      exact ⟨c0, w1, hs, h1, h2, h3, h4, h5, h6⟩
  | Lit v =>
    rcases wfE_lit_elim hwf with ⟨n, rfl⟩ | ⟨c, rfl⟩
    · simp only [renderExpr, renderLit] at hr
      injection hr with hr
      subst hr
      rcases hnd : natToDecimal n with _ | ⟨c0, ds⟩
      · exact absurd hnd (natToDecimal_ne_nil n)
      · have hc0 : '0' ≤ c0 ∧ c0 ≤ '9' := natToDecimal_digits n c0 (by rw [hnd]; simp)
        obtain ⟨h1, h2, h3, h4, h5, h6⟩ := head_facts_of_digit hc0
        exact ⟨c0, ds, rfl, h1, h2, h3, h4, h5, h6⟩
    · simp only [renderExpr, renderLit] at hr
      injection hr with hr
      exact ⟨'\'', _, hr.symm, by decide, by decide, by decide, by decide, by decide,
        by decide⟩

theorem sz_unop (op : Operator) (r : Expr) : sizeOf r < sizeOf (Expr.unop op r) := by
  rw [Expr.unop.sizeOf_spec]
  omega

theorem sz_binop_l (l : Expr) (op : Operator) (r : Expr) :
    sizeOf l < sizeOf (Expr.binop l op r) := by
  rw [Expr.binop.sizeOf_spec]
  omega

theorem sz_binop_r (l : Expr) (op : Operator) (r : Expr) :
    sizeOf r < sizeOf (Expr.binop l op r) := by
  rw [Expr.binop.sizeOf_spec]
  omega

theorem sz_index_e (e i : Expr) : sizeOf e < sizeOf (Expr.Index e i) := by
  rw [Expr.Index.sizeOf_spec]
  omega

theorem sz_index_i (e i : Expr) : sizeOf i < sizeOf (Expr.Index e i) := by
  rw [Expr.Index.sizeOf_spec]
  omega

theorem sz_call_arg (f : EPath) (args : List Expr) (a : Expr) (ha : a ∈ args) :
    sizeOf a < sizeOf (Expr.Call f args) := by
  have h1 : sizeOf a < sizeOf args := List.sizeOf_lt_of_mem ha
  rw [Expr.Call.sizeOf_spec]
  omega

theorem drop_through {src sp X : List Char} {i : Nat} {c : Char}
    (h : src.drop i = sp ++ c :: X) : src.drop (i + sp.length + 1) = X := by
  have h2 : src.drop i = (sp ++ [c]) ++ X := by
    rw [h]
    simp
  have h3 := drop_add_of_drop h2
  have h4 : i + (sp ++ [c]).length = i + sp.length + 1 := by
    rw [List.length_append]
    rfl
  rw [h4] at h3
  exact h3

theorem drop_through_seg {src sp w X : List Char} {i : Nat}
    (h : src.drop i = sp ++ (w ++ X)) : src.drop (i + sp.length + w.length) = X := by
  have h2 : src.drop i = (sp ++ w) ++ X := by
    rw [h]
    simp
  have h3 := drop_add_of_drop h2
  have h4 : i + (sp ++ w).length = i + sp.length + w.length := by
    rw [List.length_append]
    omega
  rw [h4] at h3
  exact h3

theorem toklem_args_tail (src : List Char) (N : Nat)
    (IH : ∀ (rr : Expr), sizeOf rr ≤ N → wfE rr = true → ∀ s2, renderExpr rr = some s2 →
      ∀ (j : Nat) (sp2 rest2 : List Char) (d2 : List Diagnostic) (L2 C2 : Nat),
        j ≤ src.length → (sp2 = [] ∨ sp2 = [' ']) →
        src.drop j = sp2 ++ (s2 ++ rest2) → RestHeadSafe rest2 →
      ∃ T, TokRel rr T ∧
        PullsSeg 2 (stateAt src j d2 L2 C2 false false) T
          (stateAt src (j + sp2.length + s2.length) d2
            (stdL src (j + sp2.length + s2.length)) (stdC src (j + sp2.length + s2.length))
            false false)) :
    ∀ (as2 : List Expr), (∀ a ∈ as2, sizeOf a ≤ N) → wfArgs as2 = true →
    ∀ ts, renderArgsTail as2 = some ts →
    ∀ (i : Nat) (rest : List Char) (d : List Diagnostic),
      i ≤ src.length → src.drop i = ts ++ rest → RestHeadSafe rest →
    ∃ K, PullsSeg 2 (stateAt src i d (stdL src i) (stdC src i) false false) K
        (stateAt src (i + ts.length) d (stdL src (i + ts.length))
          (stdC src (i + ts.length)) false false) ∧
      (∀ a0 Ta0, TokRel a0 Ta0 → TokRelArgs (a0 :: as2) (Ta0 ++ K)) := by
  intro as2
  induction as2 with
  | nil =>
    intro hsz hwa ts hts i rest d hi hdrop hsafe
    have hts2 : ts = [] := by
      simp only [renderArgsTail] at hts
      injection hts with h
      exact h.symm
    subst hts2
    refine ⟨[], PullsSeg.nil _, ?_⟩
    intro a0 Ta0 h0
    rw [List.append_nil]
    exact TokRelArgs.last a0 Ta0 h0
  | cons a as' ihtail =>
    intro hsz hwa ts hts i rest d hi hdrop hsafe
    obtain ⟨sa, ts', hra, hrt, rfl⟩ := render_args_tail_cons_elim hts
    have hwa2 : (wfE a && wfArgs as') = true := hwa
    simp only [Bool.and_eq_true] at hwa2
    obtain ⟨hwfa, hwas⟩ := hwa2
    have hdropn : src.drop i = ([] : List Char) ++ ',' :: (' ' :: (sa ++ (ts' ++ rest))) := by
      rw [hdrop]
      simp
    obtain ⟨ctok, hpc, hcty⟩ := pull_sp_comma src i d (stdL src i) (stdC src i) [] _
      (Or.inl rfl) hdropn
    have hdrop1 : src.drop (i + 1) = [' '] ++ (sa ++ (ts' ++ rest)) := drop_through hdropn
    have hsafe2 : RestHeadSafe (ts' ++ rest) := by
      cases as' with
      | nil =>
        have hts3 : ts' = [] := by
          simp only [renderArgsTail] at hrt
          injection hrt with h
          exact h.symm
        subst hts3
        exact hsafe
      | cons b bs =>
        obtain ⟨sb, tsb, _, _, rfl⟩ := render_args_tail_cons_elim hrt
        exact Or.inr ⟨',', _, rfl, by tauto⟩
    have hi1 : i + 1 ≤ src.length := by
      have h5 : src.drop i = ',' :: (' ' :: (sa ++ (ts' ++ rest))) := hdropn
      have := drop_cons_lt_length h5
      omega
    obtain ⟨Ta, hTa, hsega⟩ := IH a (hsz a (by simp)) hwfa sa hra (i + 1) [' ']
      (ts' ++ rest) d (stdL src (i + 1)) (stdC src (i + 1)) hi1 (Or.inr rfl)
      (by rw [hdrop1]) hsafe2
    have hdrop2 : src.drop (i + 2 + sa.length) = ts' ++ rest := by
      have h7 : src.drop (i + 2) = sa ++ (ts' ++ rest) :=
        drop_succ_of_drop (show src.drop (i + 1) = ' ' :: (sa ++ (ts' ++ rest)) from hdrop1)
      exact drop_add_of_drop h7
    have hi2 : i + 2 + sa.length ≤ src.length := by
      have h8 : (src.drop (i + 1)).length = ([' '] ++ (sa ++ (ts' ++ rest))).length := by
        rw [hdrop1]
      have h9 : (src.drop (i + 1)).length = src.length - (i + 1) := List.length_drop _ _
      simp only [List.length_append, List.length_cons, List.length_nil] at h8
      omega
    obtain ⟨K', hsegK, hcont⟩ := ihtail (fun a2 ha2 => hsz a2 (by simp [ha2])) hwas ts' hrt
      (i + 2 + sa.length) rest d hi2 hdrop2 hsafe
    refine ⟨ctok :: (Ta ++ K'), ?_, ?_⟩
    · have hfin : i + ([',', ' '] ++ sa ++ ts').length = i + 2 + sa.length + ts'.length := by
        simp only [List.length_append, List.length_cons, List.length_nil]
        omega
      rw [hfin]
      exact PullsSeg.cons _ _ _ _ _ hpc (pullsSeg_append hsega hsegK)
    · intro a0 Ta0 h0
      exact TokRelArgs.cons a0 Ta0 (a :: as') (Ta ++ K') ctok h0 hcty (hcont a Ta hTa)

/-- Tokenizing the canonical rendering of a well-formed expression from a
clean boundary (optionally after one space) yields a token list related to
the expression by `TokRel`, leaving the cursor at the first character after
the rendering. -/
theorem toklem (src : List Char) (ha : asciiSrc src) :
    ∀ (N : Nat) (e : Expr), sizeOf e ≤ N → wfE e = true →
    ∀ s, renderExpr e = some s →
    ∀ (i : Nat) (sp rest : List Char) (d : List Diagnostic) (L C : Nat),
      i ≤ src.length → (sp = [] ∨ sp = [' ']) →
      src.drop i = sp ++ (s ++ rest) → RestHeadSafe rest →
    ∃ T, TokRel e T ∧
      PullsSeg 2 (stateAt src i d L C false false) T
        (stateAt src (i + sp.length + s.length) d
          (stdL src (i + sp.length + s.length)) (stdC src (i + sp.length + s.length))
          false false) := by
  intro N
  induction N with
  | zero =>
    intro e he
    exfalso
    cases e with
    | unop op r => rw [Expr.unop.sizeOf_spec] at he; omega
    | binop l op r => rw [Expr.binop.sizeOf_spec] at he; omega
    | postop l op => rw [Expr.postop.sizeOf_spec] at he; omega
    | Call f args => rw [Expr.Call.sizeOf_spec] at he; omega
    | Name p => rw [Expr.Name.sizeOf_spec] at he; omega
    | Lit v => rw [Expr.Lit.sizeOf_spec] at he; omega
    | Index e2 i2 => rw [Expr.Index.sizeOf_spec] at he; omega
  | succ N ih =>
    intro e he hwf s hr i sp rest d L C hi hsp hdrop hsafe
    cases e with
    | postop l op => exact nomatch hwf
    | Lit v =>
      rcases wfE_lit_elim hwf with ⟨n, rfl⟩ | ⟨c, rfl⟩
      · simp only [renderExpr, renderLit] at hr
        injection hr with hr
        subst hr
        rcases hnd : natToDecimal n with _ | ⟨c0, ds⟩
        · exact absurd hnd (natToDecimal_ne_nil n)
        · rw [hnd] at hdrop
          have hrest2 : rest = [] ∨ ∃ c2 rt, rest = c2 :: rt ∧
              ¬('0' ≤ c2 ∧ c2 ≤ '9') ∧ c2 ≠ '_' ∧ c2 ≠ '.' := by
            rcases hsafe with rfl | ⟨c2, rt, rfl, hc⟩
            · exact Or.inl rfl
            · refine Or.inr ⟨c2, rt, rfl, ?_⟩
              rcases hc with rfl | rfl | rfl | rfl | rfl <;>
                exact ⟨by decide, by decide, by decide⟩
          obtain ⟨tok, hpull, hty⟩ := pull_sp_int src i d L C sp c0 ds rest hsp hdrop
            (natToDecimal_digits n c0 (by rw [hnd]; exact List.mem_cons_self _ _))
            (fun c2 hc2 => natToDecimal_digits n c2
              (by rw [hnd]; exact List.mem_cons_of_mem _ hc2))
            hrest2
          refine ⟨[tok], TokRel.lit _ tok _ hty, ?_⟩
          have hfin : i + sp.length + (c0 :: ds).length = i + sp.length + (1 + ds.length) := by
            simp only [List.length_cons]
            omega
          rw [hfin]
          exact PullsSeg.cons _ _ _ _ _ hpull (PullsSeg.nil _)
      · simp only [renderExpr, renderLit] at hr
        injection hr with hr
        subst hr
        have hcmem : c ∈ src := List.drop_subset _ _ (by rw [hdrop]; simp)
        obtain ⟨tok, ch, hpull, hty⟩ := pull_sp_char src i d L C sp c rest hsp hdrop
          (ha c hcmem)
        refine ⟨[tok], TokRel.lit _ tok _ hty, ?_⟩
        exact PullsSeg.cons _ _ _ _ _ hpull (PullsSeg.nil _)
    | Name p =>
      obtain ⟨htail, hvalid⟩ := wfE_name_elim hwf
      rcases p with ⟨w, tail⟩
      simp only [] at htail
      subst htail
      have hs := render_name_elim hr
      subst hs
      have hrest2 : rest = [] ∨ ∃ c2 rt, rest = c2 :: rt ∧ isIdentCont c2 = false := by
        rcases hsafe with rfl | ⟨c2, rt, rfl, hc⟩
        · exact Or.inl rfl
        · refine Or.inr ⟨c2, rt, rfl, ?_⟩
          rcases hc with rfl | rfl | rfl | rfl | rfl <;> decide
      obtain ⟨tok, hpull, hty, htext⟩ := pull_sp_ident src i d L C sp s rest hsp hdrop
        hvalid hrest2
      refine ⟨[tok], TokRel.name s tok hty htext, ?_⟩
      exact PullsSeg.cons _ _ _ _ _ hpull (PullsSeg.nil _)
    | unop op r =>
      obtain ⟨hop2, hwfr⟩ := wfE_unop_elim hwf
      have hop4 : op = .Plus ∨ op = .Minus ∨ op = .Star ∨ op = .Slash := by
        rcases hop2 with rfl | rfl
        · exact Or.inl rfl
        · exact Or.inr (Or.inl rfl)
      obtain ⟨rs, hrr, rfl⟩ := render_unop_elim hr
      have hszr : sizeOf r ≤ N := by have := sz_unop op r; omega
      obtain ⟨c0, s1, hrsh, h1, h2, h3, h4, h5, h6⟩ := render_head r hwfr rs hrr
      have hdropn : src.drop i = sp ++ '(' :: (renderOp op ++ (rs ++ (')' :: rest))) := by
        rw [hdrop]
        simp
      obtain ⟨lp, hplp, hlpty⟩ := pull_sp_lparen src i d L C sp _ hsp hdropn
      have hdrop1 : src.drop (i + sp.length + 1) = renderOp op ++ (rs ++ (')' :: rest)) :=
        drop_through hdropn
      have hOpSafe : OpSafe (rs ++ (')' :: rest)) :=
        Or.inr ⟨c0, s1 ++ (')' :: rest), by rw [hrsh]; rfl, h1, h2, h3, h4, h5⟩
      obtain ⟨opTok, hpop, hopty⟩ := pull_sp_oper src (i + sp.length + 1) d
        (stdL src (i + sp.length + 1)) (stdC src (i + sp.length + 1)) []
        (rs ++ (')' :: rest)) op hop4 (Or.inl rfl) (by rw [hdrop1]; rfl) hOpSafe
      have hdrop2 : src.drop (i + sp.length + 2) = rs ++ (')' :: rest) := by
        have h7 := drop_add_of_drop hdrop1
        rw [renderOp_four hop4] at h7
        exact h7
      have hd2c : src.drop (i + sp.length + 2) = c0 :: (s1 ++ (')' :: rest)) := by
        rw [hdrop2, hrsh]
        rfl
      have hlt2 := drop_cons_lt_length hd2c
      obtain ⟨Tr, hTr, hsegr⟩ := ih r hszr hwfr rs hrr (i + sp.length + 2) []
        (')' :: rest) d (stdL src (i + sp.length + 2)) (stdC src (i + sp.length + 2))
        (by omega) (Or.inl rfl) (by rw [hdrop2]; rfl) (Or.inr ⟨')', rest, rfl, by simp⟩)
      have hdrop3 : src.drop (i + sp.length + 2 + rs.length) = ')' :: rest :=
        drop_add_of_drop hdrop2
      obtain ⟨rp, hprp, hrpty⟩ := pull_sp_rparen src (i + sp.length + 2 + rs.length) d
        (stdL src (i + sp.length + 2 + rs.length)) (stdC src (i + sp.length + 2 + rs.length))
        [] rest (Or.inl rfl) (by rw [hdrop3]; rfl)
      refine ⟨lp :: opTok :: (Tr ++ [rp]),
        TokRel.unop_rel op r Tr lp opTok rp hop2 hlpty hopty hrpty hTr, ?_⟩
      have hfin : i + sp.length + (['('] ++ renderOp op ++ rs ++ [')']).length =
          i + sp.length + 2 + rs.length + 1 := by
        simp only [List.length_append, List.length_cons, List.length_nil,
          renderOp_four hop4]
        omega
      rw [hfin]
      exact PullsSeg.cons _ _ _ _ _ hplp (PullsSeg.cons _ _ _ _ _ hpop
        (pullsSeg_append hsegr (PullsSeg.cons _ _ _ _ _ hprp (PullsSeg.nil _))))
    | binop l op r =>
      obtain ⟨hop4, hwfl, hwfr⟩ := wfE_binop_elim hwf
      obtain ⟨ls, rs, hrl, hrr, rfl⟩ := render_binop_elim hr
      have hszl : sizeOf l ≤ N := by have := sz_binop_l l op r; omega
      have hszr : sizeOf r ≤ N := by have := sz_binop_r l op r; omega
      obtain ⟨c0, s1, hlsh, _, _, _, _, _, _⟩ := render_head l hwfl ls hrl
      have hdropn : src.drop i = sp ++ '(' :: (ls ++ (' ' ::
          (renderOp op ++ (' ' :: (rs ++ (')' :: rest)))))) := by
        rw [hdrop]
        simp
      obtain ⟨lp, hplp, hlpty⟩ := pull_sp_lparen src i d L C sp _ hsp hdropn
      have hdrop1 : src.drop (i + sp.length + 1) =
          ls ++ (' ' :: (renderOp op ++ (' ' :: (rs ++ (')' :: rest))))) :=
        drop_through hdropn
      have hd1c : src.drop (i + sp.length + 1) =
          c0 :: (s1 ++ (' ' :: (renderOp op ++ (' ' :: (rs ++ (')' :: rest)))))) := by
        rw [hdrop1, hlsh]
        rfl
      have hlt1 := drop_cons_lt_length hd1c
      obtain ⟨Tl, hTl, hsegl⟩ := ih l hszl hwfl ls hrl (i + sp.length + 1) []
        (' ' :: (renderOp op ++ (' ' :: (rs ++ (')' :: rest))))) d
        (stdL src (i + sp.length + 1)) (stdC src (i + sp.length + 1))
        (by omega) (Or.inl rfl) (by rw [hdrop1]; rfl)
        (Or.inr ⟨' ', _, rfl, Or.inl rfl⟩)
      have hdrop2 : src.drop (i + sp.length + 1 + ls.length) =
          ' ' :: (renderOp op ++ (' ' :: (rs ++ (')' :: rest)))) :=
        drop_add_of_drop hdrop1
      obtain ⟨opTok, hpop, hopty⟩ := pull_sp_oper src (i + sp.length + 1 + ls.length) d
        (stdL src (i + sp.length + 1 + ls.length))
        (stdC src (i + sp.length + 1 + ls.length)) [' ']
        (' ' :: (rs ++ (')' :: rest))) op hop4 (Or.inr rfl) (by rw [hdrop2]; rfl)
        (Or.inr ⟨' ', _, rfl, by decide, by decide, by decide, by decide, by decide⟩)
      have hdrop3 : src.drop (i + sp.length + 1 + ls.length + 2) =
          ' ' :: (rs ++ (')' :: rest)) := by
        have h7 := drop_add_of_drop (drop_succ_of_drop hdrop2)
        rw [renderOp_four hop4] at h7
        exact h7
      have hlt3 := drop_cons_lt_length hdrop3
      obtain ⟨Tr, hTr, hsegr⟩ := ih r hszr hwfr rs hrr (i + sp.length + 1 + ls.length + 2)
        [' '] (')' :: rest) d (stdL src (i + sp.length + 1 + ls.length + 2))
        (stdC src (i + sp.length + 1 + ls.length + 2))
        (by omega) (Or.inr rfl) (by rw [hdrop3]; rfl) (Or.inr ⟨')', rest, rfl, by simp⟩)
      have hdrop4 : src.drop (i + sp.length + 1 + ls.length + 2 + 1 + rs.length) =
          ')' :: rest :=
        drop_add_of_drop (drop_succ_of_drop hdrop3)
      obtain ⟨rp, hprp, hrpty⟩ := pull_sp_rparen src
        (i + sp.length + 1 + ls.length + 2 + 1 + rs.length) d
        (stdL src (i + sp.length + 1 + ls.length + 2 + 1 + rs.length))
        (stdC src (i + sp.length + 1 + ls.length + 2 + 1 + rs.length))
        [] rest (Or.inl rfl) (by rw [hdrop4]; rfl)
      refine ⟨lp :: (Tl ++ opTok :: (Tr ++ [rp])),
        TokRel.binop_rel l op r Tl Tr lp opTok rp hop4 hlpty hopty hrpty hTl hTr, ?_⟩
      have hfin : i + sp.length +
          (['('] ++ ls ++ [' '] ++ renderOp op ++ [' '] ++ rs ++ [')']).length =
          i + sp.length + 1 + ls.length + 2 + 1 + rs.length + 1 := by
        simp only [List.length_append, List.length_cons, List.length_nil,
          renderOp_four hop4]
        omega
      rw [hfin]
      exact PullsSeg.cons _ _ _ _ _ hplp (pullsSeg_append hsegl
        (PullsSeg.cons _ _ _ _ _ hpop (pullsSeg_append hsegr
          (PullsSeg.cons _ _ _ _ _ hprp (PullsSeg.nil _)))))
    | Index e2 i2 =>
      obtain ⟨hwfe, hwfi⟩ := wfE_index_elim hwf
      obtain ⟨es, is2, hre, hri, rfl⟩ := render_index_elim hr
      have hsze : sizeOf e2 ≤ N := by have := sz_index_e e2 i2; omega
      have hszi : sizeOf i2 ≤ N := by have := sz_index_i e2 i2; omega
      obtain ⟨c0, s1, hesh, _, _, _, _, _, _⟩ := render_head e2 hwfe es hre
      obtain ⟨c0i, s1i, hish, _, _, _, _, _, _⟩ := render_head i2 hwfi is2 hri
      have hdropn : src.drop i = sp ++ '(' :: (es ++ ('[' ::
          (is2 ++ (']' :: (')' :: rest))))) := by
        rw [hdrop]
        simp
      obtain ⟨lp, hplp, hlpty⟩ := pull_sp_lparen src i d L C sp _ hsp hdropn
      have hdrop1 : src.drop (i + sp.length + 1) =
          es ++ ('[' :: (is2 ++ (']' :: (')' :: rest)))) :=
        drop_through hdropn
      have hd1c : src.drop (i + sp.length + 1) =
          c0 :: (s1 ++ ('[' :: (is2 ++ (']' :: (')' :: rest))))) := by
        rw [hdrop1, hesh]
        rfl
      have hlt1 := drop_cons_lt_length hd1c
      obtain ⟨Te, hTe, hsege⟩ := ih e2 hsze hwfe es hre (i + sp.length + 1) []
        ('[' :: (is2 ++ (']' :: (')' :: rest)))) d
        (stdL src (i + sp.length + 1)) (stdC src (i + sp.length + 1))
        (by omega) (Or.inl rfl) (by rw [hdrop1]; rfl)
        (Or.inr ⟨'[', _, rfl, by simp⟩)
      have hdrop2 : src.drop (i + sp.length + 1 + es.length) =
          '[' :: (is2 ++ (']' :: (')' :: rest))) :=
        drop_add_of_drop hdrop1
      obtain ⟨lsq, hplsq, hlsqty⟩ := pull_sp_lsq src (i + sp.length + 1 + es.length) d
        (stdL src (i + sp.length + 1 + es.length))
        (stdC src (i + sp.length + 1 + es.length)) [] _ (Or.inl rfl) (by rw [hdrop2]; rfl)
      have hdrop3 : src.drop (i + sp.length + 1 + es.length + 1) =
          is2 ++ (']' :: (')' :: rest)) :=
        drop_succ_of_drop hdrop2
      have hd3c : src.drop (i + sp.length + 1 + es.length + 1) =
          c0i :: (s1i ++ (']' :: (')' :: rest))) := by
        rw [hdrop3, hish]
        rfl
      have hlt3 := drop_cons_lt_length hd3c
      obtain ⟨Ti, hTi, hsegi⟩ := ih i2 hszi hwfi is2 hri (i + sp.length + 1 + es.length + 1)
        [] (']' :: (')' :: rest)) d (stdL src (i + sp.length + 1 + es.length + 1))
        (stdC src (i + sp.length + 1 + es.length + 1))
        (by omega) (Or.inl rfl) (by rw [hdrop3]; rfl) (Or.inr ⟨']', _, rfl, by simp⟩)
      have hdrop4 : src.drop (i + sp.length + 1 + es.length + 1 + is2.length) =
          ']' :: (')' :: rest) :=
        drop_add_of_drop hdrop3
      obtain ⟨rsq, hprsq, hrsqty⟩ := pull_sp_rsq src
        (i + sp.length + 1 + es.length + 1 + is2.length) d
        (stdL src (i + sp.length + 1 + es.length + 1 + is2.length))
        (stdC src (i + sp.length + 1 + es.length + 1 + is2.length))
        [] _ (Or.inl rfl) (by rw [hdrop4]; rfl)
      have hdrop5 : src.drop (i + sp.length + 1 + es.length + 1 + is2.length + 1) =
          ')' :: rest :=
        drop_succ_of_drop hdrop4
      obtain ⟨rp, hprp, hrpty⟩ := pull_sp_rparen src
        (i + sp.length + 1 + es.length + 1 + is2.length + 1) d
        (stdL src (i + sp.length + 1 + es.length + 1 + is2.length + 1))
        (stdC src (i + sp.length + 1 + es.length + 1 + is2.length + 1))
        [] rest (Or.inl rfl) (by rw [hdrop5]; rfl)
      refine ⟨lp :: (Te ++ lsq :: (Ti ++ [rsq, rp])),
        TokRel.index_rel e2 i2 Te Ti lp lsq rsq rp hlpty hlsqty hrsqty hrpty hTe hTi, ?_⟩
      have hfin : i + sp.length + (['('] ++ es ++ ['['] ++ is2 ++ [']', ')']).length =
          i + sp.length + 1 + es.length + 1 + is2.length + 1 + 1 := by
        simp only [List.length_append, List.length_cons, List.length_nil]
        omega
      rw [hfin]
      exact PullsSeg.cons _ _ _ _ _ hplp (pullsSeg_append hsege
        (PullsSeg.cons _ _ _ _ _ hplsq (pullsSeg_append hsegi
          (PullsSeg.cons _ _ _ _ _ hprsq (PullsSeg.cons _ _ _ _ _ hprp (PullsSeg.nil _))))))
    | Call f args =>
      obtain ⟨htail, hvf, hane, hwargs⟩ := wfE_call_elim hwf
      rcases f with ⟨w, tail⟩
      simp only [] at htail
      subst htail
      have hrp2 : renderPath { head := w, tail := none } = w := by
        simp [renderPath]
      obtain ⟨as2, hras, rfl⟩ := render_call_elim hr
      rcases args with _ | ⟨a0, as'⟩
      · exact absurd rfl hane
      obtain ⟨sa, ts, hra0, hrt, rfl⟩ := render_args_cons_elim hras
      have hw2 : (wfE a0 && wfArgs as') = true := hwargs
      simp only [Bool.and_eq_true] at hw2
      obtain ⟨hwa0, hwas'⟩ := hw2
      have hsza0 : sizeOf a0 ≤ N := by
        have := sz_call_arg ⟨w, none⟩ (a0 :: as') a0 (by simp)
        omega
      have hszas : ∀ a ∈ as', sizeOf a ≤ N := fun a haa => by
        have := sz_call_arg ⟨w, none⟩ (a0 :: as') a (by simp [haa])
        omega
      obtain ⟨c0, s1, hsah, _, _, _, _, _, _⟩ := render_head a0 hwa0 sa hra0
      have hdropn : src.drop i = sp ++ '(' :: (w ++ ('(' ::
          (sa ++ (ts ++ (')' :: (')' :: rest)))))) := by
        rw [hdrop]
        simp [hrp2]
      obtain ⟨lp, hplp, hlpty⟩ := pull_sp_lparen src i d L C sp _ hsp hdropn
      have hdrop1 : src.drop (i + sp.length + 1) =
          w ++ ('(' :: (sa ++ (ts ++ (')' :: (')' :: rest))))) :=
        drop_through hdropn
      obtain ⟨fTok, hpf, hfty, hftext⟩ := pull_sp_ident src (i + sp.length + 1) d
        (stdL src (i + sp.length + 1)) (stdC src (i + sp.length + 1)) [] w
        ('(' :: (sa ++ (ts ++ (')' :: (')' :: rest))))) (Or.inl rfl) (by rw [hdrop1]; rfl)
        hvf (Or.inr ⟨'(', _, rfl, by decide⟩)
      have hdrop2 : src.drop (i + sp.length + 1 + w.length) =
          '(' :: (sa ++ (ts ++ (')' :: (')' :: rest)))) :=
        drop_add_of_drop hdrop1
      obtain ⟨lp2, hplp2, hlp2ty⟩ := pull_sp_lparen src (i + sp.length + 1 + w.length) d
        (stdL src (i + sp.length + 1 + w.length))
        (stdC src (i + sp.length + 1 + w.length)) [] _ (Or.inl rfl) (by rw [hdrop2]; rfl)
      have hdrop3 : src.drop (i + sp.length + 1 + w.length + 1) =
          sa ++ (ts ++ (')' :: (')' :: rest))) :=
        drop_succ_of_drop hdrop2
      have hd3c : src.drop (i + sp.length + 1 + w.length + 1) =
          c0 :: (s1 ++ (ts ++ (')' :: (')' :: rest)))) := by
        rw [hdrop3, hsah]
        rfl
      have hlt3 := drop_cons_lt_length hd3c
      have hsafeTs : RestHeadSafe (ts ++ (')' :: (')' :: rest))) := by
        cases as' with
        | nil =>
          have hts0 : ts = [] := by
            simp only [renderArgsTail] at hrt
            injection hrt with h
            exact h.symm
          subst hts0
          exact Or.inr ⟨')', ')' :: rest, rfl, by simp⟩
        | cons b bs =>
          obtain ⟨sb, tsb, _, _, rfl⟩ := render_args_tail_cons_elim hrt
          exact Or.inr ⟨',', _, rfl, by simp⟩
      obtain ⟨Ta0, hTa0, hsega0⟩ := ih a0 hsza0 hwa0 sa hra0
        (i + sp.length + 1 + w.length + 1) [] (ts ++ (')' :: (')' :: rest))) d
        (stdL src (i + sp.length + 1 + w.length + 1))
        (stdC src (i + sp.length + 1 + w.length + 1))
        (by omega) (Or.inl rfl) (by rw [hdrop3]; rfl) hsafeTs
      have hdrop4 : src.drop (i + sp.length + 1 + w.length + 1 + sa.length) =
          ts ++ (')' :: (')' :: rest)) :=
        drop_add_of_drop hdrop3
      have hi4 : i + sp.length + 1 + w.length + 1 + sa.length ≤ src.length := by
        have h8 : (src.drop (i + sp.length + 1 + w.length + 1)).length =
            (sa ++ (ts ++ (')' :: (')' :: rest)))).length := by rw [hdrop3]
        have h9 : (src.drop (i + sp.length + 1 + w.length + 1)).length =
            src.length - (i + sp.length + 1 + w.length + 1) := List.length_drop _ _
        simp only [List.length_append, List.length_cons] at h8
        omega
      obtain ⟨K, hsegK, hcont⟩ := toklem_args_tail src N ih as' hszas hwas' ts hrt
        (i + sp.length + 1 + w.length + 1 + sa.length) (')' :: (')' :: rest)) d
        hi4 hdrop4 (Or.inr ⟨')', ')' :: rest, rfl, by simp⟩)
      have hdrop5 : src.drop (i + sp.length + 1 + w.length + 1 + sa.length + ts.length) =
          ')' :: (')' :: rest) :=
        drop_add_of_drop hdrop4
      obtain ⟨rp2, hprp2, hrp2ty⟩ := pull_sp_rparen src
        (i + sp.length + 1 + w.length + 1 + sa.length + ts.length) d
        (stdL src (i + sp.length + 1 + w.length + 1 + sa.length + ts.length))
        (stdC src (i + sp.length + 1 + w.length + 1 + sa.length + ts.length))
        [] _ (Or.inl rfl) (by rw [hdrop5]; rfl)
      have hdrop6 : src.drop (i + sp.length + 1 + w.length + 1 + sa.length + ts.length + 1) =
          ')' :: rest :=
        drop_succ_of_drop hdrop5
      obtain ⟨rp, hprp, hrpty⟩ := pull_sp_rparen src
        (i + sp.length + 1 + w.length + 1 + sa.length + ts.length + 1) d
        (stdL src (i + sp.length + 1 + w.length + 1 + sa.length + ts.length + 1))
        (stdC src (i + sp.length + 1 + w.length + 1 + sa.length + ts.length + 1))
        [] rest (Or.inl rfl) (by rw [hdrop6]; rfl)
      refine ⟨lp :: fTok :: lp2 :: ((Ta0 ++ K) ++ [rp2, rp]),
        TokRel.call_rel w (a0 :: as') (Ta0 ++ K) lp fTok lp2 rp2 rp hlpty hfty hftext
          hlp2ty hrp2ty hrpty (hcont a0 Ta0 hTa0), ?_⟩
      have hfin : i + sp.length + (['('] ++ renderPath { head := w, tail := none } ++
          ['('] ++ (sa ++ ts) ++ [')', ')']).length =
          i + sp.length + 1 + w.length + 1 + sa.length + ts.length + 1 + 1 := by
        simp only [hrp2, List.length_append, List.length_cons, List.length_nil]
        omega
      rw [hfin, List.append_assoc]
      exact PullsSeg.cons _ _ _ _ _ hplp (PullsSeg.cons _ _ _ _ _ hpf
        (PullsSeg.cons _ _ _ _ _ hplp2 (pullsSeg_append hsega0 (pullsSeg_append hsegK
          (PullsSeg.cons _ _ _ _ _ hprp2 (PullsSeg.cons _ _ _ _ _ hprp (PullsSeg.nil _)))))))

theorem get_token_empty (Φ : Nat) (t : Tokenizer) (h : t.chrs = []) :
    get_token (Φ + 1) t = .ok (none, t.consume) := by
  simp only [get_token, get_token_inner, Tokenizer.next_char, h]

theorem avail_next_cons {Φ : Nat} {p : Parser} {tok : Token} {R : List Token}
    (h : AvailP (Φ + 1) p (tok :: R)) :
    ∃ p2, Parser.next_token (Φ + 1) p = .ok (.ok (some tok), p2) ∧
      AvailP (Φ + 1) p2 R := by
  rcases h with ⟨hpk, hP⟩ | ⟨tok2, L1, heq, hpk, hP⟩ | ⟨heq, _, _⟩
  · cases hP with
    | cons t t1 tok L hg hL =>
      refine ⟨{ peeked := none, tok := t1 }, ?_, Or.inl ⟨rfl, hL⟩⟩
      simp only [Parser.next_token, Parser.next_item, hpk, hg]
  · injection heq with h1 h2
    subst h1
    subst h2
    refine ⟨{ p with peeked := none }, ?_, Or.inl ⟨rfl, hP⟩⟩
    simp only [Parser.next_token, Parser.next_item, hpk]
  · exact nomatch heq

theorem avail_next_nil {Φ : Nat} {p : Parser}
    (h : AvailP (Φ + 1) p []) :
    ∃ p2, Parser.next_token (Φ + 1) p = .ok (.ok none, p2) ∧
      AvailP (Φ + 1) p2 [] := by
  rcases h with ⟨hpk, hP⟩ | ⟨tok2, L1, heq, hpk, hP⟩ | ⟨_, hpk, hP⟩
  · cases hP with
    | nil t hc =>
      refine ⟨{ peeked := none, tok := p.tok.consume }, ?_,
        Or.inl ⟨rfl, Pulls.nil _ hc⟩⟩
      simp only [Parser.next_token, Parser.next_item, hpk, get_token_empty Φ p.tok hc]
  · exact nomatch heq
  · refine ⟨{ p with peeked := none }, ?_, Or.inl ⟨rfl, hP⟩⟩
    simp only [Parser.next_token, Parser.next_item, hpk]

theorem avail_peek_ty_cons {Φ : Nat} {p : Parser} {tok : Token} {R : List Token}
    (h : AvailP (Φ + 1) p (tok :: R)) :
    ∃ p2, Parser.peek_token_ty (Φ + 1) p = .ok (.ok (some tok.ty), p2) ∧
      AvailP (Φ + 1) p2 (tok :: R) := by
  rcases h with ⟨hpk, hP⟩ | ⟨tok2, L1, heq, hpk, hP⟩ | ⟨heq, _, _⟩
  · cases hP with
    | cons t t1 tok L hg hL =>
      refine ⟨{ peeked := some (some (.ok tok)), tok := t1 }, ?_,
        Or.inr (Or.inl ⟨tok, R, rfl, rfl, hL⟩)⟩
      simp only [Parser.peek_token_ty, Parser.peek_token, Parser.peek_item, hpk, hg,
        Option.map]
  · injection heq with h1 h2
    subst h1
    subst h2
    refine ⟨p, ?_, Or.inr (Or.inl ⟨tok, R, rfl, hpk, hP⟩)⟩
    simp only [Parser.peek_token_ty, Parser.peek_token, Parser.peek_item, hpk, Option.map]
  · exact nomatch heq

theorem avail_peek_ty_nil {Φ : Nat} {p : Parser}
    (h : AvailP (Φ + 1) p []) :
    ∃ p2, Parser.peek_token_ty (Φ + 1) p = .ok (.ok none, p2) ∧
      AvailP (Φ + 1) p2 [] := by
  rcases h with ⟨hpk, hP⟩ | ⟨tok2, L1, heq, hpk, hP⟩ | ⟨_, hpk, hP⟩
  · cases hP with
    | nil t hc =>
      refine ⟨{ peeked := some none, tok := p.tok.consume }, ?_,
        Or.inr (Or.inr ⟨rfl, rfl, Pulls.nil _ hc⟩)⟩
      simp only [Parser.peek_token_ty, Parser.peek_token, Parser.peek_item, hpk,
        get_token_empty Φ p.tok hc]
      rfl
  · exact nomatch heq
  · refine ⟨p, ?_, Or.inr (Or.inr ⟨rfl, hpk, hP⟩)⟩
    simp only [Parser.peek_token_ty, Parser.peek_token, Parser.peek_item, hpk]
    rfl

theorem avail_next_ty_cons {Φ : Nat} {p : Parser} {tok : Token} {R : List Token}
    (h : AvailP (Φ + 1) p (tok :: R)) :
    ∃ p2, Parser.next_token_ty (Φ + 1) p = .ok (.ok (some tok.ty), p2) ∧
      AvailP (Φ + 1) p2 R := by
  obtain ⟨p2, hn, ha⟩ := avail_next_cons h
  refine ⟨p2, ?_, ha⟩
  simp only [Parser.next_token_ty, hn, Option.map]

theorem restOK_of_stopHead {R : List Token} (h : StopHead R) : RestOK R := by
  rcases h with rfl | ⟨tok, R1, rfl, hty⟩
  · exact Or.inl rfl
  · refine Or.inr ⟨tok, R1, rfl, ?_, ?_⟩ <;>
      (rcases hty with h1 | h1 | h1 <;>
        exact fun hcon => by rw [h1] at hcon; exact absurd hcon (by decide))

theorem postfix_bp_four {op : Operator}
    (hop4 : op = .Plus ∨ op = .Minus ∨ op = .Star ∨ op = .Slash) :
    postfix_binding_power (.Operator op) = none := by
  rcases hop4 with rfl | rfl | rfl | rfl <;> rfl

theorem infix_bp_four {op : Operator}
    (hop4 : op = .Plus ∨ op = .Minus ∨ op = .Star ∨ op = .Slash) :
    ∃ lr : Nat × Nat, infix_binding_power (.Operator op) = .ok (some lr) := by
  rcases hop4 with rfl | rfl | rfl | rfl <;> exact ⟨_, rfl⟩

theorem bploop_exit (Φ pf min_bp : Nat) (lhs : Expr) (p : Parser) (R : List Token)
    (h : AvailP (Φ + 1) p R) (hstop : StopHead R) :
    ∃ p2, expr_bp_loop (Φ + 1) (pf + 1) min_bp lhs p = .ok (.ok lhs, p2) ∧
      AvailP (Φ + 1) p2 R := by
  rcases hstop with rfl | ⟨tok, R1, rfl, hty⟩
  · obtain ⟨p2, hpeek, ha⟩ := avail_peek_ty_nil h
    refine ⟨p2, ?_, ha⟩
    simp only [expr_bp_loop, hpeek]
  · obtain ⟨p2, hpeek, ha⟩ := avail_peek_ty_cons h
    refine ⟨p2, ?_, ha⟩
    simp only [expr_bp_loop, hpeek]
    rcases hty with h1 | h1 | h1 <;> simp only [h1] <;> rfl

theorem avail_next_cons2 {p : Parser} {tok : Token} {R : List Token}
    (h : AvailP 2 p (tok :: R)) :
    ∃ p2, Parser.next_token 2 p = .ok (.ok (some tok), p2) ∧ AvailP 2 p2 R :=
  @avail_next_cons 1 p tok R h

theorem avail_next_nil2 {p : Parser} (h : AvailP 2 p []) :
    ∃ p2, Parser.next_token 2 p = .ok (.ok none, p2) ∧ AvailP 2 p2 [] :=
  @avail_next_nil 1 p h

theorem avail_peek_ty_cons2 {p : Parser} {tok : Token} {R : List Token}
    (h : AvailP 2 p (tok :: R)) :
    ∃ p2, Parser.peek_token_ty 2 p = .ok (.ok (some tok.ty), p2) ∧
      AvailP 2 p2 (tok :: R) :=
  @avail_peek_ty_cons 1 p tok R h

theorem avail_peek_ty_nil2 {p : Parser} (h : AvailP 2 p []) :
    ∃ p2, Parser.peek_token_ty 2 p = .ok (.ok none, p2) ∧ AvailP 2 p2 [] :=
  @avail_peek_ty_nil 1 p h

theorem avail_next_ty_cons2 {p : Parser} {tok : Token} {R : List Token}
    (h : AvailP 2 p (tok :: R)) :
    ∃ p2, Parser.next_token_ty 2 p = .ok (.ok (some tok.ty), p2) ∧ AvailP 2 p2 R :=
  @avail_next_ty_cons 1 p tok R h

theorem bploop_exit2 (pf min_bp : Nat) (lhs : Expr) (p : Parser) (R : List Token)
    (h : AvailP 2 p R) (hstop : StopHead R) :
    ∃ p2, expr_bp_loop 2 (pf + 1) min_bp lhs p = .ok (.ok lhs, p2) ∧ AvailP 2 p2 R :=
  bploop_exit 1 pf min_bp lhs p R h hstop

theorem pulls_of_pullsSeg {Φ : Nat} {t t2 : Tokenizer} {T : List Token}
    (h : PullsSeg Φ t T t2) (h2 : t2.chrs = []) : Pulls Φ t T := by
  induction h with
  | nil t => exact Pulls.nil t h2
  | cons t ta tb tok L hg hL ih => exact Pulls.cons _ _ _ _ hg (ih h2)

/-- Joint correctness of `expr_primary`, `expr_bp` and `call_expr_loop` on
token streams that begin with the `TokRel` image of a well-formed rendered
expression: each returns a shape-equal AST and consumes exactly those
tokens, given enough parser fuel. -/
theorem parse_rec : ∀ pf : Nat,
    (∀ (e : Expr) (T R : List Token) (p : Parser), TokRel e T → AvailP 2 p (T ++ R) →
      RestOK R → 4 * T.length + 4 ≤ pf →
      ∃ e2 p2, expr_primary 2 pf p = .ok (.ok e2, p2) ∧ AvailP 2 p2 R ∧
        shape_eq e e2 = true) ∧
    (∀ (min_bp : Nat) (e : Expr) (T R : List Token) (p : Parser), TokRel e T →
      AvailP 2 p (T ++ R) → StopHead R → 4 * T.length + 5 ≤ pf →
      ∃ e2 p2, expr_bp 2 pf min_bp p = .ok (.ok e2, p2) ∧ AvailP 2 p2 R ∧
        shape_eq e e2 = true) ∧
    (∀ (args : List Expr) (Ta : List Token) (rpt : Token) (R : List Token)
      (acc : List Expr) (f : EPath) (p : Parser), TokRelArgs args Ta →
      AvailP 2 p (Ta ++ (rpt :: R)) → rpt.ty = .Delimeter ⟨.Parentheses, .Right⟩ →
      4 * Ta.length + 6 ≤ pf →
      ∃ args2 p2, call_expr_loop 2 pf f acc p = .ok (.ok (.Call f (acc ++ args2)), p2) ∧
        AvailP 2 p2 R ∧ shape_eq_args args args2 = true) := by
  intro pf
  induction pf using Nat.strong_induction_on with
  | _ pf ih =>
  refine ⟨?_, ?_, ?_⟩
  · -- expr_primary
    intro e T R p hrel ha hrest hpf
    cases hrel with
    | lit v tok l hty =>
      obtain ⟨p2, hnext, ha2⟩ := avail_next_cons2 (show AvailP 2 p (tok :: R) from ha)
      obtain ⟨a, rfl⟩ : ∃ a, pf = a + 1 := ⟨pf - 1, by omega⟩
      refine ⟨.Lit l, p2, ?_, ha2, rfl⟩
      simp only [expr_primary, hnext, hty]
    | name w tok hty htext =>
      obtain ⟨p2, hnext, ha2⟩ := avail_next_cons2 (show AvailP 2 p (tok :: R) from ha)
      obtain ⟨a, rfl⟩ : ∃ a, pf = a + 1 := ⟨pf - 1, by omega⟩
      rcases hrest with rfl | ⟨tok2, R1, rfl, hne1, hne2⟩
      · obtain ⟨p3, hpeek, ha3⟩ := avail_peek_ty_nil2 ha2
        refine ⟨.Name (EPath.new tok.text none), p3, ?_, ha3, ?_⟩
        · simp only [expr_primary, hnext, hty, hpeek]
        · simp [shape_eq, EPath.new, htext]
      · obtain ⟨p3, hpeek, ha3⟩ := avail_peek_ty_cons2 ha2
        refine ⟨.Name (EPath.new tok.text none), p3, ?_, ha3, ?_⟩
        · simp only [expr_primary, hnext, hty, hpeek]
          split
          · rename_i hcon
            injection hcon with hcon2
            exact absurd hcon2 hne1
          · rename_i hcon
            injection hcon with hcon2
            exact absurd hcon2 hne2
          · rfl
        · simp [shape_eq, EPath.new, htext]
    | unop_rel op r Tr lp opTok rp hop hlpty hopty2 hrpty hrel_r =>
      simp only [List.length_cons, List.length_append, List.length_nil] at hpf
      obtain ⟨p2, hnext, ha2⟩ := avail_next_cons2
        (show AvailP 2 p (lp :: (opTok :: ((Tr ++ [rp]) ++ R))) from ha)
      obtain ⟨p3, hnext2, ha3⟩ := avail_next_cons2 ha2
      rw [List.append_assoc] at ha3
      obtain ⟨a, rfl⟩ : ∃ a, pf = a + 1 := ⟨pf - 1, by omega⟩
      obtain ⟨b, rfl⟩ : ∃ b, a = b + 1 := ⟨a - 1, by omega⟩
      obtain ⟨c, rfl⟩ : ∃ c, b = c + 1 := ⟨b - 1, by omega⟩
      have hpre : prefix_binding_power op = some ((), 5) := by
        rcases hop with rfl | rfl <;> rfl
      have hst : StopHead ([rp] ++ R) := Or.inr ⟨rp, R, rfl, Or.inl hrpty⟩
      obtain ⟨r2, p4, hbp, ha4, hshr⟩ := (ih c (by omega)).2.1 5 r Tr ([rp] ++ R) p3
        hrel_r ha3 hst (by omega)
      have hprimmid : expr_primary 2 (c + 1) p2 = .ok (.ok (.unop op r2), p4) := by
        simp only [expr_primary, hnext2, hopty2, hpre, hbp]
      obtain ⟨p5, hloopmid, ha5⟩ := bploop_exit2 c 0 (.unop op r2) p4 ([rp] ++ R) ha4 hst
      have hC : expr_bp 2 (c + 1 + 1) 0 p2 = .ok (.ok (.unop op r2), p5) := by
        simp only [expr_bp, hprimmid, hloopmid]
      obtain ⟨p6, hnty, ha6⟩ := avail_next_ty_cons2 ha5
      refine ⟨.unop op r2, p6, ?_, ha6, ?_⟩
      · simp only [expr_primary, hnext, hlpty, hC, hnty, hrpty]
      · simp [shape_eq, hshr]
    | binop_rel l op r Tl Tr lp opTok rp hop4 hlpty hopty2 hrpty hrel_l hrel_r =>
      simp only [List.length_cons, List.length_append, List.length_nil] at hpf
      obtain ⟨p2, hnext, ha2⟩ := avail_next_cons2
        (show AvailP 2 p (lp :: ((Tl ++ opTok :: (Tr ++ [rp])) ++ R)) from ha)
      rw [List.append_assoc] at ha2
      obtain ⟨a, rfl⟩ : ∃ a, pf = a + 1 := ⟨pf - 1, by omega⟩
      obtain ⟨b, rfl⟩ : ∃ b, a = b + 1 := ⟨a - 1, by omega⟩
      have hrestl : RestOK ((opTok :: (Tr ++ [rp])) ++ R) := by
        refine Or.inr ⟨opTok, (Tr ++ [rp]) ++ R, rfl, ?_, ?_⟩ <;>
          exact fun hcon => by rw [hopty2] at hcon; exact nomatch hcon
      obtain ⟨l2, p4, hprim_l, ha4, hshl⟩ := (ih b (by omega)).1 l Tl
        ((opTok :: (Tr ++ [rp])) ++ R) p2 hrel_l ha2 hrestl (by omega)
      rw [List.cons_append] at ha4
      obtain ⟨p5, hpeek5, ha5⟩ := avail_peek_ty_cons2 ha4
      obtain ⟨p6, hnext6, ha6⟩ := avail_next_cons2 ha5
      rw [List.append_assoc] at ha6
      obtain ⟨c, rfl⟩ : ∃ c, b = c + 1 := ⟨b - 1, by omega⟩
      obtain ⟨⟨lbp, rbp⟩, hinfix⟩ := infix_bp_four hop4
      have hst : StopHead ([rp] ++ R) := Or.inr ⟨rp, R, rfl, Or.inl hrpty⟩
      obtain ⟨r2, p7, hbpr, ha7, hshr⟩ := (ih c (by omega)).2.1 rbp r Tr ([rp] ++ R) p6
        hrel_r ha6 hst (by omega)
      have hstep : expr_bp_loop 2 (c + 1) 0 l2 p4 =
          expr_bp_loop 2 c 0 (.binop l2 op r2) p7 := by
        simp only [expr_bp_loop, hpeek5, hopty2, is_bp_candidate,
          postfix_bp_four hop4, hinfix, if_neg (Nat.not_lt_zero lbp), hnext6, hbpr]
        rfl
      obtain ⟨d, rfl⟩ : ∃ d, c = d + 1 := ⟨c - 1, by omega⟩
      obtain ⟨p8, hexit, ha8⟩ := bploop_exit2 d 0 (.binop l2 op r2) p7 ([rp] ++ R) ha7 hst
      have hloopfull := hstep.trans hexit
      have hC : expr_bp 2 (d + 1 + 1 + 1) 0 p2 =
          .ok (.ok (.binop l2 op r2), p8) := by
        simp only [expr_bp, hprim_l, hloopfull]
      obtain ⟨p9, hnty, ha9⟩ := avail_next_ty_cons2 ha8
      refine ⟨.binop l2 op r2, p9, ?_, ha9, ?_⟩
      · simp only [expr_primary, hnext, hlpty, hC, hnty, hrpty]
      · simp [shape_eq, hshl, hshr]
    | index_rel ex ix Te Ti lp lsq rsq rp hlpty hlsqty hrsqty hrpty hrel_e hrel_i =>
      simp only [List.length_cons, List.length_append, List.length_nil] at hpf
      obtain ⟨p2, hnext, ha2⟩ := avail_next_cons2
        (show AvailP 2 p (lp :: ((Te ++ lsq :: (Ti ++ [rsq, rp])) ++ R)) from ha)
      rw [List.append_assoc] at ha2
      obtain ⟨a, rfl⟩ : ∃ a, pf = a + 1 := ⟨pf - 1, by omega⟩
      obtain ⟨b, rfl⟩ : ∃ b, a = b + 1 := ⟨a - 1, by omega⟩
      have hreste : RestOK ((lsq :: (Ti ++ [rsq, rp])) ++ R) := by
        refine Or.inr ⟨lsq, (Ti ++ [rsq, rp]) ++ R, rfl, ?_, ?_⟩ <;>
          exact fun hcon => by rw [hlsqty] at hcon; exact absurd hcon (by decide)
      obtain ⟨e2, p4, hprim_e, ha4, hshe⟩ := (ih b (by omega)).1 ex Te
        ((lsq :: (Ti ++ [rsq, rp])) ++ R) p2 hrel_e ha2 hreste (by omega)
      rw [List.cons_append] at ha4
      obtain ⟨p5, hpeek5, ha5⟩ := avail_peek_ty_cons2 ha4
      obtain ⟨p6, hnext6, ha6⟩ := avail_next_cons2 ha5
      rw [List.append_assoc] at ha6
      obtain ⟨c, rfl⟩ : ∃ c, b = c + 1 := ⟨b - 1, by omega⟩
      have hst : StopHead ([rsq, rp] ++ R) :=
        Or.inr ⟨rsq, [rp] ++ R, rfl, Or.inr (Or.inl hrsqty)⟩
      obtain ⟨i2, p7, hbpi, ha7, hshi⟩ := (ih c (by omega)).2.1 0 ix Ti ([rsq, rp] ++ R)
        p6 hrel_i ha6 hst (by omega)
      obtain ⟨p8, hnty8, ha8⟩ := avail_next_ty_cons2 ha7
      have hstep : expr_bp_loop 2 (c + 1) 0 e2 p4 =
          expr_bp_loop 2 c 0 (.Index e2 i2) p8 := by
        simp only [expr_bp_loop, hpeek5, hlsqty, is_bp_candidate, postfix_binding_power,
          if_neg (Nat.not_lt_zero 7), hnext6, hbpi, hnty8, hrsqty]
        rfl
      obtain ⟨d, rfl⟩ : ∃ d, c = d + 1 := ⟨c - 1, by omega⟩
      have hst2 : StopHead ([rp] ++ R) := Or.inr ⟨rp, R, rfl, Or.inl hrpty⟩
      obtain ⟨p9, hexit, ha9⟩ := bploop_exit2 d 0 (.Index e2 i2) p8 ([rp] ++ R) ha8 hst2
      have hloopfull := hstep.trans hexit
      have hC : expr_bp 2 (d + 1 + 1 + 1) 0 p2 = .ok (.ok (.Index e2 i2), p9) := by
        simp only [expr_bp, hprim_e, hloopfull]
      obtain ⟨p10, hnty, ha10⟩ := avail_next_ty_cons2 ha9
      refine ⟨.Index e2 i2, p10, ?_, ha10, ?_⟩
      · simp only [expr_primary, hnext, hlpty, hC, hnty, hrpty]
      · simp [shape_eq, hshe, hshi]
    | call_rel w args Ta lp fTok lp2 rp2 rp hlpty hfty hft hlp2ty hrp2ty hrpty hargs =>
      simp only [List.length_cons, List.length_append, List.length_nil] at hpf
      obtain ⟨p2, hnext, ha2⟩ := avail_next_cons2
        (show AvailP 2 p (lp :: (fTok :: (lp2 :: ((Ta ++ [rp2, rp]) ++ R)))) from ha)
      obtain ⟨p3, hnext2, ha3⟩ := avail_next_cons2 ha2
      obtain ⟨p4, hpeek4, ha4⟩ := avail_peek_ty_cons2 ha3
      obtain ⟨p5, hnext5, ha5⟩ := avail_next_cons2 ha4
      rw [List.append_assoc] at ha5
      obtain ⟨a, rfl⟩ : ∃ a, pf = a + 1 := ⟨pf - 1, by omega⟩
      obtain ⟨b, rfl⟩ : ∃ b, a = b + 1 := ⟨a - 1, by omega⟩
      obtain ⟨b2, rfl⟩ : ∃ b2, b = b2 + 1 := ⟨b - 1, by omega⟩
      obtain ⟨args2, p6, hcall, ha6, hsha⟩ := (ih b2 (by omega)).2.2 args Ta rp2
        (rp :: R) [] (EPath.new fTok.text none) p5 hargs ha5 hrp2ty (by omega)
      have hprimmid : expr_primary 2 (b2 + 1) p2 =
          .ok (.ok (.Call (EPath.new fTok.text none) ([] ++ args2)), p6) := by
        simp only [expr_primary, hnext2, hfty, hpeek4, hlp2ty, hnext5, hcall]
      have hst : StopHead (rp :: R) := Or.inr ⟨rp, R, rfl, Or.inl hrpty⟩
      obtain ⟨p7, hexit, ha7⟩ := bploop_exit2 b2 0
        (.Call (EPath.new fTok.text none) ([] ++ args2)) p6 (rp :: R) ha6 hst
      have hC : expr_bp 2 (b2 + 1 + 1) 0 p2 =
          .ok (.ok (.Call (EPath.new fTok.text none) ([] ++ args2)), p7) := by
        simp only [expr_bp, hprimmid, hexit]
      obtain ⟨p8, hnty, ha8⟩ := avail_next_ty_cons2 ha7
      refine ⟨.Call (EPath.new fTok.text none) ([] ++ args2), p8, ?_, ha8, ?_⟩
      · simp only [expr_primary, hnext, hlpty, hC, hnty, hrpty]
      · simp [shape_eq, EPath.new, hft, hsha]
  · -- expr_bp
    intro min_bp e T R p hrel ha hstop hpf
    obtain ⟨a, rfl⟩ : ∃ a, pf = a + 1 := ⟨pf - 1, by omega⟩
    obtain ⟨e2, p2, hprim, ha2, hsh⟩ := (ih a (by omega)).1 e T R p hrel ha
      (restOK_of_stopHead hstop) (by omega)
    obtain ⟨b, rfl⟩ : ∃ b, a = b + 1 := ⟨a - 1, by omega⟩
    obtain ⟨p3, hloop, ha3⟩ := bploop_exit2 b min_bp e2 p2 R ha2 hstop
    refine ⟨e2, p3, ?_, ha3, hsh⟩
    simp only [expr_bp, hprim, hloop]
  · -- call_expr_loop
    intro args Ta rpt R acc f p hrel ha hrpt hpf
    cases hrel with
    | last a0 Ta0 h0 =>
      obtain ⟨g, rfl⟩ : ∃ g, pf = g + 1 := ⟨pf - 1, by omega⟩
      obtain ⟨arg2, p2, hbp, ha2, hsh⟩ := (ih g (by omega)).2.1 0 a0 Ta (rpt :: R) p
        h0 ha (Or.inr ⟨rpt, R, rfl, Or.inl hrpt⟩) (by omega)
      obtain ⟨p3, hpeek, ha3⟩ := avail_peek_ty_cons2 ha2
      obtain ⟨p4, hnext, ha4⟩ := avail_next_cons2 ha3
      refine ⟨[arg2], p4, ?_, ha4, ?_⟩
      · simp only [call_expr_loop, hbp, hpeek, hrpt, hnext]
      · simp [shape_eq_args, hsh]
    | cons a0 Ta0 rest2 Trest comma h0 hcomma hrest2 =>
      simp only [List.length_cons, List.length_append, List.length_nil] at hpf
      rw [List.append_assoc] at ha
      obtain ⟨g, rfl⟩ : ∃ g, pf = g + 1 := ⟨pf - 1, by omega⟩
      obtain ⟨arg2, p2, hbp, ha2, hsh⟩ := (ih g (by omega)).2.1 0 a0 Ta0
        ((comma :: Trest) ++ (rpt :: R)) p h0 ha
        (Or.inr ⟨comma, Trest ++ (rpt :: R), rfl, Or.inr (Or.inr hcomma)⟩)
        (by omega)
      rw [List.cons_append] at ha2
      obtain ⟨p3, hpeek, ha3⟩ := avail_peek_ty_cons2 ha2
      obtain ⟨p4, hnext, ha4⟩ := avail_next_cons2 ha3
      obtain ⟨args2, p5, hcall, ha5, hsha⟩ := (ih g (by omega)).2.2 rest2 Trest rpt R
        (acc ++ [arg2]) f p4 hrest2 ha4 hrpt (by omega)
      have hacc : (acc ++ [arg2]) ++ args2 = acc ++ (arg2 :: args2) := by simp
      rw [hacc] at hcall
      refine ⟨arg2 :: args2, p5, ?_, ha5, ?_⟩
      · simp only [call_expr_loop, hbp, hpeek, hcomma, hnext, hcall]
      · simp [shape_eq_args, hsh, hsha]

/-- C9 (amended): for every AST in the well-formed class (`wfE`: infix
`+ - * /`, prefix `+ -`, single-segment valid identifier names, integer and
character literals, calls with at least one argument, indexing) whose
rendering is ASCII, rendering and re-parsing through the full front end
succeeds and returns an AST of identical operator/structure shape. -/
theorem claim_C9_amended_round_trip (e : Expr) (hwf : wfE e = true)
    (s : List Char) (hr : renderExpr e = some s) (ha : asciiSrc s) :
    ∃ pfuel e2, run_expr 2 pfuel s = .ok (.ok e2) ∧ shape_eq e e2 = true := by
  obtain ⟨T, hTok, hseg⟩ := toklem s ha (sizeOf e) e le_rfl hwf s hr 0 [] [] [] 1 1
    (by omega) (Or.inl rfl) (by simp) (Or.inl rfl)
  have hchrs : (stateAt s (0 + List.length ([] : List Char) + s.length) []
      (stdL s (0 + List.length ([] : List Char) + s.length))
      (stdC s (0 + List.length ([] : List Char) + s.length)) false false).chrs = [] := by
    show charIndices (off s (0 + List.length ([] : List Char) + s.length))
      (s.drop (0 + List.length ([] : List Char) + s.length)) = []
    rw [show 0 + List.length ([] : List Char) + s.length = s.length from by simp,
      List.drop_length]
    rfl
  have hPulls : Pulls 2 (Tokenizer.new s) T := pulls_of_pullsSeg hseg hchrs
  have hav : AvailP 2 (Parser.new s) (T ++ []) :=
    Or.inl ⟨rfl, by rw [List.append_nil]; exact hPulls⟩
  obtain ⟨e2, p2, hbp, _, hsh⟩ := (parse_rec (4 * T.length + 5)).2.1 0 e T []
    (Parser.new s) hTok hav (Or.inl rfl) le_rfl
  refine ⟨4 * T.length + 5, e2, ?_, hsh⟩
  simp only [run_expr, Parser.expr, hbp]

/-- Witness for the amended C9 at the concrete expression `1 + x`, which
renders as `(1 + x)`. -/
theorem claim_C9_amended_witness :
    wfE (.binop (.Lit (.Number (.Integer 1))) .Plus (.Name ⟨['x'], none⟩)) = true ∧
    renderExpr (.binop (.Lit (.Number (.Integer 1))) .Plus (.Name ⟨['x'], none⟩)) =
      some ['(', '1', ' ', '+', ' ', 'x', ')'] ∧
    asciiSrc ['(', '1', ' ', '+', ' ', 'x', ')'] ∧
    ∃ pfuel e2, run_expr 2 pfuel ['(', '1', ' ', '+', ' ', 'x', ')'] = .ok (.ok e2) ∧
      shape_eq (.binop (.Lit (.Number (.Integer 1))) .Plus (.Name ⟨['x'], none⟩)) e2 =
        true :=
  ⟨rfl, rfl, by unfold asciiSrc; decide,
    claim_C9_amended_round_trip
      (.binop (.Lit (.Number (.Integer 1))) .Plus (.Name ⟨['x'], none⟩)) rfl
      ['(', '1', ' ', '+', ' ', 'x', ')'] rfl (by unfold asciiSrc; decide)⟩
